import Mathlib

/-!
# dsp: elementary operations on numeric sequences

A shallow embedding of `dsp.go` (the template over `FLOAT`) and proofs about it.

* `FLOAT` is read over exact arithmetic, as the rationals. Where a value
  depends on how the floating-point operations round (`Sub`, `Average`,
  `AverageFilter`, `Resample`, `Range`), the function is embedded a second time,
  as `rounded.F`, with an explicit rounding after every operation; `binary64`
  and `binary32` are the roundings of Go `float64` and `float32`.
* A Go slice is a `List`; Go `int` is `Int`. Only `EveryNth` and `Range` compute
  an integer that can leave the 64-bit range on a valid input, and there the
  arithmetic is wrapped explicitly (`wrap64`); every other operation stays
  within the range of the lengths involved.
* Every operation returns an `Option`: `none` is a run-time panic (an index or
  slice bound out of range, a negative length given to `make`).
-/

namespace dsp

/-- The scalar type `FLOAT` of the template. -/
abbrev FLOAT := ℚ

/-- Go `len(a)`. -/
def len {α : Type} (a : List α) : Int := (a.length : Int)

/-- Go `a[i]` read; `none` when `i` is out of range. -/
def index {α : Type} (a : List α) (i : Int) : Option α :=
  if 0 ≤ i then a[i.toNat]? else none

/-- Go `a[i] = v`; `none` when `i` is out of range. -/
def assign {α : Type} (a : List α) (i : Int) (v : α) : Option (List α) :=
  if 0 ≤ i ∧ i < len a then some (a.set i.toNat v) else none

/-- Go `make([]FLOAT, n)`: `n` zeros; `none` when `n` is negative. -/
def make (n : Int) : Option (List FLOAT) :=
  if 0 ≤ n then some (List.replicate n.toNat 0) else none

/-- Go `copy(dst, src)`: the first `min(len(dst), len(src))` elements of `dst`
are overwritten with those of `src`; the result is the new content of `dst`. -/
def copy {α : Type} (dst src : List α) : List α :=
  src.take (min dst.length src.length) ++ dst.drop (min dst.length src.length)

/-- Go `a[i:]`; `none` when `i` is out of range. -/
def sliceFrom {α : Type} (a : List α) (i : Int) : Option (List α) :=
  if 0 ≤ i ∧ i ≤ len a then some (a.drop i.toNat) else none

/-- Runs `body i`, `body (i+1)`, ... for `k` iterations, threading the state. -/
def forLoop {σ : Type} (body : Int → σ → Option σ) : Nat → Int → σ → Option σ
  | 0, _, s => some s
  | k + 1, i, s => (body i s).bind (fun s1 => forLoop body k (i + 1) s1)

/-- Go `for i := lo; i < hi; i++ { body }` where the body changes neither `i`
nor `hi`. -/
def forRange {σ : Type} (lo hi : Int) (body : Int → σ → Option σ) (s : σ) : Option σ :=
  forLoop body (hi - lo).toNat lo s

/-- The function `Copy` of dsp.go. -/
def Copy (a : List FLOAT) : Option (List FLOAT) := do
  let c ← make (len a)
  pure (copy c a)

/-- First loop of `AverageFilter`: `slidingSum += a[i]`. -/
def AverageFilter.seed (a : List FLOAT) (i : Int) (slidingSum : FLOAT) : Option FLOAT := do
  let x ← index a i
  pure (slidingSum + x)

/-- Second loop of `AverageFilter`; the state is `(slidingSum, b)`. -/
def AverageFilter.slide (a : List FLOAT) (width : Int) (f : FLOAT) (i : Int)
    (st : FLOAT × List FLOAT) : Option (FLOAT × List FLOAT) := do
  let x ← index a (i + width - 1)
  let y ← index a (i - 1)
  let slidingSum := st.1 + (x - y)
  let b ← assign st.2 i (slidingSum * f)
  pure (slidingSum, b)

/-- The function `AverageFilter` of dsp.go. -/
def AverageFilter (a : List FLOAT) (width : Int) : Option (List FLOAT) :=
  let width := if width ≥ len a then len a else width
  if width ≤ 1 then Copy a
  else do
    let b ← make (len a - (width - 1))
    let f : FLOAT := 1 / (width : FLOAT)
    let slidingSum ← forRange 0 width (AverageFilter.seed a) 0
    let b ← assign b 0 (slidingSum * f)
    let st ← forRange 1 (len b) (AverageFilter.slide a width f) (slidingSum, b)
    pure st.2

/-- Go `sort.Sort(floats(buf))` with `Less(i, j) = f[i] < f[j]`: the ascending
rearrangement of `buf`. -/
def sortFloats (buf : List FLOAT) : List FLOAT :=
  buf.insertionSort (fun x y => x ≤ y)

/-- Loop body of `MedianFilter`; the state is `(buf, b)`. -/
def MedianFilter.body (a : List FLOAT) (width : Int) (i : Int)
    (st : List FLOAT × List FLOAT) : Option (List FLOAT × List FLOAT) := do
  let src ← sliceFrom a i
  let buf := copy st.1 src
  let buf := sortFloats buf
  let v ← index buf (Int.tdiv width 2)
  let b ← assign st.2 i v
  pure (buf, b)

/-- The function `MedianFilter` of dsp.go. -/
def MedianFilter (a : List FLOAT) (width : Int) : Option (List FLOAT) :=
  let width := if width ≥ len a then len a else width
  if width ≤ 1 then Copy a
  else do
    let buf ← make width
    let b ← make (len a - width + 1)
    let st ← forRange 0 (len b) (MedianFilter.body a width) (buf, b)
    pure st.2

/-- A `FLOAT` result that may also be one of the two infinities: `⊥` is
`math.Inf(-1)` and `⊤` is `math.Inf(1)`. -/
abbrev XFLOAT := WithBot (WithTop FLOAT)

/-- The value `FLOAT(math.Inf(1))`. -/
def posInf : XFLOAT := ((⊤ : WithTop FLOAT) : WithBot (WithTop FLOAT))

/-- The value `FLOAT(math.Inf(-1))`. -/
def negInf : XFLOAT := ⊥

/-- A finite `FLOAT` among the extended values. -/
def finite (x : FLOAT) : XFLOAT := ((x : WithTop FLOAT) : WithBot (WithTop FLOAT))

/-- Loop body of `MinMax`; the state is `(minIndex, maxIndex)`. -/
def MinMax.body (a : List FLOAT) (i : Int) (st : Int × Int) : Option (Int × Int) := do
  let x ← index a i
  let lo ← index a st.1
  let minIndex := if x < lo then i else st.1
  let hi ← index a st.2
  let maxIndex := if x > hi then i else st.2
  pure (minIndex, maxIndex)

/-- The function `MinMax` of dsp.go: `(minIndex, minValue, maxIndex, maxValue)`. -/
def MinMax (a : List FLOAT) : Option (Int × XFLOAT × Int × XFLOAT) :=
  if len a = 0 then some (-1, posInf, -1, negInf)
  else do
    let st ← forRange 1 (len a) (MinMax.body a) (0, 0)
    let minValue ← index a st.1
    let maxValue ← index a st.2
    pure (st.1, finite minValue, st.2, finite maxValue)

/-- The loop `for _, v := range a { if len(v) < n { n = len(v) } }` shared by
`Add`, `Sub` and `Mul`. -/
def shortest (a : List (List FLOAT)) (n : Int) : Int :=
  a.foldl (fun n v => if len v < n then len v else n) n

/-- Inner loop body of `Add`: `sum[i] += a[j][i]`. -/
def Add.inner (a : List (List FLOAT)) (i j : Int) (sum : List FLOAT) : Option (List FLOAT) := do
  let s ← index sum i
  let aj ← index a j
  let x ← index aj i
  assign sum i (s + x)

/-- The function `Add` of dsp.go. -/
def Add (a : List (List FLOAT)) : Option (List FLOAT) :=
  if len a = 0 then some []
  else do
    let a0 ← index a 0
    let n := shortest a (len a0)
    let sum ← make n
    forRange 0 (len sum) (fun i sum => forRange 0 (len a) (Add.inner a i) sum) sum

/-- Inner loop body of `Sub`: `diff[i] -= a[j][i]`. -/
def Sub.inner (a : List (List FLOAT)) (i j : Int) (diff : List FLOAT) : Option (List FLOAT) := do
  let d ← index diff i
  let aj ← index a j
  let x ← index aj i
  assign diff i (d - x)

/-- The function `Sub` of dsp.go. -/
def Sub (a : List (List FLOAT)) : Option (List FLOAT) :=
  if len a = 0 then some []
  else do
    let a0 ← index a 0
    let n := shortest a (len a0)
    let diff ← make n
    let diff := copy diff a0
    forRange 0 (len diff) (fun i diff => forRange 1 (len a) (Sub.inner a i) diff) diff

/-- Inner loop body of `Mul`: `product[i] *= a[j][i]`. -/
def Mul.inner (a : List (List FLOAT)) (i j : Int) (product : List FLOAT) :
    Option (List FLOAT) := do
  let p ← index product i
  let aj ← index a j
  let x ← index aj i
  assign product i (p * x)

/-- Outer loop body of `Mul`: `product[i] = 1`, then the inner loop. -/
def Mul.outer (a : List (List FLOAT)) (i : Int) (product : List FLOAT) :
    Option (List FLOAT) := do
  let product ← assign product i 1
  forRange 0 (len a) (Mul.inner a i) product

/-- The function `Mul` of dsp.go. -/
def Mul (a : List (List FLOAT)) : Option (List FLOAT) :=
  if len a = 0 then some []
  else do
    let a0 ← index a 0
    let n := shortest a (len a0)
    let product ← make n
    forRange 0 (len product) (Mul.outer a) product

/-- The function `Repeat` of dsp.go. -/
def Repeat (x : FLOAT) (n : Int) : Option (List FLOAT) :=
  if n ≤ 0 then some []
  else do
    let v ← make n
    forRange 0 (len v) (fun i v => assign v i x) v

/-- Go `int(x)` for a float `x`: truncation toward zero. -/
def toInt (x : ℚ) : Int := Int.tdiv x.num x.den

/-- Loop body of `Resample`; `float64` is read over exact arithmetic as well. -/
def Resample.body (a : List FLOAT) (indexScale : ℚ) (i : Int) (b : List FLOAT) :
    Option (List FLOAT) := do
  let j : ℚ := (i : ℚ) * indexScale
  let low := toInt j
  let high := low + 1
  let fraction : ℚ := j - (low : ℚ)
  let al ← index a low
  let ah ← index a high
  assign b i (fraction * al + (1 - fraction) * ah)

/-- The function `Resample` of dsp.go. -/
def Resample (a : List FLOAT) (newLen : Int) : Option (List FLOAT) :=
  if len a = 0 ∨ newLen ≤ 0 then some []
  else if len a = 1 then do
    let a0 ← index a 0
    Repeat a0 newLen
  else if newLen = 1 then do
    let a0 ← index a 0
    let aL ← index a (len a - 1)
    pure [(a0 + aL) / 2]
  else do
    let indexScale : ℚ := ((len a - 1 : Int) : ℚ) / ((newLen - 1 : Int) : ℚ)
    let b ← make newLen
    let a0 ← index a 0
    let b ← assign b 0 a0
    let aL ← index a (len a - 1)
    let b ← assign b (len b - 1) aL
    forRange 1 (len b - 1) (Resample.body a indexScale) b

/-- The function `Average` of dsp.go. -/
def Average (a : List FLOAT) : FLOAT :=
  if len a = 0 then 0
  else a.foldl (fun sum v => sum + v) 0 / ((len a : Int) : FLOAT)

/-- Loop body of `Derivative`: `b[i] = a[i+1] - a[i]`. -/
def Derivative.body (a : List FLOAT) (i : Int) (b : List FLOAT) : Option (List FLOAT) := do
  let x ← index a (i + 1)
  let y ← index a i
  assign b i (x - y)

/-- The function `Derivative` of dsp.go. -/
def Derivative (a : List FLOAT) : Option (List FLOAT) :=
  if len a ≤ 1 then make (len a)
  else do
    let b ← make (len a - 1)
    forRange 0 (len b) (Derivative.body a) b

/-- Go `for n > 0 { body; n-- }` for a counter that starts at `k`. -/
def countDown {σ : Type} (body : σ → Option σ) : Nat → σ → Option σ
  | 0, s => some s
  | k + 1, s => (body s).bind (fun s1 => countDown body k s1)

/-- The function `NthDerivative` of dsp.go. -/
def NthDerivative (a : List FLOAT) (n : Int) : Option (List FLOAT) :=
  if n ≤ 0 then Copy a
  else countDown Derivative n.toNat a

/-- A Go `int` operation result on a 64-bit platform: the value wrapped into
`[-2^63, 2^63)`. -/
def wrap64 (x : Int) : Int := (x + 2 ^ 63) % 2 ^ 64 - 2 ^ 63

/-- Loop body of `EveryNth`: `b[i] = a[i*n]`. -/
def EveryNth.body (a : List FLOAT) (n : Int) (i : Int) (b : List FLOAT) :
    Option (List FLOAT) := do
  let x ← index a (wrap64 (i * n))
  assign b i x

/-- The function `EveryNth` of dsp.go. The length `(len(a)+n-1)/n` is computed
in 64-bit `int` arithmetic: sums wrap and `/` truncates toward zero. -/
def EveryNth (a : List FLOAT) (n : Int) : Option (List FLOAT) :=
  if n ≤ 0 then some []
  else do
    let b ← make (Int.tdiv (wrap64 (wrap64 (len a + n) - 1)) n)
    forRange 0 (len b) (EveryNth.body a n) b

/-- Loop body of `Reciprocal`: `b[i] = 1.0 / a[i]`. -/
def Reciprocal.body (a : List FLOAT) (i : Int) (b : List FLOAT) : Option (List FLOAT) := do
  let x ← index a i
  assign b i (1 / x)

/-- The function `Reciprocal` of dsp.go. The quotient is that of the rationals;
a quotient by zero, which IEEE-754 makes an infinity or NaN, has no exact
value and nothing below is stated about it. -/
def Reciprocal (a : List FLOAT) : Option (List FLOAT) := do
  let b ← make (len a)
  forRange 0 (len b) (Reciprocal.body a) b

/-- Loop body of `SafeReciprocal`. -/
def SafeReciprocal.body (a : List FLOAT) (replacement : FLOAT) (i : Int) (b : List FLOAT) :
    Option (List FLOAT) := do
  let x ← index a i
  if x = 0 then assign b i replacement
  else assign b i (1 / x)

/-- The function `SafeReciprocal` of dsp.go. -/
def SafeReciprocal (a : List FLOAT) (replacement : FLOAT) : Option (List FLOAT) := do
  let b ← make (len a)
  forRange 0 (len b) (SafeReciprocal.body a replacement) b

/-- Loop body of `Div`: `div[i] = a[i] / b[i]`. -/
def Div.body (a b : List FLOAT) (i : Int) (div : List FLOAT) : Option (List FLOAT) := do
  let x ← index a i
  let y ← index b i
  assign div i (x / y)

/-- The function `Div` of dsp.go; for the quotient by zero see `Reciprocal`. -/
def Div (a b : List FLOAT) : Option (List FLOAT) :=
  let n := if len b < len a then len b else len a
  if n = 0 then some []
  else do
    let div ← make n
    forRange 0 (len div) (Div.body a b) div

/-- Loop body of `SafeDiv`. -/
def SafeDiv.body (a b : List FLOAT) (replacement : FLOAT) (i : Int) (div : List FLOAT) :
    Option (List FLOAT) := do
  let y ← index b i
  if y = 0 then assign div i replacement
  else do
    let x ← index a i
    assign div i (x / y)

/-- The function `SafeDiv` of dsp.go. -/
def SafeDiv (a b : List FLOAT) (replacement : FLOAT) : Option (List FLOAT) :=
  let n := if len b < len a then len b else len a
  if n = 0 then some []
  else do
    let div ← make n
    forRange 0 (len div) (SafeDiv.body a b replacement) div

/-- The function `MinIndex` of dsp.go. -/
def MinIndex (a : List FLOAT) : Option Int :=
  (MinMax a).map (fun r => r.1)

/-- The function `MinValue` of dsp.go. -/
def MinValue (a : List FLOAT) : Option XFLOAT :=
  (MinMax a).map (fun r => r.2.1)

/-- The function `MaxIndex` of dsp.go. -/
def MaxIndex (a : List FLOAT) : Option Int :=
  (MinMax a).map (fun r => r.2.2.1)

/-- The function `MaxValue` of dsp.go. -/
def MaxValue (a : List FLOAT) : Option XFLOAT :=
  (MinMax a).map (fun r => r.2.2.2)

/-- Loop body of `Negative`: `n[i] = -a[i]`. -/
def Negative.body (a : List FLOAT) (i : Int) (n : List FLOAT) : Option (List FLOAT) := do
  let x ← index a i
  assign n i (-x)

/-- The function `Negative` of dsp.go. -/
def Negative (a : List FLOAT) : Option (List FLOAT) := do
  let n ← make (len a)
  forRange 0 (len n) (Negative.body a) n

/-- Loop body of `AddOffset`: `b[i] = a[i] + offset`. -/
def AddOffset.body (a : List FLOAT) (offset : FLOAT) (i : Int) (b : List FLOAT) :
    Option (List FLOAT) := do
  let x ← index a i
  assign b i (x + offset)

/-- The function `AddOffset` of dsp.go. -/
def AddOffset (a : List FLOAT) (offset : FLOAT) : Option (List FLOAT) := do
  let b ← make (len a)
  forRange 0 (len b) (AddOffset.body a offset) b

/-- Loop body of `Reverse`: `y[i] = x[len(x)-1-i]`. -/
def Reverse.body (x : List FLOAT) (i : Int) (y : List FLOAT) : Option (List FLOAT) := do
  let v ← index x (len x - 1 - i)
  assign y i v

/-- The function `Reverse` of dsp.go. -/
def Reverse (x : List FLOAT) : Option (List FLOAT) := do
  let y ← make (len x)
  forRange 0 (len y) (Reverse.body x) y

/-- Loop body of `Scale`: `b[i] = a[i] * factor`. -/
def Scale.body (a : List FLOAT) (factor : FLOAT) (i : Int) (b : List FLOAT) :
    Option (List FLOAT) := do
  let x ← index a i
  assign b i (x * factor)

/-- The function `Scale` of dsp.go. -/
def Scale (a : List FLOAT) (factor : FLOAT) : Option (List FLOAT) := do
  let b ← make (len a)
  forRange 0 (len b) (Scale.body a factor) b

/-- The function `AbsValue` of dsp.go. -/
def AbsValue (x : FLOAT) : FLOAT :=
  if x ≥ 0 then x else -x

/-- Loop body of `Abs`: `a[i] = AbsValue(x[i])`. -/
def Abs.body (x : List FLOAT) (i : Int) (a : List FLOAT) : Option (List FLOAT) := do
  let v ← index x i
  assign a i (AbsValue v)

/-- The function `Abs` of dsp.go. -/
def Abs (x : List FLOAT) : Option (List FLOAT) := do
  let a ← make (len x)
  forRange 0 (len a) (Abs.body x) a

/-- The function `Range` of dsp.go. The bounds are 64-bit `int`s: the lengths
`b-a+1` and `a-b+1` and the values `a+i` and `a-i` are computed with wrapping;
`FLOAT(k)` is the exact value of `k`. -/
def Range (a b : Int) : Option (List FLOAT) :=
  if a ≤ b then do
    let r ← make (wrap64 (wrap64 (b - a) + 1))
    forRange 0 (len r) (fun i r => assign r i ((wrap64 (a + i) : Int) : FLOAT)) r
  else do
    let r ← make (wrap64 (wrap64 (a - b) + 1))
    forRange 0 (len r) (fun i r => assign r i ((wrap64 (a - i) : Int) : FLOAT)) r

/-- The functions that the template src/dsp.go declares, in source order (the
three `sort.Interface` methods of `floats` apart). -/
def templateFunctions : List String :=
  ["Copy", "MinMax", "MinIndex", "MinValue", "MaxIndex", "MaxValue", "AverageFilter",
    "MedianFilter", "Average", "Negative", "Derivative", "NthDerivative", "Add", "Sub",
    "AddOffset", "EveryNth", "Repeat", "Reverse", "Scale", "Reciprocal", "SafeReciprocal",
    "Abs", "AbsValue", "Range", "Mul", "Div", "SafeDiv", "Resample"]

/-- The functions that the 64-bit instance src/dsp64/dsp/dsp.go declares, in
source order (the three `sort.Interface` methods of `floats` apart). -/
def dsp64Functions : List String :=
  ["Copy", "MinMax", "MinIndex", "MinValue", "MaxIndex", "MaxValue", "AverageFilter",
    "MedianFilter", "Average", "Negative", "Derivative", "NthDerivative", "Add", "Sub",
    "AddOffset", "EveryNth", "Repeat", "Reverse", "Scale", "Abs", "AbsValue", "Range", "Mul"]

/-! ## The operations with rounded arithmetic

The functions that the value claims below need, once more, with every arithmetic
operation followed by a rounding `rnd` (to `FLOAT`) or `rnd64` (to `float64`):
the identity gives the operations above, `binary64` and `binary32` give the
arithmetic of Go `float64` and `float32`. Each operation is rounded on its own
(no fused multiply-add); values are finite (an overflow to an infinity is not
modelled). -/

/-- The integer nearest to `x`, a tie going to the even one. -/
def roundHalfEven (x : ℚ) : Int :=
  if x - (⌊x⌋ : ℚ) < 1 / 2 then ⌊x⌋
  else if 1 / 2 < x - (⌊x⌋ : ℚ) then ⌊x⌋ + 1
  else if ⌊x⌋ % 2 = 0 then ⌊x⌋ else ⌊x⌋ + 1

/-- The power `2^e` for an integer exponent `e`. -/
def pow2 (e : Int) : ℚ :=
  if 0 ≤ e then ((2 ^ e.toNat : Nat) : ℚ) else 1 / ((2 ^ (-e).toNat : Nat) : ℚ)

/-- The number of halvings that bring `n` below 2, at most `fuel` of them. -/
def ilog2.go : Nat → Nat → Nat
  | 0, _ => 0
  | fuel + 1, n => if 2 ≤ n then ilog2.go fuel (n / 2) + 1 else 0

/-- The integer logarithm `floor(log2 n)` of a positive `n` (0 for `n = 0`). -/
def ilog2 (n : Nat) : Nat := ilog2.go n n

/-- The exponent `floor(log2 x)` of a positive `x`. -/
def exponent (x : ℚ) : Int :=
  if pow2 ((ilog2 x.num.natAbs : Int) - (ilog2 x.den : Int)) ≤ x then
    (ilog2 x.num.natAbs : Int) - (ilog2 x.den : Int)
  else (ilog2 x.num.natAbs : Int) - (ilog2 x.den : Int) - 1

/-- Rounding of a real value to the nearest binary floating-point value with a
significand of `prec` bits and least normal exponent `emin`, a tie going to the
even significand (IEEE-754 round-to-nearest-even; below `2^emin` the spacing is
that of the subnormal values). -/
def roundTo (prec : Nat) (emin : Int) (x : ℚ) : ℚ :=
  if x = 0 then 0
  else
    roundHalfEven (x / pow2 (max (exponent |x|) emin - ((prec : Int) - 1))) *
      pow2 (max (exponent |x|) emin - ((prec : Int) - 1))

/-- Rounding to Go `float64` (IEEE-754 binary64). -/
def binary64 (x : ℚ) : ℚ := roundTo 53 (-1022) x

/-- Rounding to Go `float32` (IEEE-754 binary32). -/
def binary32 (x : ℚ) : ℚ := roundTo 24 (-126) x

/-- Inner loop body of `Sub`, rounded: `diff[i] -= a[j][i]`. -/
def rounded.Sub.inner (rnd : ℚ → ℚ) (a : List (List FLOAT)) (i j : Int) (diff : List FLOAT) :
    Option (List FLOAT) := do
  let d ← index diff i
  let aj ← index a j
  let x ← index aj i
  assign diff i (rnd (d - x))

/-- The function `Sub` of dsp.go, rounded. -/
def rounded.Sub (rnd : ℚ → ℚ) (a : List (List FLOAT)) : Option (List FLOAT) :=
  if len a = 0 then some []
  else do
    let a0 ← index a 0
    let n := shortest a (len a0)
    let diff ← make n
    let diff := copy diff a0
    forRange 0 (len diff)
      (fun i diff => forRange 1 (len a) (rounded.Sub.inner rnd a i) diff) diff

/-- The function `Average` of dsp.go, rounded. -/
def rounded.Average (rnd : ℚ → ℚ) (a : List FLOAT) : FLOAT :=
  if len a = 0 then 0
  else rnd (a.foldl (fun sum v => rnd (sum + v)) 0 / rnd ((len a : Int) : FLOAT))

/-- First loop of `AverageFilter`, rounded: `slidingSum += a[i]`. -/
def rounded.AverageFilter.seed (rnd : ℚ → ℚ) (a : List FLOAT) (i : Int) (slidingSum : FLOAT) :
    Option FLOAT := do
  let x ← index a i
  pure (rnd (slidingSum + x))

/-- Second loop of `AverageFilter`, rounded; the state is `(slidingSum, b)`. -/
def rounded.AverageFilter.slide (rnd : ℚ → ℚ) (a : List FLOAT) (width : Int) (f : FLOAT)
    (i : Int) (st : FLOAT × List FLOAT) : Option (FLOAT × List FLOAT) := do
  let x ← index a (i + width - 1)
  let y ← index a (i - 1)
  let slidingSum := rnd (st.1 + rnd (x - y))
  let b ← assign st.2 i (rnd (slidingSum * f))
  pure (slidingSum, b)

/-- The function `AverageFilter` of dsp.go, rounded. -/
def rounded.AverageFilter (rnd : ℚ → ℚ) (a : List FLOAT) (width : Int) :
    Option (List FLOAT) :=
  let width := if width ≥ len a then len a else width
  if width ≤ 1 then Copy a
  else do
    let b ← make (len a - (width - 1))
    let f : FLOAT := rnd (1 / rnd (width : FLOAT))
    let slidingSum ← forRange 0 width (rounded.AverageFilter.seed rnd a) 0
    let b ← assign b 0 (rnd (slidingSum * f))
    let st ← forRange 1 (len b) (rounded.AverageFilter.slide rnd a width f) (slidingSum, b)
    pure st.2

/-- The index scale that `Resample` computes,
`float64(len(a)-1) / float64(newLen-1)`, for `L = len(a)`. -/
def rounded.Resample.indexScale (rnd64 : ℚ → ℚ) (L newLen : Int) : ℚ :=
  rnd64 (rnd64 ((L - 1 : Int) : ℚ) / rnd64 ((newLen - 1 : Int) : ℚ))

/-- The position `j = float64(i) * indexScale` that the loop body of `Resample`
computes at `i`. -/
def rounded.Resample.position (rnd64 : ℚ → ℚ) (L newLen i : Int) : ℚ :=
  rnd64 (rnd64 (i : ℚ) * rounded.Resample.indexScale rnd64 L newLen)

/-- Loop body of `Resample`, rounded. The conversions `float64(a[low])` and
`float64(a[high])` widen and are exact. -/
def rounded.Resample.body (rnd rnd64 : ℚ → ℚ) (a : List FLOAT) (indexScale : ℚ) (i : Int)
    (b : List FLOAT) : Option (List FLOAT) := do
  let j : ℚ := rnd64 (rnd64 (i : ℚ) * indexScale)
  let low := toInt j
  let high := low + 1
  let fraction : ℚ := rnd64 (j - rnd64 (low : ℚ))
  let al ← index a low
  let ah ← index a high
  assign b i (rnd (rnd64 (rnd64 (fraction * al) + rnd64 (rnd64 (1 - fraction) * ah))))

/-- The value that the loop body of `Resample` writes at `i`, when both reads
are in range. -/
def rounded.Resample.value (rnd rnd64 : ℚ → ℚ) (a : List FLOAT) (indexScale : ℚ) (i : Int) :
    Option FLOAT := do
  let j : ℚ := rnd64 (rnd64 (i : ℚ) * indexScale)
  let low := toInt j
  let high := low + 1
  let fraction : ℚ := rnd64 (j - rnd64 (low : ℚ))
  let al ← index a low
  let ah ← index a high
  pure (rnd (rnd64 (rnd64 (fraction * al) + rnd64 (rnd64 (1 - fraction) * ah))))

/-- The function `Resample` of dsp.go, rounded. -/
def rounded.Resample (rnd rnd64 : ℚ → ℚ) (a : List FLOAT) (newLen : Int) :
    Option (List FLOAT) :=
  if len a = 0 ∨ newLen ≤ 0 then some []
  else if len a = 1 then do
    let a0 ← index a 0
    Repeat a0 newLen
  else if newLen = 1 then do
    let a0 ← index a 0
    let aL ← index a (len a - 1)
    pure [rnd (rnd (a0 + aL) / 2)]
  else do
    let indexScale : ℚ := rounded.Resample.indexScale rnd64 (len a) newLen
    let b ← make newLen
    let a0 ← index a 0
    let b ← assign b 0 a0
    let aL ← index a (len a - 1)
    let b ← assign b (len b - 1) aL
    forRange 1 (len b - 1) (rounded.Resample.body rnd rnd64 a indexScale) b

/-- The function `Range` of dsp.go, rounded: `FLOAT(k)` is `k` rounded to
`FLOAT`. -/
def rounded.Range (rnd : ℚ → ℚ) (a b : Int) : Option (List FLOAT) :=
  if a ≤ b then do
    let r ← make (wrap64 (wrap64 (b - a) + 1))
    forRange 0 (len r) (fun i r => assign r i (rnd ((wrap64 (a + i) : Int) : FLOAT))) r
  else do
    let r ← make (wrap64 (wrap64 (a - b) + 1))
    forRange 0 (len r) (fun i r => assign r i (rnd ((wrap64 (a - i) : Int) : FLOAT))) r

/-! ## Definitions that follow the specification -/

/-- The direct per-window mean of the specification: the mean of
`a[i .. i+e-1]`. -/
def windowMean (a : List FLOAT) (i e : Int) : FLOAT :=
  ((a.drop i.toNat).take e.toNat).sum / (e : FLOAT)

/-- The window `a[i .. i+e-1]` of the specification. -/
def window (a : List FLOAT) (i e : Int) : List FLOAT :=
  (a.drop i.toNat).take e.toNat

/-- The fractional source position `j = i * (L-1)/(newLength-1)` of the
specification, for input length `L`. -/
def sourcePos (L newLength i : Int) : ℚ :=
  (i : ℚ) * ((L : ℚ) - 1) / ((newLength : ℚ) - 1)

/-- The interior value of the specification:
`fraction*input[low] + (1-fraction)*input[high]` with `low = floor(j)`,
`high = low+1` and `fraction = j - low`. -/
def interpolate (a : List FLOAT) (newLength i : Int) : Option FLOAT := do
  let j := sourcePos (len a) newLength i
  let low := ⌊j⌋
  let high := low + 1
  let fraction := j - (low : ℚ)
  let al ← index a low
  let ah ← index a high
  pure (fraction * al + (1 - fraction) * ah)

/-- The values `a[0][i], a[1][i], ...` that an elementwise combinator combines
at output index `i`. -/
def column (a : List (List FLOAT)) (i : Nat) : List FLOAT :=
  a.map (fun v => v.getD i 0)

/-! ## Lemmas on the Go primitives -/

theorem len_nonneg {α : Type} (a : List α) : 0 ≤ len a := by
  unfold len; exact Int.natCast_nonneg _

theorem index_natCast {α : Type} (a : List α) (n : Nat) : index a (n : Int) = a[n]? := by
  simp [index]

theorem index_neg {α : Type} (a : List α) (i : Int) (h : i < 0) : index a i = none := by
  simp [index, h]

theorem assign_natCast {α : Type} (a : List α) (n : Nat) (v : α) (h : n < a.length) :
    assign a (n : Int) v = some (a.set n v) := by
  simp [assign, len, h]

theorem make_natCast (n : Nat) : make (n : Int) = some (List.replicate n 0) := by
  simp [make]

theorem copy_eq_src {α : Type} (dst src : List α) (h : dst.length = src.length) :
    copy dst src = src := by
  simp [copy, h]

theorem set_of_getElem? {α : Type} (s : List α) (i : Nat) (y : α) (h : s[i]? = some y) :
    s.set i y = s := by
  have hi : i < s.length := by
    by_contra hc
    rw [List.getElem?_eq_none (by omega)] at h
    exact Option.noConfusion h
  apply List.ext_getElem?
  intro t
  by_cases hti : t = i
  · subst hti; rw [List.getElem?_set_self hi, h]
  · rw [List.getElem?_set_ne (fun h2 => hti h2.symm)]

theorem forLoop_inv {σ : Type} (body : Int → σ → Option σ) (Inv : Int → σ → Prop) :
    ∀ (k : Nat) (i : Int) (s : σ), Inv i s →
      (∀ j t, i ≤ j → j < i + k → Inv j t → ∃ t1, body j t = some t1 ∧ Inv (j + 1) t1) →
      ∃ t, forLoop body k i s = some t ∧ Inv (i + k) t := by
  intro k
  induction k with
  | zero => intro i s h _; exact ⟨s, rfl, by simpa using h⟩
  | succ k ih =>
    intro i s h step
    obtain ⟨t1, ht1, hinv1⟩ := step i s le_rfl (by push_cast; omega) h
    obtain ⟨t, ht, hinv⟩ := ih (i + 1) t1 hinv1 (fun j t hj1 hj2 hj =>
      step j t (by omega) (by push_cast; omega) hj)
    refine ⟨t, ?_, ?_⟩
    · simp [forLoop, ht1, ht]
    · have : i + ((k + 1 : Nat) : Int) = i + 1 + (k : Int) := by push_cast; ring
      rw [this]; exact hinv

theorem forRange_inv {σ : Type} (lo hi : Int) (body : Int → σ → Option σ)
    (Inv : Int → σ → Prop) (s : σ) (hle : lo ≤ hi) (h0 : Inv lo s)
    (step : ∀ j t, lo ≤ j → j < hi → Inv j t → ∃ t1, body j t = some t1 ∧ Inv (j + 1) t1) :
    ∃ t, forRange lo hi body s = some t ∧ Inv hi t := by
  have hk : lo + (((hi - lo).toNat : Nat) : Int) = hi := by
    rw [Int.toNat_of_nonneg (by omega)]; ring
  obtain ⟨t, ht, hinv⟩ := forLoop_inv body Inv (hi - lo).toNat lo s h0
    (fun j t hj1 hj2 hj => step j t hj1 (by omega) hj)
  exact ⟨t, ht, by rwa [hk] at hinv⟩

theorem forRange_empty {σ : Type} (lo hi : Int) (body : Int → σ → Option σ) (s : σ)
    (h : hi ≤ lo) : forRange lo hi body s = some s := by
  have : (hi - lo).toNat = 0 := by omega
  simp [forRange, this, forLoop]

theorem Copy_eq (a : List FLOAT) : Copy a = some a := by
  simp [Copy, len, make_natCast, copy_eq_src]

/-! ## AverageFilter -/

theorem sum_take_step (a : List FLOAT) (n : Nat) (h : n < a.length) :
    ∃ x, a[n]? = some x ∧ (a.take (n + 1)).sum = (a.take n).sum + x := by
  refine ⟨a[n], List.getElem?_eq_getElem h, ?_⟩
  exact List.sum_take_succ a n h

theorem window_shift (a : List FLOAT) (i e : Nat) (h : i + e < a.length) :
    ∃ x y, a[i + e]? = some x ∧ a[i]? = some y ∧
      ((a.drop (i + 1)).take e).sum = ((a.drop i).take e).sum + (x - y) := by
  have hi : i < a.length := by omega
  refine ⟨a[i + e], a[i], List.getElem?_eq_getElem h, List.getElem?_eq_getElem hi, ?_⟩
  have h1 : a.drop i = a[i] :: a.drop (i + 1) := by
    rw [List.drop_eq_getElem_cons hi]
  have h2 : e < (a.drop i).length := by simp; omega
  have h3 := List.sum_take_succ (a.drop i) e h2
  have h4 : (a.drop i)[e] = a[i + e] := by simp
  rw [h4] at h3
  have h5 : ((a.drop i).take (e + 1)).sum = a[i] + ((a.drop (i + 1)).take e).sum := by
    rw [h1, List.take_succ_cons, List.sum_cons]
  linarith

theorem AverageFilter_seed_loop (a : List FLOAT) (e : Nat) (h : e ≤ a.length) :
    forRange 0 (e : Int) (AverageFilter.seed a) 0 = some (a.take e).sum := by
  obtain ⟨t, ht, _, hinv⟩ := forRange_inv 0 (e : Int) (AverageFilter.seed a)
    (fun i s => 0 ≤ i ∧ s = (a.take i.toNat).sum) 0 (by omega) (by simp) (by
      intro j t hj0 hje ⟨_, hjt⟩
      obtain ⟨n, rfl⟩ := Int.eq_ofNat_of_zero_le hj0
      obtain ⟨x, hx, hsum⟩ := sum_take_step a n (by omega)
      refine ⟨t + x, ?_, by omega, ?_⟩
      · simp [AverageFilter.seed, index_natCast, hx]
      · have : ((n : Int) + 1).toNat = n + 1 := by omega
        rw [this, hsum, hjt]; simp)
  rw [ht, hinv]; simp

theorem windowMean_natCast (a : List FLOAT) (k e : Nat) :
    windowMean a (k : Int) (e : Int) = ((a.drop k).take e).sum * (1 / ((e : Int) : FLOAT)) := by
  simp [windowMean, div_eq_mul_inv]

theorem AverageFilter_slide_loop (a : List FLOAT) (e m : Nat) (hm : m + e = a.length + 1)
    (b : List FLOAT) (hb : b.length = m)
    (hb0 : b[0]? = some (windowMean a 0 (e : Int))) (hm1 : 1 ≤ m) :
    ∃ st, forRange 1 (m : Int) (AverageFilter.slide a (e : Int) (1 / ((e : Int) : FLOAT)))
        (((a.drop 0).take e).sum, b) = some st ∧
      st.2.length = m ∧ ∀ k : Nat, k < m → st.2[k]? = some (windowMean a (k : Int) (e : Int)) := by
  obtain ⟨st, hst, n, hn, hlen, _, hall⟩ := forRange_inv 1 (m : Int)
    (AverageFilter.slide a (e : Int) (1 / ((e : Int) : FLOAT)))
    (fun i st => ∃ n : Nat, i = (n : Int) + 1 ∧ st.2.length = m ∧
      st.1 = ((a.drop n).take e).sum ∧
      ∀ k : Nat, k ≤ n → st.2[k]? = some (windowMean a (k : Int) (e : Int)))
    (((a.drop 0).take e).sum, b) (by omega)
    ⟨0, by simp, hb, rfl, fun k hk => by
      have : k = 0 := by omega
      subst this; simpa using hb0⟩
    (by
      rintro j ⟨s, c⟩ hj1 hjm ⟨n, hn, hlen, hs, hall⟩
      simp only at hlen hs hall
      subst hn
      obtain ⟨x, y, hx, hy, hsum⟩ := window_shift a n e (by omega)
      have e1 : (n : Int) + 1 + (e : Int) - 1 = ((n + e : Nat) : Int) := by push_cast; ring
      have e2 : (n : Int) + 1 - 1 = (n : Int) := by ring
      have e3 : (n : Int) + 1 = ((n + 1 : Nat) : Int) := by push_cast; ring
      have hn1 : n + 1 < c.length := by omega
      refine ⟨(s + (x - y), c.set (n + 1) ((s + (x - y)) * (1 / ((e : Int) : FLOAT)))), ?_,
        n + 1, by push_cast; ring, by simpa using hlen, ?_, ?_⟩
      · simp only [AverageFilter.slide, e1, e2, index_natCast, hx, hy, Option.bind_eq_bind,
          Option.some_bind]
        rw [e3, assign_natCast _ _ _ hn1]
        rfl
      · simp only; rw [hsum, hs]
      · intro k hk
        simp only
        by_cases hkn : k = n + 1
        · subst hkn
          rw [List.getElem?_set_self hn1, windowMean_natCast, hsum, hs]
        · rw [List.getElem?_set_ne (fun h => hkn h.symm)]
          exact hall k (by omega))
  refine ⟨st, hst, hlen, fun k hk => hall k (by omega)⟩

theorem AverageFilter_spec (a : List FLOAT) (w : Int) (e : Nat)
    (he : (e : Int) = min w (len a)) (h2 : 2 ≤ e) :
    ∃ b, AverageFilter a w = some b ∧ b.length + e = a.length + 1 ∧
      ∀ k : Nat, k + e ≤ a.length → b[k]? = some (windowMean a (k : Int) (e : Int)) := by
  have hw : (if w ≥ len a then len a else w) = (e : Int) := by
    rw [he]; split_ifs with h
    · exact (min_eq_right h).symm
    · exact (min_eq_left (by omega)).symm
  have heL : e ≤ a.length := by
    have : (e : Int) ≤ len a := by rw [he]; exact min_le_right _ _
    unfold len at this; omega
  have hmk : len a - ((e : Int) - 1) = ((a.length - e + 1 : Nat) : Int) := by
    unfold len; omega
  have hb0 : (List.replicate (a.length - e + 1) (0 : FLOAT)).set 0
      ((a.take e).sum * (1 / ((e : Int) : FLOAT))) =
      (a.take e).sum * (1 / ((e : Int) : FLOAT)) :: List.replicate (a.length - e) 0 := by
    simp [List.replicate_succ]
  obtain ⟨st, hst, hlen, hall⟩ := AverageFilter_slide_loop a e (a.length - e + 1) (by omega)
    ((a.take e).sum * (1 / ((e : Int) : FLOAT)) :: List.replicate (a.length - e) 0)
    (by simp) (by
      rw [show (0 : Int) = ((0 : Nat) : Int) from rfl, windowMean_natCast]; simp) (by omega)
  refine ⟨st.2, ?_, by omega, fun k hk => hall k (by omega)⟩
  unfold AverageFilter
  simp only [hw]
  rw [if_neg (by omega), hmk, make_natCast, AverageFilter_seed_loop a e heL]
  simp only [Option.bind_eq_bind, Option.some_bind, Option.pure_def]
  have h0 : assign (List.replicate (a.length - e + 1) (0 : FLOAT)) 0
      ((a.take e).sum * (1 / ((e : Int) : FLOAT))) = some
      ((a.take e).sum * (1 / ((e : Int) : FLOAT)) :: List.replicate (a.length - e) 0) := by
    have := assign_natCast (List.replicate (a.length - e + 1) (0 : FLOAT)) 0
      ((a.take e).sum * (1 / ((e : Int) : FLOAT))) (by simp)
    rw [hb0] at this
    simpa using this
  rw [h0]
  simp only [Option.some_bind]
  have hl : len ((a.take e).sum * (1 / ((e : Int) : FLOAT)) :: List.replicate (a.length - e) 0)
      = ((a.length - e + 1 : Nat) : Int) := by
    simp [len]
  rw [hl]
  simp only [List.drop_zero] at hst
  rw [hst]
  rfl

/-! ## MedianFilter -/

theorem sliceFrom_natCast {α : Type} (a : List α) (n : Nat) (h : n ≤ a.length) :
    sliceFrom a (n : Int) = some (a.drop n) := by
  simp [sliceFrom, len, h]

theorem copy_window (buf a : List FLOAT) (n e : Nat) (hbuf : buf.length = e)
    (h : n + e ≤ a.length) : copy buf (a.drop n) = (a.drop n).take e := by
  have h1 : min buf.length (a.drop n).length = e := by
    rw [hbuf, List.length_drop]; omega
  have h2 : buf.drop e = [] := List.drop_of_length_le (by omega)
  unfold copy
  rw [h1, h2, List.append_nil]

theorem length_sortFloats (l : List FLOAT) : (sortFloats l).length = l.length :=
  List.length_insertionSort _ l

theorem tdiv_two_natCast (e : Nat) : Int.tdiv (e : Int) 2 = ((e / 2 : Nat) : Int) := by
  rw [Int.tdiv_eq_ediv (by omega) (by omega)]; omega

theorem MedianFilter_loop (a : List FLOAT) (e m : Nat) (hm : m + e = a.length + 1)
    (he : 1 ≤ e) (buf b : List FLOAT) (hbuf : buf.length = e) (hb : b.length = m) :
    ∃ st, forRange 0 (m : Int) (MedianFilter.body a (e : Int)) (buf, b) = some st ∧
      st.2.length = m ∧
      ∀ k : Nat, k < m → st.2[k]? = (sortFloats ((a.drop k).take e))[e / 2]? := by
  obtain ⟨st, hst, n, hn, _, hlen, hall⟩ := forRange_inv 0 (m : Int)
    (MedianFilter.body a (e : Int))
    (fun i st => ∃ n : Nat, i = (n : Int) ∧ st.1.length = e ∧ st.2.length = m ∧
      ∀ k : Nat, k < n → st.2[k]? = (sortFloats ((a.drop k).take e))[e / 2]?)
    (buf, b) (by omega) ⟨0, rfl, hbuf, hb, fun k hk => by omega⟩
    (by
      rintro j ⟨bf, c⟩ _ hjm ⟨n, hn, hbf, hc, hall⟩
      simp only at hbf hc hall
      subst hn
      have hnm : n < m := by omega
      have hwin : ((a.drop n).take e).length = e := by
        rw [List.length_take, List.length_drop]; omega
      have hlt : e / 2 < (sortFloats ((a.drop n).take e)).length := by
        rw [length_sortFloats, hwin]; omega
      refine ⟨(sortFloats ((a.drop n).take e),
        c.set n ((sortFloats ((a.drop n).take e))[e / 2])), ?_, n + 1, by push_cast; ring,
        ?_, by simpa using hc, ?_⟩
      · simp only [MedianFilter.body, sliceFrom_natCast a n (by omega),
          copy_window bf a n e hbf (by omega), tdiv_two_natCast, index_natCast,
          List.getElem?_eq_getElem hlt, Option.bind_eq_bind, Option.some_bind,
          assign_natCast c n _ (by omega)]
        rfl
      · simp only; rw [length_sortFloats, hwin]
      · intro k hk
        simp only
        by_cases hkn : k = n
        · subst hkn
          rw [List.getElem?_set_self (by omega), List.getElem?_eq_getElem hlt]
        · rw [List.getElem?_set_ne (fun h => hkn h.symm)]
          exact hall k (by omega))
  exact ⟨st, hst, hlen, fun k hk => hall k (by omega)⟩

theorem MedianFilter_spec (a : List FLOAT) (w : Int) (e : Nat)
    (he : (e : Int) = min w (len a)) (h2 : 2 ≤ e) :
    ∃ b, MedianFilter a w = some b ∧ b.length + e = a.length + 1 ∧
      ∀ k : Nat, k + e ≤ a.length →
        b[k]? = (sortFloats ((a.drop k).take e))[e / 2]? := by
  have hw : (if w ≥ len a then len a else w) = (e : Int) := by
    rw [he]; split_ifs with h
    · exact (min_eq_right h).symm
    · exact (min_eq_left (by omega)).symm
  have heL : e ≤ a.length := by
    have : (e : Int) ≤ len a := by rw [he]; exact min_le_right _ _
    unfold len at this; omega
  have hmk : len a - (e : Int) + 1 = ((a.length - e + 1 : Nat) : Int) := by
    unfold len; omega
  obtain ⟨st, hst, hlen, hall⟩ := MedianFilter_loop a e (a.length - e + 1) (by omega)
    (by omega) (List.replicate e 0) (List.replicate (a.length - e + 1) 0) (by simp) (by simp)
  refine ⟨st.2, ?_, by omega, fun k hk => hall k (by omega)⟩
  unfold MedianFilter
  simp only [hw]
  rw [if_neg (by omega), hmk, make_natCast, make_natCast]
  simp only [Option.bind_eq_bind, Option.some_bind, Option.pure_def]
  have hl : len (List.replicate (a.length - e + 1) (0 : FLOAT))
      = ((a.length - e + 1 : Nat) : Int) := by
    simp [len]
  rw [hl, hst]
  rfl

/-! ## Repeat -/

theorem Repeat_nonpos (x : FLOAT) (n : Int) (h : n ≤ 0) : Repeat x n = some [] := by
  simp [Repeat, h]

theorem Repeat_natCast (x : FLOAT) (n : Nat) : Repeat x (n : Int) = some (List.replicate n x) := by
  rcases Nat.eq_zero_or_pos n with h0 | hpos
  · subst h0; simp [Repeat]
  obtain ⟨v, hv, k, hk, hlen, hall⟩ := forRange_inv 0 (n : Int) (fun i v => assign v i x)
    (fun i v => ∃ k : Nat, i = (k : Int) ∧ v.length = n ∧ ∀ t : Nat, t < k → v[t]? = some x)
    (List.replicate n (0 : FLOAT)) (by omega) ⟨0, rfl, by simp, fun t ht => by omega⟩
    (by
      rintro j v _ hjn ⟨k, hk, hlen, hall⟩
      subst hk
      refine ⟨v.set k x, assign_natCast v k x (by omega), k + 1, by push_cast; ring,
        by simpa using hlen, ?_⟩
      intro t ht
      by_cases htk : t = k
      · subst htk; exact List.getElem?_set_self (by omega)
      · rw [List.getElem?_set_ne (fun h => htk h.symm)]
        exact hall t (by omega))
  have hkn : k = n := by omega
  subst hkn
  have hvx : v = List.replicate k x := by
    refine List.eq_replicate_iff.mpr ⟨hlen, fun y hy => ?_⟩
    obtain ⟨t, ht, rfl⟩ := List.getElem_of_mem hy
    have := hall t (by omega)
    rw [List.getElem?_eq_getElem ht] at this
    exact Option.some.inj this
  unfold Repeat
  rw [if_neg (by omega), make_natCast]
  simp only [Option.bind_eq_bind, Option.some_bind]
  have hl : len (List.replicate k (0 : FLOAT)) = (k : Int) := by simp [len]
  rw [hl, hv, hvx]

/-! ## Resample -/

theorem toInt_eq_floor (x : ℚ) (h : 0 ≤ x) : toInt x = ⌊x⌋ := by
  unfold toInt
  rw [Rat.floor_def, Int.tdiv_eq_ediv (Rat.num_nonneg.mpr h) (Int.natCast_nonneg _)]

theorem sourcePos_bounds (L n k : Nat) (hL : 2 ≤ L) (hk : k + 2 ≤ n) :
    0 ≤ sourcePos (L : Int) (n : Int) (k : Int) ∧
      sourcePos (L : Int) (n : Int) (k : Int) < ((L : Int) : ℚ) - 1 := by
  have hL1 : (0 : ℚ) < ((L : Int) : ℚ) - 1 := by
    have : (2 : ℚ) ≤ (L : ℚ) := by exact_mod_cast hL
    push_cast; linarith
  have hn1 : (0 : ℚ) < ((n : Int) : ℚ) - 1 := by
    have : (2 : ℚ) ≤ (n : ℚ) := by
      have : 2 ≤ n := by omega
      exact_mod_cast this
    push_cast; linarith
  have hk0 : (0 : ℚ) ≤ ((k : Int) : ℚ) := by push_cast; exact Nat.cast_nonneg k
  have hkn : ((k : Int) : ℚ) < ((n : Int) : ℚ) - 1 := by
    have : ((k + 2 : Nat) : ℚ) ≤ (n : ℚ) := by exact_mod_cast hk
    push_cast at this ⊢; linarith
  unfold sourcePos
  constructor
  · exact div_nonneg (mul_nonneg hk0 hL1.le) hn1.le
  · rw [div_lt_iff₀ hn1]
    rw [mul_comm]
    exact mul_lt_mul_of_pos_left hkn hL1

theorem sourcePos_floor_bounds (L n k : Nat) (hL : 2 ≤ L) (hk : k + 2 ≤ n) :
    0 ≤ ⌊sourcePos (L : Int) (n : Int) (k : Int)⌋ ∧
      ⌊sourcePos (L : Int) (n : Int) (k : Int)⌋ + 1 ≤ (L : Int) - 1 := by
  obtain ⟨h0, h1⟩ := sourcePos_bounds L n k hL hk
  constructor
  · exact Int.floor_nonneg.mpr h0
  · have : ⌊sourcePos (L : Int) (n : Int) (k : Int)⌋ < (L : Int) - 1 := by
      rw [Int.floor_lt]; push_cast; exact h1
    omega

theorem indexScale_mul (L n k : Nat) :
    ((k : Int) : ℚ) * ((((L : Int) - 1 : Int) : ℚ) / (((n : Int) - 1 : Int) : ℚ)) =
      sourcePos (L : Int) (n : Int) (k : Int) := by
  unfold sourcePos; push_cast; ring

theorem interpolate_some (a : List FLOAT) (n k : Nat) (hL : 2 ≤ a.length) (hk : k + 2 ≤ n) :
    ∃ al ah, index a ⌊sourcePos (len a) (n : Int) (k : Int)⌋ = some al ∧
      index a (⌊sourcePos (len a) (n : Int) (k : Int)⌋ + 1) = some ah ∧
      interpolate a (n : Int) (k : Int) =
        some (Int.fract (sourcePos (len a) (n : Int) (k : Int)) * al +
          (1 - Int.fract (sourcePos (len a) (n : Int) (k : Int))) * ah) := by
  obtain ⟨h0, h1⟩ := sourcePos_floor_bounds a.length n k hL hk
  have hlen : len a = (a.length : Int) := rfl
  rw [hlen]
  obtain ⟨lo, hlo⟩ := Int.eq_ofNat_of_zero_le h0
  have hlo1 : lo + 1 < a.length := by omega
  have hlo0 : lo < a.length := by omega
  have e0 : index a ⌊sourcePos (a.length : Int) (n : Int) (k : Int)⌋ = some a[lo] := by
    rw [hlo, index_natCast]; exact List.getElem?_eq_getElem hlo0
  have e1 : index a (⌊sourcePos (a.length : Int) (n : Int) (k : Int)⌋ + 1) = some a[lo + 1] := by
    have : ⌊sourcePos (a.length : Int) (n : Int) (k : Int)⌋ + 1 = ((lo + 1 : Nat) : Int) := by
      rw [hlo]; push_cast; ring
    rw [this, index_natCast]; exact List.getElem?_eq_getElem hlo1
  refine ⟨a[lo], a[lo + 1], e0, e1, ?_⟩
  unfold interpolate
  simp only [hlen, e0, e1, Option.bind_eq_bind, Option.some_bind, Option.pure_def]
  rfl

theorem Resample_body_eq (a : List FLOAT) (n k : Nat) (hL : 2 ≤ a.length) (hk : k + 2 ≤ n)
    (b : List FLOAT) (hb : k < b.length) :
    ∃ v, interpolate a (n : Int) (k : Int) = some v ∧
      Resample.body a ((((a.length : Int) - 1 : Int) : ℚ) / (((n : Int) - 1 : Int) : ℚ))
        (k : Int) b = some (b.set k v) := by
  obtain ⟨h0, h1⟩ := sourcePos_bounds a.length n k hL hk
  obtain ⟨al, ah, hal, hah, hv⟩ := interpolate_some a n k hL hk
  have hlen : len a = (a.length : Int) := rfl
  rw [hlen] at hal hah hv
  refine ⟨_, hv, ?_⟩
  unfold Resample.body
  simp only [indexScale_mul, toInt_eq_floor _ h0, hal, hah, Option.bind_eq_bind,
    Option.some_bind]
  rw [assign_natCast _ _ _ hb]
  rfl

theorem Resample_loop (a : List FLOAT) (n : Nat) (hL : 2 ≤ a.length) (hn : 2 ≤ n)
    (b : List FLOAT) (hb : b.length = n) :
    ∃ r, forRange 1 ((n : Int) - 1)
        (Resample.body a ((((a.length : Int) - 1 : Int) : ℚ) / (((n : Int) - 1 : Int) : ℚ))) b
          = some r ∧ r.length = n ∧ r[0]? = b[0]? ∧ r[n - 1]? = b[n - 1]? ∧
      ∀ t : Nat, 1 ≤ t → t + 2 ≤ n → r[t]? = interpolate a (n : Int) (t : Int) := by
  obtain ⟨r, hr, k, hk, hlen, hr0, hrl, hall⟩ := forRange_inv 1 ((n : Int) - 1)
    (Resample.body a ((((a.length : Int) - 1 : Int) : ℚ) / (((n : Int) - 1 : Int) : ℚ)))
    (fun i r => ∃ k : Nat, i = (k : Int) ∧ r.length = n ∧ r[0]? = b[0]? ∧
      r[n - 1]? = b[n - 1]? ∧
      ∀ t : Nat, 1 ≤ t → t < k → r[t]? = interpolate a (n : Int) (t : Int))
    b (by omega) ⟨1, rfl, hb, rfl, rfl, fun t h1 h2 => by omega⟩
    (by
      rintro j r hj1 hjn ⟨k, hk, hlen, hr0, hrl, hall⟩
      subst hk
      obtain ⟨v, hv, hbody⟩ := Resample_body_eq a n k hL (by omega) r (by omega)
      refine ⟨r.set k v, hbody, k + 1, by push_cast; ring, by simpa using hlen, ?_, ?_, ?_⟩
      · rw [List.getElem?_set_ne (by omega)]; exact hr0
      · rw [List.getElem?_set_ne (by omega)]; exact hrl
      · intro t ht1 htk
        by_cases h : t = k
        · subst h; rw [List.getElem?_set_self (by omega), hv]
        · rw [List.getElem?_set_ne (fun h2 => h h2.symm)]
          exact hall t ht1 (by omega))
  exact ⟨r, hr, hlen, hr0, hrl, fun t h1 h2 => hall t h1 (by omega)⟩

theorem Resample_general (a : List FLOAT) (n : Nat) (hL : 2 ≤ a.length) (hn : 2 ≤ n) :
    ∃ b, Resample a (n : Int) = some b ∧ b.length = n ∧ b[0]? = a[0]? ∧
      b[n - 1]? = a[a.length - 1]? ∧
      ∀ t : Nat, 1 ≤ t → t + 2 ≤ n → b[t]? = interpolate a (n : Int) (t : Int) := by
  have hlen : len a = (a.length : Int) := rfl
  obtain ⟨x0, hx0⟩ : ∃ x, a[0]? = some x := ⟨a[0], List.getElem?_eq_getElem (by omega)⟩
  obtain ⟨xL, hxL⟩ : ∃ x, a[a.length - 1]? = some x :=
    ⟨a[a.length - 1], List.getElem?_eq_getElem (by omega)⟩
  have hi0 : index a 0 = some x0 := by
    rw [show (0 : Int) = ((0 : Nat) : Int) from rfl, index_natCast, hx0]
  have hiL : index a ((a.length : Int) - 1) = some xL := by
    rw [show (a.length : Int) - 1 = ((a.length - 1 : Nat) : Int) by omega, index_natCast, hxL]
  have ha0 : assign (List.replicate n (0 : FLOAT)) 0 x0 =
      some ((List.replicate n (0 : FLOAT)).set 0 x0) := by
    simpa using assign_natCast (List.replicate n (0 : FLOAT)) 0 x0 (by simp; omega)
  have haL : assign ((List.replicate n (0 : FLOAT)).set 0 x0)
      (len ((List.replicate n (0 : FLOAT)).set 0 x0) - 1) xL =
      some (((List.replicate n (0 : FLOAT)).set 0 x0).set (n - 1) xL) := by
    have : len ((List.replicate n (0 : FLOAT)).set 0 x0) - 1 = ((n - 1 : Nat) : Int) := by
      simp [len]; omega
    rw [this]; exact assign_natCast _ _ _ (by simp; omega)
  have hl2 : len (((List.replicate n (0 : FLOAT)).set 0 x0).set (n - 1) xL) - 1
      = (n : Int) - 1 := by
    simp [len]
  obtain ⟨r, hr, hrlen, hr0, hrl, hall⟩ := Resample_loop a n hL hn
    (((List.replicate n (0 : FLOAT)).set 0 x0).set (n - 1) xL) (by simp)
  refine ⟨r, ?_, hrlen, ?_, ?_, hall⟩
  · unfold Resample
    rw [if_neg (by rw [hlen]; omega), if_neg (by rw [hlen]; omega), if_neg (by omega)]
    simp only [hlen, make_natCast, hi0, hiL, ha0, haL, hl2, Option.bind_eq_bind,
      Option.some_bind]
    exact hr
  · rw [hr0, hx0, List.getElem?_set_ne (by omega), List.getElem?_set_self (by simp; omega)]
  · rw [hrl, hxL, List.getElem?_set_self (by simp; omega)]

/-! ## MinMax -/

theorem MinMax_body_eq (a : List FLOAT) (k mi Mi : Nat) (x mv Mv : FLOAT)
    (hx : a[k]? = some x) (hmv : a[mi]? = some mv) (hMv : a[Mi]? = some Mv) :
    MinMax.body a (k : Int) ((mi : Int), (Mi : Int)) =
      some ((if x < mv then (k : Int) else (mi : Int)), (if x > Mv then (k : Int) else (Mi : Int))) := by
  simp [MinMax.body, index_natCast, hx, hmv, hMv]

theorem MinMax_loop (a : List FLOAT) (h : 0 < a.length) :
    ∃ (mi Mi : Nat) (mv Mv : FLOAT),
      forRange 1 (a.length : Int) (MinMax.body a) (0, 0) = some ((mi : Int), (Mi : Int)) ∧
      a[mi]? = some mv ∧ a[Mi]? = some Mv ∧
      (∀ (t : Nat) (x : FLOAT), a[t]? = some x → mv ≤ x) ∧
      (∀ (t : Nat) (x : FLOAT), t < mi → a[t]? = some x → mv < x) ∧
      (∀ (t : Nat) (x : FLOAT), a[t]? = some x → x ≤ Mv) ∧
      (∀ (t : Nat) (x : FLOAT), t < Mi → a[t]? = some x → x < Mv) := by
  obtain ⟨x0, hx0⟩ : ∃ x, a[0]? = some x := ⟨a[0], List.getElem?_eq_getElem h⟩
  obtain ⟨st, hst, k, mi, Mi, mv, Mv, hk, hsteq, hmv, hMv, h1, h2, h3, h4⟩ :=
    forRange_inv 1 (a.length : Int) (MinMax.body a)
    (fun i st => ∃ (k mi Mi : Nat) (mv Mv : FLOAT), i = (k : Int) ∧
      st = ((mi : Int), (Mi : Int)) ∧ a[mi]? = some mv ∧ a[Mi]? = some Mv ∧
      (∀ (t : Nat) (x : FLOAT), t < k → a[t]? = some x → mv ≤ x) ∧
      (∀ (t : Nat) (x : FLOAT), t < mi → a[t]? = some x → mv < x) ∧
      (∀ (t : Nat) (x : FLOAT), t < k → a[t]? = some x → x ≤ Mv) ∧
      (∀ (t : Nat) (x : FLOAT), t < Mi → a[t]? = some x → x < Mv))
    (0, 0) (by omega)
    ⟨1, 0, 0, x0, x0, rfl, rfl, hx0, hx0,
      fun t x ht hx => by
        have : t = 0 := by omega
        subst this; rw [hx0] at hx; exact (Option.some.inj hx).le,
      fun t x ht _ => by omega,
      fun t x ht hx => by
        have : t = 0 := by omega
        subst this; rw [hx0] at hx; exact (Option.some.inj hx).ge,
      fun t x ht _ => by omega⟩
    (by
      rintro j st _ hjL ⟨k, mi, Mi, mv, Mv, hk, hsteq, hmv, hMv, h1, h2, h3, h4⟩
      subst hk hsteq
      obtain ⟨x, hx⟩ : ∃ x, a[k]? = some x := ⟨a[k], List.getElem?_eq_getElem (by omega)⟩
      have hcase : ∀ (t : Nat) (y : FLOAT), t < k + 1 → a[t]? = some y → t < k ∨ y = x := by
        intro t y ht hy
        by_cases htk : t = k
        · subst htk; rw [hx] at hy; exact Or.inr (Option.some.inj hy).symm
        · exact Or.inl (by omega)
      refine ⟨_, MinMax_body_eq a k mi Mi x mv Mv hx hmv hMv, k + 1,
        (if x < mv then k else mi), (if x > Mv then k else Mi),
        (if x < mv then x else mv), (if x > Mv then x else Mv),
        by push_cast; ring, ?_, ?_, ?_, ?_, ?_, ?_, ?_⟩
      · split_ifs <;> rfl
      · split_ifs
        · exact hx
        · exact hmv
      · split_ifs
        · exact hx
        · exact hMv
      · intro t y ht hy
        rcases hcase t y ht hy with htk | rfl
        · have := h1 t y htk hy
          split_ifs with hlt
          · exact (lt_of_lt_of_le hlt this).le
          · exact this
        · split_ifs with hlt
          · exact le_rfl
          · exact not_lt.mp hlt
      · intro t y ht hy
        split_ifs at ht ⊢ with hlt
        · exact lt_of_lt_of_le hlt (h1 t y ht hy)
        · exact h2 t y ht hy
      · intro t y ht hy
        rcases hcase t y ht hy with htk | rfl
        · have := h3 t y htk hy
          split_ifs with hlt
          · exact (lt_of_le_of_lt this hlt).le
          · exact this
        · split_ifs with hlt
          · exact le_rfl
          · exact not_lt.mp hlt
      · intro t y ht hy
        split_ifs at ht ⊢ with hlt
        · exact lt_of_le_of_lt (h3 t y ht hy) hlt
        · exact h4 t y ht hy)
  have hkL : k = a.length := by omega
  subst hkL
  refine ⟨mi, Mi, mv, Mv, by rw [hst, hsteq], hmv, hMv, ?_, h2, ?_, h4⟩
  · intro t x hx
    have ht : t < a.length := by
      by_contra hc
      rw [List.getElem?_eq_none (by omega)] at hx
      exact Option.noConfusion hx
    exact h1 t x ht hx
  · intro t x hx
    have ht : t < a.length := by
      by_contra hc
      rw [List.getElem?_eq_none (by omega)] at hx
      exact Option.noConfusion hx
    exact h3 t x ht hx

theorem MinMax_spec (a : List FLOAT) (h : a ≠ []) :
    ∃ (minIndex maxIndex : Nat) (minValue maxValue : FLOAT),
      MinMax a = some ((minIndex : Int), finite minValue, (maxIndex : Int), finite maxValue) ∧
      a[minIndex]? = some minValue ∧ a[maxIndex]? = some maxValue ∧
      (∀ x ∈ a, minValue ≤ x) ∧
      (∀ (t : Nat) (x : FLOAT), t < minIndex → a[t]? = some x → minValue < x) ∧
      (∀ x ∈ a, x ≤ maxValue) ∧
      (∀ (t : Nat) (x : FLOAT), t < maxIndex → a[t]? = some x → x < maxValue) := by
  have hpos : 0 < a.length := List.length_pos.mpr h
  obtain ⟨mi, Mi, mv, Mv, hloop, hmv, hMv, h1, h2, h3, h4⟩ := MinMax_loop a hpos
  refine ⟨mi, Mi, mv, Mv, ?_, hmv, hMv, ?_, h2, ?_, h4⟩
  · unfold MinMax
    have hlen : len a = (a.length : Int) := rfl
    rw [if_neg (by rw [hlen]; omega), hlen, hloop]
    simp only [Option.bind_eq_bind, Option.some_bind, index_natCast, hmv, hMv, Option.pure_def]
  · intro x hx
    obtain ⟨t, ht, rfl⟩ := List.getElem_of_mem hx
    exact h1 t _ (List.getElem?_eq_getElem ht)
  · intro x hx
    obtain ⟨t, ht, rfl⟩ := List.getElem_of_mem hx
    exact h3 t _ (List.getElem?_eq_getElem ht)

/-! ## Add, Sub, Mul -/

theorem shortest_spec (a : List (List FLOAT)) :
    ∀ n0 : Int, shortest a n0 ≤ n0 ∧ (∀ v ∈ a, shortest a n0 ≤ len v) ∧
      (shortest a n0 = n0 ∨ ∃ v ∈ a, shortest a n0 = len v) := by
  induction a with
  | nil => intro n0; simp [shortest]
  | cons v rest ih =>
    intro n0
    have hstep : shortest (v :: rest) n0 = shortest rest (if len v < n0 then len v else n0) := by
      simp [shortest]
    rw [hstep]
    by_cases hlt : len v < n0
    · rw [if_pos hlt]
      obtain ⟨h1, h2, h3⟩ := ih (len v)
      refine ⟨by omega, ?_, ?_⟩
      · intro u hu
        rcases List.mem_cons.mp hu with rfl | hu
        · exact h1
        · exact h2 u hu
      · rcases h3 with h3 | ⟨u, hu, h3⟩
        · exact Or.inr ⟨v, List.mem_cons_self _ _, h3⟩
        · exact Or.inr ⟨u, List.mem_cons_of_mem _ hu, h3⟩
    · rw [if_neg hlt]
      obtain ⟨h1, h2, h3⟩ := ih n0
      refine ⟨h1, ?_, ?_⟩
      · intro u hu
        rcases List.mem_cons.mp hu with rfl | hu
        · omega
        · exact h2 u hu
      · rcases h3 with h3 | ⟨u, hu, h3⟩
        · exact Or.inl h3
        · exact Or.inr ⟨u, List.mem_cons_of_mem _ hu, h3⟩

theorem shortest_head (a : List (List FLOAT)) (a0 : List FLOAT) (h0 : a0 ∈ a) :
    ∃ n : Nat, shortest a (len a0) = (n : Int) ∧ (∀ v ∈ a, n ≤ v.length) ∧
      ∃ v ∈ a, n = v.length := by
  have hlen : ∀ v : List FLOAT, len v = (v.length : Int) := fun _ => rfl
  obtain ⟨h1, h2, h3⟩ := shortest_spec a (len a0)
  have hnn : 0 ≤ shortest a (len a0) := by
    rcases h3 with h3 | ⟨u, _, h3⟩
    · rw [h3]; exact len_nonneg _
    · rw [h3]; exact len_nonneg _
  obtain ⟨n, hn⟩ := Int.eq_ofNat_of_zero_le hnn
  rw [hn] at h1 h2 h3
  refine ⟨n, hn, ?_, ?_⟩
  · intro v hv
    have := h2 v hv
    rw [hlen] at this; omega
  · rcases h3 with h3 | ⟨u, hu, h3⟩
    · exact ⟨a0, h0, by rw [hlen] at h3; omega⟩
    · exact ⟨u, hu, by rw [hlen] at h3; omega⟩

theorem accumulate_loop (op : FLOAT → FLOAT → FLOAT)
    (body : Int → List FLOAT → Option (List FLOAT)) (a : List (List FLOAT)) (i : Nat)
    (hbody : ∀ (j : Nat) (s v : List FLOAT) (x y : FLOAT), a[j]? = some v → v[i]? = some x →
      s[i]? = some y → body (j : Int) s = some (s.set i (op y x)))
    (hcol : ∀ v ∈ a, i < v.length) :
    ∀ (rest : List (List FLOAT)) (j : Nat) (s : List FLOAT) (y : FLOAT), a.drop j = rest →
      s[i]? = some y →
      forLoop body rest.length (j : Int) s = some (s.set i ((column rest i).foldl op y)) := by
  intro rest
  induction rest with
  | nil =>
    intro j s y _ hy
    have hi : i < s.length := by
      by_contra hc
      rw [List.getElem?_eq_none (by omega)] at hy
      exact Option.noConfusion hy
    have hyi : s[i] = y := by
      rw [List.getElem?_eq_getElem hi] at hy; exact Option.some.inj hy
    simp [forLoop, column, set_of_getElem? s i y hy]
  | cons v rest ih =>
    intro j s y hdrop hy
    have hj : j < a.length := by
      by_contra hc
      rw [List.drop_of_length_le (by omega)] at hdrop
      exact List.noConfusion hdrop
    have hdrop2 := List.drop_eq_getElem_cons hj
    rw [hdrop] at hdrop2
    have hv : a[j] = v := (List.cons.inj hdrop2).1.symm
    have hrest : a.drop (j + 1) = rest := (List.cons.inj hdrop2).2.symm
    have hvmem : v ∈ a := by rw [← hv]; exact List.getElem_mem _
    have hiv : i < v.length := hcol v hvmem
    have hi : i < s.length := by
      by_contra hc
      rw [List.getElem?_eq_none (by omega)] at hy
      exact Option.noConfusion hy
    have hb := hbody j s v v[i] y (by rw [List.getElem?_eq_getElem hj, hv])
      (List.getElem?_eq_getElem hiv) hy
    have hnext := ih (j + 1) (s.set i (op y v[i])) (op y v[i]) hrest
      (List.getElem?_set_self hi)
    have hcast : ((j + 1 : Nat) : Int) = (j : Int) + 1 := by push_cast; ring
    rw [hcast] at hnext
    simp only [List.length_cons, forLoop, hb, Option.some_bind, hnext, List.set_set, column,
      List.map_cons, List.foldl_cons]
    rw [List.getD_eq_getElem _ _ hiv]

theorem accumulate_range (op : FLOAT → FLOAT → FLOAT)
    (body : Int → List FLOAT → Option (List FLOAT)) (a : List (List FLOAT)) (i : Nat)
    (hbody : ∀ (j : Nat) (s v : List FLOAT) (x y : FLOAT), a[j]? = some v → v[i]? = some x →
      s[i]? = some y → body (j : Int) s = some (s.set i (op y x)))
    (hcol : ∀ v ∈ a, i < v.length) (lo : Nat) (hlo : lo ≤ a.length) (s : List FLOAT) (y : FLOAT)
    (hy : s[i]? = some y) :
    forRange (lo : Int) (len a) body s =
      some (s.set i ((column (a.drop lo) i).foldl op y)) := by
  have h := accumulate_loop op body a i hbody hcol (a.drop lo) lo s y rfl hy
  have hk : (len a - (lo : Int)).toNat = (a.drop lo).length := by
    rw [List.length_drop]; unfold len; omega
  unfold forRange
  rw [hk]; exact h

theorem fill_loop (n : Nat) (body : Int → List FLOAT → Option (List FLOAT))
    (init : List FLOAT) (hinit : init.length = n) (g : Nat → FLOAT)
    (hbody : ∀ (i : Nat) (s : List FLOAT), i < n → s.length = n → s[i]? = init[i]? →
      body (i : Int) s = some (s.set i (g i))) :
    ∃ r, forRange 0 (n : Int) body init = some r ∧ r.length = n ∧
      ∀ t : Nat, t < n → r[t]? = some (g t) := by
  obtain ⟨r, hr, k, hk, hlen, hdone, _⟩ := forRange_inv 0 (n : Int) body
    (fun i s => ∃ k : Nat, i = (k : Int) ∧ s.length = n ∧
      (∀ t : Nat, t < k → s[t]? = some (g t)) ∧ (∀ t : Nat, k ≤ t → s[t]? = init[t]?))
    init (by omega) ⟨0, rfl, hinit, fun t ht => by omega, fun t _ => rfl⟩
    (by
      rintro j s _ hjn ⟨k, hk, hlen, hdone, htodo⟩
      subst hk
      refine ⟨s.set k (g k), hbody k s (by omega) hlen (htodo k le_rfl), k + 1,
        by push_cast; ring, by simpa using hlen, ?_, ?_⟩
      · intro t ht
        by_cases htk : t = k
        · subst htk; exact List.getElem?_set_self (by omega)
        · rw [List.getElem?_set_ne (fun h => htk h.symm)]
          exact hdone t (by omega)
      · intro t ht
        rw [List.getElem?_set_ne (by omega)]
        exact htodo t (by omega))
  exact ⟨r, hr, hlen, fun t ht => hdone t (by omega)⟩

theorem getElem?_lt_length {α : Type} (s : List α) (i : Nat) (y : α) (h : s[i]? = some y) :
    i < s.length := by
  by_contra hc
  rw [List.getElem?_eq_none (by omega)] at h
  exact Option.noConfusion h

theorem Add_inner_eq (a : List (List FLOAT)) (i j : Nat) (s v : List FLOAT) (x y : FLOAT)
    (hv : a[j]? = some v) (hx : v[i]? = some x) (hy : s[i]? = some y) :
    Add.inner a (i : Int) (j : Int) s = some (s.set i (y + x)) := by
  simp only [Add.inner, index_natCast, hv, hx, hy, Option.bind_eq_bind, Option.some_bind]
  exact assign_natCast s i _ (getElem?_lt_length s i y hy)

theorem Sub_inner_eq (a : List (List FLOAT)) (i j : Nat) (s v : List FLOAT) (x y : FLOAT)
    (hv : a[j]? = some v) (hx : v[i]? = some x) (hy : s[i]? = some y) :
    Sub.inner a (i : Int) (j : Int) s = some (s.set i (y - x)) := by
  simp only [Sub.inner, index_natCast, hv, hx, hy, Option.bind_eq_bind, Option.some_bind]
  exact assign_natCast s i _ (getElem?_lt_length s i y hy)

theorem Mul_inner_eq (a : List (List FLOAT)) (i j : Nat) (s v : List FLOAT) (x y : FLOAT)
    (hv : a[j]? = some v) (hx : v[i]? = some x) (hy : s[i]? = some y) :
    Mul.inner a (i : Int) (j : Int) s = some (s.set i (y * x)) := by
  simp only [Mul.inner, index_natCast, hv, hx, hy, Option.bind_eq_bind, Option.some_bind]
  exact assign_natCast s i _ (getElem?_lt_length s i y hy)

theorem head_facts (a : List (List FLOAT)) (h : a ≠ []) :
    ∃ a0, a[0]? = some a0 ∧ a0 ∈ a ∧ index a 0 = some a0 ∧ len a ≠ 0 := by
  cases a with
  | nil => exact absurd rfl h
  | cons a0 rest =>
    refine ⟨a0, by simp, List.mem_cons_self _ _, ?_, ?_⟩
    · simp [index]
    · simp [len]; omega

theorem Add_spec (a : List (List FLOAT)) (h : a ≠ []) :
    ∃ (b : List FLOAT) (n : Nat), Add a = some b ∧ b.length = n ∧
      (∀ v ∈ a, n ≤ v.length) ∧ (∃ v ∈ a, n = v.length) ∧
      ∀ i : Nat, i < n → b[i]? = some ((column a i).foldl (fun y x => y + x) 0) := by
  obtain ⟨a0, _, hmem, hidx, hlen0⟩ := head_facts a h
  obtain ⟨n, hn, hle, hex⟩ := shortest_head a a0 hmem
  obtain ⟨r, hr, hrlen, hall⟩ := fill_loop n
    (fun i sum => forRange 0 (len a) (Add.inner a i) sum) (List.replicate n 0) (by simp)
    (fun i => (column a i).foldl (fun y x => y + x) 0)
    (by
      intro i s hi hs hsi
      have hy : s[i]? = some (0 : FLOAT) := by
        rw [hsi]; simp [hi]
      have := accumulate_range (fun y x => y + x) (Add.inner a (i : Int)) a i
        (fun j s v x y hv hx hy => Add_inner_eq a i j s v x y hv hx hy)
        (fun v hv => lt_of_lt_of_le hi (hle v hv)) 0 (by omega) s 0 hy
      simpa using this)
  refine ⟨r, n, ?_, hrlen, hle, hex, hall⟩
  unfold Add
  rw [if_neg hlen0, hidx]
  simp only [Option.bind_eq_bind, Option.some_bind, hn, make_natCast]
  have hl : len (List.replicate n (0 : FLOAT)) = (n : Int) := by simp [len]
  rw [hl]; exact hr

theorem Sub_spec (a : List (List FLOAT)) (h : a ≠ []) :
    ∃ (b : List FLOAT) (n : Nat), Sub a = some b ∧ b.length = n ∧
      (∀ v ∈ a, n ≤ v.length) ∧ (∃ v ∈ a, n = v.length) ∧
      ∀ i : Nat, i < n →
        b[i]? = some ((column a.tail i).foldl (fun y x => y - x) (a.head!.getD i 0)) := by
  obtain ⟨a0, ha0, hmem, hidx, hlen0⟩ := head_facts a h
  obtain ⟨n, hn, hle, hex⟩ := shortest_head a a0 hmem
  have hhead : a.head! = a0 := by
    cases a with
    | nil => exact absurd rfl h
    | cons x rest => simp at ha0; simp [ha0]
  have hcopy : copy (List.replicate n (0 : FLOAT)) a0 = a0.take n := by
    have hn0 := hle a0 hmem
    have h1 : min (List.replicate n (0 : FLOAT)).length a0.length = n := by
      rw [List.length_replicate]; omega
    have h2 : (List.replicate n (0 : FLOAT)).drop n = [] :=
      List.drop_of_length_le (by simp)
    unfold copy
    rw [h1, h2, List.append_nil]
  obtain ⟨r, hr, hrlen, hall⟩ := fill_loop n
    (fun i diff => forRange 1 (len a) (Sub.inner a i) diff) (a0.take n)
    (by rw [List.length_take]; exact min_eq_left (hle a0 hmem))
    (fun i => (column a.tail i).foldl (fun y x => y - x) (a0.getD i 0))
    (by
      intro i s hi hs hsi
      have hia0 : i < a0.length := lt_of_lt_of_le hi (hle a0 hmem)
      have hy : s[i]? = some (a0.getD i 0) := by
        rw [hsi, List.getElem?_take_of_lt hi, List.getD_eq_getElem _ _ hia0,
          List.getElem?_eq_getElem hia0]
      have hpos : 1 ≤ a.length := List.length_pos.mpr h
      have := accumulate_range (fun y x => y - x) (Sub.inner a (i : Int)) a i
        (fun j s v x y hv hx hy => Sub_inner_eq a i j s v x y hv hx hy)
        (fun v hv => lt_of_lt_of_le hi (hle v hv)) 1 hpos s _ hy
      simpa using this)
  refine ⟨r, n, ?_, hrlen, hle, hex, by rw [hhead]; exact hall⟩
  unfold Sub
  rw [if_neg hlen0, hidx]
  simp only [Option.bind_eq_bind, Option.some_bind, hn, make_natCast, hcopy]
  have hl : len (a0.take n) = (n : Int) := by
    simp [len]; exact hle a0 hmem
  rw [hl]; exact hr

theorem Mul_spec (a : List (List FLOAT)) (h : a ≠ []) :
    ∃ (b : List FLOAT) (n : Nat), Mul a = some b ∧ b.length = n ∧
      (∀ v ∈ a, n ≤ v.length) ∧ (∃ v ∈ a, n = v.length) ∧
      ∀ i : Nat, i < n → b[i]? = some ((column a i).foldl (fun y x => y * x) 1) := by
  obtain ⟨a0, _, hmem, hidx, hlen0⟩ := head_facts a h
  obtain ⟨n, hn, hle, hex⟩ := shortest_head a a0 hmem
  obtain ⟨r, hr, hrlen, hall⟩ := fill_loop n (Mul.outer a) (List.replicate n 0) (by simp)
    (fun i => (column a i).foldl (fun y x => y * x) 1)
    (by
      intro i s hi hs _
      have hy : (s.set i 1)[i]? = some (1 : FLOAT) := List.getElem?_set_self (by omega)
      have := accumulate_range (fun y x => y * x) (Mul.inner a (i : Int)) a i
        (fun j s v x y hv hx hy => Mul_inner_eq a i j s v x y hv hx hy)
        (fun v hv => lt_of_lt_of_le hi (hle v hv)) 0 (by omega) (s.set i 1) 1 hy
      unfold Mul.outer
      rw [assign_natCast s i 1 (by omega)]
      simp only [Option.bind_eq_bind, Option.some_bind]
      simpa using this)
  refine ⟨r, n, ?_, hrlen, hle, hex, hall⟩
  unfold Mul
  rw [if_neg hlen0, hidx]
  simp only [Option.bind_eq_bind, Option.some_bind, hn, make_natCast]
  have hl : len (List.replicate n (0 : FLOAT)) = (n : Int) := by simp [len]
  rw [hl]; exact hr

/-! ## Degenerate cases of the filters and of Resample -/

theorem clamp_eq_min (w L : Int) : (if w ≥ L then L else w) = min w L := by
  split_ifs with h
  · exact (min_eq_right h).symm
  · exact (min_eq_left (by omega)).symm

theorem AverageFilter_copy (a : List FLOAT) (w : Int) (h : min w (len a) ≤ 1) :
    AverageFilter a w = some a := by
  unfold AverageFilter
  simp only [clamp_eq_min]
  rw [if_pos h, Copy_eq]

theorem MedianFilter_copy (a : List FLOAT) (w : Int) (h : min w (len a) ≤ 1) :
    MedianFilter a w = some a := by
  unfold MedianFilter
  simp only [clamp_eq_min]
  rw [if_pos h, Copy_eq]

theorem Resample_empty (a : List FLOAT) (n : Int) (h : a = [] ∨ n ≤ 0) :
    Resample a n = some [] := by
  unfold Resample
  rw [if_pos]
  rcases h with h | h
  · left; subst h; rfl
  · right; exact h

theorem Resample_single (x : FLOAT) (n : Int) (h : 1 ≤ n) :
    Resample [x] n = Repeat x n := by
  have hlen : len [x] = 1 := rfl
  unfold Resample
  rw [if_neg (by rw [hlen]; omega), if_pos hlen]
  simp [index]

theorem Resample_one (a : List FLOAT) (h : 2 ≤ a.length) :
    ∃ x y, a[0]? = some x ∧ a[a.length - 1]? = some y ∧
      Resample a 1 = some [(x + y) / 2] := by
  have hlen : len a = (a.length : Int) := rfl
  obtain ⟨x0, hx0⟩ : ∃ x, a[0]? = some x := ⟨a[0], List.getElem?_eq_getElem (by omega)⟩
  obtain ⟨xL, hxL⟩ : ∃ x, a[a.length - 1]? = some x :=
    ⟨a[a.length - 1], List.getElem?_eq_getElem (by omega)⟩
  have hi0 : index a 0 = some x0 := by
    rw [show (0 : Int) = ((0 : Nat) : Int) from rfl, index_natCast, hx0]
  have hiL : index a ((a.length : Int) - 1) = some xL := by
    rw [show (a.length : Int) - 1 = ((a.length - 1 : Nat) : Int) by omega, index_natCast, hxL]
  refine ⟨x0, xL, hx0, hxL, ?_⟩
  unfold Resample
  rw [if_neg (by rw [hlen]; omega), if_neg (by rw [hlen]; omega), if_pos rfl]
  simp only [hlen, hi0, hiL, Option.bind_eq_bind, Option.some_bind, Option.pure_def]

theorem Resample_length (a : List FLOAT) (n : Nat) (ha : a ≠ []) (hn : 1 ≤ n) :
    ∃ b, Resample a (n : Int) = some b ∧ b.length = n := by
  have hpos : 0 < a.length := List.length_pos.mpr ha
  by_cases h1 : a.length = 1
  · obtain ⟨x, rfl⟩ := List.length_eq_one.mp h1
    exact ⟨List.replicate n x, by rw [Resample_single x n (by omega), Repeat_natCast], by simp⟩
  · by_cases hn1 : n = 1
    · subst hn1
      obtain ⟨x, y, _, _, hr⟩ := Resample_one a (by omega)
      exact ⟨[(x + y) / 2], by simpa using hr, rfl⟩
    · obtain ⟨b, hb, hlen, _⟩ := Resample_general a n (by omega) (by omega)
      exact ⟨b, hb, hlen⟩

/-! ## Elementwise values of Add, Sub, Mul -/

theorem foldl_add_eq (l : List FLOAT) (x : FLOAT) :
    l.foldl (fun y v => y + v) x = x + l.sum := by
  induction l generalizing x with
  | nil => simp
  | cons v rest ih => rw [List.foldl_cons, ih, List.sum_cons]; ring

theorem foldl_sub_eq (l : List FLOAT) (x : FLOAT) :
    l.foldl (fun y v => y - v) x = x - l.sum := by
  induction l generalizing x with
  | nil => simp
  | cons v rest ih => rw [List.foldl_cons, ih, List.sum_cons]; ring

theorem foldl_mul_eq (l : List FLOAT) (x : FLOAT) :
    l.foldl (fun y v => y * v) x = x * l.prod := by
  induction l generalizing x with
  | nil => simp
  | cons v rest ih => rw [List.foldl_cons, ih, List.prod_cons]; ring

theorem eq_of_getElem?_eq_on (b s : List FLOAT) (hlen : b.length = s.length)
    (h : ∀ i : Nat, i < s.length → b[i]? = s[i]?) : b = s := by
  apply List.ext_getElem?
  intro i
  by_cases hi : i < s.length
  · exact h i hi
  · rw [List.getElem?_eq_none (by omega), List.getElem?_eq_none (by omega)]

theorem Add_single (s : List FLOAT) : Add [s] = some s := by
  obtain ⟨b, n, hb, hlen, hle, ⟨v, hv, hn⟩, hall⟩ := Add_spec [s] (by simp)
  have hvs : v = s := by simpa using hv
  subst hvs
  rw [hb]
  congr 1
  refine eq_of_getElem?_eq_on b v (by omega) (fun i hi => ?_)
  rw [hall i (by omega), List.getElem?_eq_getElem hi]
  simp [column, List.getElem?_eq_getElem hi]

theorem Sub_single (s : List FLOAT) : Sub [s] = some s := by
  obtain ⟨b, n, hb, hlen, hle, ⟨v, hv, hn⟩, hall⟩ := Sub_spec [s] (by simp)
  have hvs : v = s := by simpa using hv
  subst hvs
  rw [hb]
  congr 1
  refine eq_of_getElem?_eq_on b v (by omega) (fun i hi => ?_)
  rw [hall i (by omega), List.getElem?_eq_getElem hi]
  simp [column, List.getElem?_eq_getElem hi]

theorem Mul_single (s : List FLOAT) : Mul [s] = some s := by
  obtain ⟨b, n, hb, hlen, hle, ⟨v, hv, hn⟩, hall⟩ := Mul_spec [s] (by simp)
  have hvs : v = s := by simpa using hv
  subst hvs
  rw [hb]
  congr 1
  refine eq_of_getElem?_eq_on b v (by omega) (fun i hi => ?_)
  rw [hall i (by omega), List.getElem?_eq_getElem hi]
  simp [column, List.getElem?_eq_getElem hi]

theorem Add_elem (a : List (List FLOAT)) (h : a ≠ []) (i : Nat) (hi : ∀ v ∈ a, i < v.length) :
    ∃ b, Add a = some b ∧ b[i]? = some (column a i).sum := by
  obtain ⟨b, n, hb, _, _, ⟨v, hv, hn⟩, hall⟩ := Add_spec a h
  refine ⟨b, hb, ?_⟩
  rw [hall i (by rw [hn]; exact hi v hv), foldl_add_eq, zero_add]

theorem Sub_elem (a : List (List FLOAT)) (h : a ≠ []) (i : Nat) (hi : ∀ v ∈ a, i < v.length) :
    ∃ b, Sub a = some b ∧ b[i]? = some (a.head!.getD i 0 - (column a.tail i).sum) := by
  obtain ⟨b, n, hb, _, _, ⟨v, hv, hn⟩, hall⟩ := Sub_spec a h
  refine ⟨b, hb, ?_⟩
  rw [hall i (by rw [hn]; exact hi v hv), foldl_sub_eq]

theorem Mul_elem (a : List (List FLOAT)) (h : a ≠ []) (i : Nat) (hi : ∀ v ∈ a, i < v.length) :
    ∃ b, Mul a = some b ∧ b[i]? = some (column a i).prod := by
  obtain ⟨b, n, hb, _, _, ⟨v, hv, hn⟩, hall⟩ := Mul_spec a h
  refine ⟨b, hb, ?_⟩
  rw [hall i (by rw [hn]; exact hi v hv), foldl_mul_eq, one_mul]

/-! ## Derivative and NthDerivative -/

theorem Derivative_short (a : List FLOAT) (h : a.length ≤ 1) :
    Derivative a = some (List.replicate a.length 0) := by
  have hlen : len a = (a.length : Int) := rfl
  unfold Derivative
  rw [if_pos (by rw [hlen]; omega), hlen, make_natCast]

theorem Derivative_body_eq (a : List FLOAT) (i : Nat) (s : List FLOAT) (hi : i + 1 < a.length)
    (hs : i < s.length) :
    Derivative.body a (i : Int) s = some (s.set i (a.getD (i + 1) 0 - a.getD i 0)) := by
  have e1 : (i : Int) + 1 = ((i + 1 : Nat) : Int) := by push_cast; ring
  unfold Derivative.body
  rw [e1, index_natCast, index_natCast, List.getElem?_eq_getElem hi,
    List.getElem?_eq_getElem (show i < a.length by omega)]
  simp only [Option.bind_eq_bind, Option.some_bind]
  rw [assign_natCast s i _ hs, List.getD_eq_getElem _ _ hi,
    List.getD_eq_getElem _ _ (show i < a.length by omega)]

theorem Derivative_long (a : List FLOAT) (h : 2 ≤ a.length) :
    ∃ b, Derivative a = some b ∧ b.length + 1 = a.length ∧
      ∀ i : Nat, i + 1 < a.length → b[i]? = some (a.getD (i + 1) 0 - a.getD i 0) := by
  have hlen : len a = (a.length : Int) := rfl
  obtain ⟨r, hr, hrlen, hall⟩ := fill_loop (a.length - 1) (Derivative.body a)
    (List.replicate (a.length - 1) 0) (by simp)
    (fun i => a.getD (i + 1) 0 - a.getD i 0)
    (fun i s hi hs _ => Derivative_body_eq a i s (by omega) (by omega))
  refine ⟨r, ?_, by omega, fun i hi => hall i (by omega)⟩
  unfold Derivative
  rw [if_neg (by rw [hlen]; omega), hlen,
    show (a.length : Int) - 1 = ((a.length - 1 : Nat) : Int) by omega, make_natCast]
  simp only [Option.bind_eq_bind, Option.some_bind]
  have hl : len (List.replicate (a.length - 1) (0 : FLOAT)) = ((a.length - 1 : Nat) : Int) := by
    simp [len]
  rw [hl]; exact hr

theorem Derivative_total (a : List FLOAT) :
    ∃ b, Derivative a = some b ∧ b.length = max (a.length - 1) (min a.length 1) := by
  by_cases h : a.length ≤ 1
  · exact ⟨_, Derivative_short a h, by simp; omega⟩
  · obtain ⟨b, hb, hlen, _⟩ := Derivative_long a (by omega)
    exact ⟨b, hb, by omega⟩

theorem countDown_succ_right {σ : Type} (body : σ → Option σ) (k : Nat) (s : σ) :
    countDown body (k + 1) s = (countDown body k s).bind body := by
  induction k generalizing s with
  | zero =>
    simp only [countDown, Option.some_bind]
    cases body s <;> rfl
  | succ k ih =>
    have h1 : countDown body (k + 1 + 1) s = (body s).bind (countDown body (k + 1)) := rfl
    have h2 : countDown body (k + 1) s = (body s).bind (countDown body k) := rfl
    rw [h1, h2]
    cases hb : body s with
    | none => rfl
    | some s1 => simp only [Option.some_bind]; exact ih s1

theorem NthDerivative_natCast (a : List FLOAT) (k : Nat) :
    NthDerivative a (k : Int) = countDown Derivative k a := by
  unfold NthDerivative
  by_cases hk : k = 0
  · subst hk; simp [Copy_eq, countDown]
  · rw [if_neg (by omega), Int.toNat_ofNat]

theorem NthDerivative_nonpos (a : List FLOAT) (n : Int) (h : n ≤ 0) :
    NthDerivative a n = some a := by
  unfold NthDerivative
  rw [if_pos h, Copy_eq]

theorem NthDerivative_succ (a : List FLOAT) (k : Nat) :
    NthDerivative a ((k : Int) + 1) = (NthDerivative a (k : Int)).bind Derivative := by
  have e : (k : Int) + 1 = ((k + 1 : Nat) : Int) := by push_cast; ring
  rw [e, NthDerivative_natCast, NthDerivative_natCast, countDown_succ_right]

theorem NthDerivative_length (a : List FLOAT) (k : Nat) :
    ∃ d, NthDerivative a (k : Int) = some d ∧
      d.length = max (a.length - k) (min a.length 1) := by
  induction k with
  | zero =>
    exact ⟨a, NthDerivative_nonpos a _ (by simp), by simp⟩
  | succ k ih =>
    obtain ⟨d, hd, hlen⟩ := ih
    obtain ⟨b, hb, hblen⟩ := Derivative_total d
    have e : ((k + 1 : Nat) : Int) = (k : Int) + 1 := by push_cast; ring
    refine ⟨b, ?_, ?_⟩
    · rw [e, NthDerivative_succ, hd, Option.some_bind, hb]
    · rw [hblen, hlen]; omega

theorem NthDerivative_bottom (a : List FLOAT) (k : Nat) (ha : a ≠ []) (hk : a.length ≤ k) :
    NthDerivative a (k : Int) = some [0] := by
  have hpos : 0 < a.length := List.length_pos.mpr ha
  obtain ⟨j, rfl⟩ : ∃ j, k = j + 1 := ⟨k - 1, by omega⟩
  obtain ⟨d, hd, hlen⟩ := NthDerivative_length a j
  have hd1 : d.length = 1 := by rw [hlen]; omega
  have e : ((j + 1 : Nat) : Int) = (j : Int) + 1 := by push_cast; ring
  rw [e, NthDerivative_succ, hd, Option.some_bind, Derivative_short d (by omega), hd1]
  rfl

/-! ## AverageFilter with a width of at least the length -/

theorem AverageFilter_full (a : List FLOAT) (w : Int) (ha : a ≠ []) (hw : len a ≤ w) :
    AverageFilter a w = some [Average a] := by
  have hlen : len a = (a.length : Int) := rfl
  have hpos : 0 < a.length := List.length_pos.mpr ha
  have hmin : min w (len a) = len a := min_eq_right hw
  have havg : Average a = a.sum * (1 / ((a.length : Int) : FLOAT)) := by
    unfold Average
    rw [if_neg (by rw [hlen]; omega), foldl_add_eq, zero_add, hlen, div_eq_mul_inv, one_div]
  by_cases h1 : a.length = 1
  · obtain ⟨x, rfl⟩ := List.length_eq_one.mp h1
    rw [AverageFilter_copy _ w (by rw [hmin]; exact le_of_eq rfl), havg]
    simp
  · obtain ⟨b, hb, hblen, hall⟩ := AverageFilter_spec a w a.length (by rw [hmin, hlen]) (by omega)
    have h0 := hall 0 (by omega)
    rw [show ((0 : Nat) : Int) = 0 from rfl] at h0
    have hb1 : b.length = 1 := by omega
    obtain ⟨x, rfl⟩ := List.length_eq_one.mp hb1
    rw [hb, havg]
    have hx : x = windowMean a 0 (a.length : Int) := by simpa using h0
    rw [hx, show (0 : Int) = ((0 : Nat) : Int) from rfl, windowMean_natCast]
    simp

theorem countDown_eq_iterate {σ : Type} (body : σ → Option σ) (k : Nat) (s : σ) :
    countDown body k s = (fun d : Option σ => d.bind body)^[k] (some s) := by
  induction k with
  | zero => rfl
  | succ k ih => rw [countDown_succ_right, ih, Function.iterate_succ_apply']

theorem NthDerivative_nil (m : Int) : NthDerivative [] m = some [] := by
  by_cases h : m ≤ 0
  · exact NthDerivative_nonpos [] m h
  · obtain ⟨k, rfl⟩ := Int.eq_ofNat_of_zero_le (show 0 ≤ m by omega)
    obtain ⟨d, hd, hlen⟩ := NthDerivative_length [] k
    have : d = [] := List.length_eq_zero.mp (by rw [hlen]; simp)
    rw [hd, this]

/-! ## Reciprocal, SafeReciprocal, Div, SafeDiv -/

theorem Reciprocal_spec (a : List FLOAT) :
    ∃ b, Reciprocal a = some b ∧ b.length = a.length ∧
      ∀ i : Nat, i < a.length → b[i]? = some (1 / a.getD i 0) := by
  obtain ⟨r, hr, hrlen, hall⟩ := fill_loop a.length (Reciprocal.body a)
    (List.replicate a.length 0) (by simp) (fun i => 1 / a.getD i 0)
    (fun i s hi hs _ => by
      unfold Reciprocal.body
      rw [index_natCast, List.getElem?_eq_getElem hi]
      simp only [Option.bind_eq_bind, Option.some_bind]
      rw [assign_natCast s i _ (by omega), List.getD_eq_getElem _ _ hi])
  refine ⟨r, ?_, hrlen, hall⟩
  have hl : len (List.replicate a.length (0 : FLOAT)) = (a.length : Int) := by simp [len]
  unfold Reciprocal
  rw [show len a = (a.length : Int) from rfl, make_natCast]
  simp only [Option.bind_eq_bind, Option.some_bind]
  rw [hl]; exact hr

theorem SafeReciprocal_spec (a : List FLOAT) (replacement : FLOAT) :
    ∃ b, SafeReciprocal a replacement = some b ∧ b.length = a.length ∧
      ∀ i : Nat, i < a.length →
        b[i]? = some (if a.getD i 0 = 0 then replacement else 1 / a.getD i 0) := by
  obtain ⟨r, hr, hrlen, hall⟩ := fill_loop a.length (SafeReciprocal.body a replacement)
    (List.replicate a.length 0) (by simp)
    (fun i => if a.getD i 0 = 0 then replacement else 1 / a.getD i 0)
    (fun i s hi hs _ => by
      unfold SafeReciprocal.body
      rw [index_natCast, List.getElem?_eq_getElem hi]
      simp only [Option.bind_eq_bind, Option.some_bind]
      rw [List.getD_eq_getElem _ _ hi]
      split_ifs
      · exact assign_natCast s i _ (by omega)
      · exact assign_natCast s i _ (by omega))
  refine ⟨r, ?_, hrlen, hall⟩
  have hl : len (List.replicate a.length (0 : FLOAT)) = (a.length : Int) := by simp [len]
  unfold SafeReciprocal
  rw [show len a = (a.length : Int) from rfl, make_natCast]
  simp only [Option.bind_eq_bind, Option.some_bind]
  rw [hl]; exact hr

theorem shorter_natCast (a b : List FLOAT) :
    (if len b < len a then len b else len a) = ((min a.length b.length : Nat) : Int) := by
  unfold len
  split_ifs with h <;> omega

theorem Div_spec (a b : List FLOAT) :
    ∃ d, Div a b = some d ∧ d.length = min a.length b.length ∧
      ∀ i : Nat, i < min a.length b.length → d[i]? = some (a.getD i 0 / b.getD i 0) := by
  by_cases h0 : min a.length b.length = 0
  · refine ⟨[], ?_, by rw [h0]; rfl, fun i hi => by omega⟩
    unfold Div
    simp only [shorter_natCast, h0]
    rfl
  obtain ⟨r, hr, hrlen, hall⟩ := fill_loop (min a.length b.length) (Div.body a b)
    (List.replicate (min a.length b.length) 0) (by simp)
    (fun i => a.getD i 0 / b.getD i 0)
    (fun i s hi hs _ => by
      have hia : i < a.length := lt_of_lt_of_le hi (min_le_left _ _)
      have hib : i < b.length := lt_of_lt_of_le hi (min_le_right _ _)
      unfold Div.body
      rw [index_natCast, index_natCast, List.getElem?_eq_getElem hia,
        List.getElem?_eq_getElem hib]
      simp only [Option.bind_eq_bind, Option.some_bind]
      rw [assign_natCast s i _ (by omega), List.getD_eq_getElem _ _ hia,
        List.getD_eq_getElem _ _ hib])
  refine ⟨r, ?_, hrlen, hall⟩
  have hl : len (List.replicate (min a.length b.length) (0 : FLOAT)) =
      ((min a.length b.length : Nat) : Int) := by simp [len]
  unfold Div
  simp only [shorter_natCast]
  rw [if_neg (by omega), make_natCast]
  simp only [Option.bind_eq_bind, Option.some_bind]
  rw [hl]; exact hr

theorem SafeDiv_spec (a b : List FLOAT) (replacement : FLOAT) :
    ∃ d, SafeDiv a b replacement = some d ∧ d.length = min a.length b.length ∧
      ∀ i : Nat, i < min a.length b.length →
        d[i]? = some (if b.getD i 0 = 0 then replacement else a.getD i 0 / b.getD i 0) := by
  by_cases h0 : min a.length b.length = 0
  · refine ⟨[], ?_, by rw [h0]; rfl, fun i hi => by omega⟩
    unfold SafeDiv
    simp only [shorter_natCast, h0]
    rfl
  obtain ⟨r, hr, hrlen, hall⟩ := fill_loop (min a.length b.length)
    (SafeDiv.body a b replacement)
    (List.replicate (min a.length b.length) 0) (by simp)
    (fun i => if b.getD i 0 = 0 then replacement else a.getD i 0 / b.getD i 0)
    (fun i s hi hs _ => by
      have hia : i < a.length := lt_of_lt_of_le hi (min_le_left _ _)
      have hib : i < b.length := lt_of_lt_of_le hi (min_le_right _ _)
      unfold SafeDiv.body
      rw [index_natCast, index_natCast, List.getElem?_eq_getElem hia,
        List.getElem?_eq_getElem hib]
      simp only [Option.bind_eq_bind, Option.some_bind]
      rw [List.getD_eq_getElem _ _ hia, List.getD_eq_getElem _ _ hib]
      split_ifs
      · exact assign_natCast s i _ (by omega)
      · exact assign_natCast s i _ (by omega))
  refine ⟨r, ?_, hrlen, hall⟩
  have hl : len (List.replicate (min a.length b.length) (0 : FLOAT)) =
      ((min a.length b.length : Nat) : Int) := by simp [len]
  unfold SafeDiv
  simp only [shorter_natCast]
  rw [if_neg (by omega), make_natCast]
  simp only [Option.bind_eq_bind, Option.some_bind]
  rw [hl]; exact hr

/-! ## EveryNth -/

theorem wrap64_of_inRange (x : Int) (h0 : -(2 ^ 63) ≤ x) (h1 : x < 2 ^ 63) : wrap64 x = x := by
  unfold wrap64; omega

theorem wrap64_sub_one (x : Int) : wrap64 (wrap64 x - 1) = wrap64 (x - 1) := by
  unfold wrap64; omega

theorem EveryNth_nonpos (a : List FLOAT) (n : Int) (h : n ≤ 0) : EveryNth a n = some [] := by
  unfold EveryNth
  rw [if_pos h]

theorem EveryNth_spec (a : List FLOAT) (n : Nat) (hn : 1 ≤ n)
    (hr : a.length + n - 1 < 2 ^ 63) :
    ∃ b, EveryNth a (n : Int) = some b ∧ b.length = (a.length + n - 1) / n ∧
      ∀ i : Nat, i < (a.length + n - 1) / n → i * n < a.length ∧ b[i]? = a[i * n]? := by
  have hlen : len a = (a.length : Int) := rfl
  have hidx : ∀ i : Nat, i < (a.length + n - 1) / n → i * n < a.length := by
    intro i hi
    have h1 : (i + 1) * n ≤ a.length + n - 1 := (Nat.le_div_iff_mul_le (by omega)).mp hi
    have h2 : (i + 1) * n = i * n + n := by ring
    omega
  have hsize : Int.tdiv (wrap64 (wrap64 (len a + (n : Int)) - 1)) (n : Int) =
      (((a.length + n - 1) / n : Nat) : Int) := by
    have hr2 : ((a.length + n - 1 : Nat) : Int) < 2 ^ 63 := by exact_mod_cast hr
    have e : len a + (n : Int) - 1 = ((a.length + n - 1 : Nat) : Int) := by rw [hlen]; omega
    rw [wrap64_sub_one, e, wrap64_of_inRange _ (by omega) hr2,
      Int.tdiv_eq_ediv (by omega) (by omega)]
    rfl
  obtain ⟨r, hr1, hrlen, hall⟩ := fill_loop ((a.length + n - 1) / n) (EveryNth.body a (n : Int))
    (List.replicate ((a.length + n - 1) / n) 0) (by simp)
    (fun i => a.getD (i * n) 0)
    (fun i s hi hs _ => by
      have hin := hidx i hi
      have hw : wrap64 ((i : Int) * (n : Int)) = ((i * n : Nat) : Int) := by
        have h63 : ((i * n : Nat) : Int) < 2 ^ 63 := by
          have : i * n < 2 ^ 63 := by omega
          exact_mod_cast this
        have e : (i : Int) * (n : Int) = ((i * n : Nat) : Int) := by push_cast; ring
        rw [e]; exact wrap64_of_inRange _ (by omega) h63
      unfold EveryNth.body
      rw [hw, index_natCast, List.getElem?_eq_getElem hin]
      simp only [Option.bind_eq_bind, Option.some_bind]
      rw [assign_natCast s i _ (by omega), List.getD_eq_getElem _ _ hin])
  refine ⟨r, ?_, hrlen, fun i hi => ⟨hidx i hi, ?_⟩⟩
  · have hl : len (List.replicate ((a.length + n - 1) / n) (0 : FLOAT)) =
        (((a.length + n - 1) / n : Nat) : Int) := by simp [len]
    unfold EveryNth
    rw [if_neg (by omega), hsize, make_natCast]
    simp only [Option.bind_eq_bind, Option.some_bind]
    rw [hl]; exact hr1
  · rw [hall i hi, List.getD_eq_getElem _ _ (hidx i hi), List.getElem?_eq_getElem (hidx i hi)]

theorem EveryNth_overflow : EveryNth [1, 2] 9223372036854775807 = none := by
  decide!

/-! ## Elementwise maps: Negative, AddOffset, Scale, Abs -/

theorem map_loop (a : List FLOAT) (f : FLOAT → FLOAT)
    (body : Int → List FLOAT → Option (List FLOAT))
    (hbody : ∀ (i : Nat) (s : List FLOAT) (x : FLOAT), a[i]? = some x → i < s.length →
      body (i : Int) s = some (s.set i (f x))) :
    (make (len a)).bind (fun b => forRange 0 (len b) body b) = some (a.map f) := by
  obtain ⟨r, hr, hrlen, hall⟩ := fill_loop a.length body (List.replicate a.length 0)
    (by simp) (fun i => f (a.getD i 0))
    (fun i s hi hs _ => by
      rw [hbody i s a[i] (List.getElem?_eq_getElem hi) (by omega)]
      simp only [List.getD_eq_getElem _ _ hi])
  have hl : len (List.replicate a.length (0 : FLOAT)) = (a.length : Int) := by simp [len]
  rw [show len a = (a.length : Int) from rfl, make_natCast, Option.some_bind, hl, hr]
  congr 1
  refine eq_of_getElem?_eq_on r (a.map f) (by simp [hrlen]) (fun i hi => ?_)
  have hia : i < a.length := by simpa using hi
  rw [hall i hia, List.getD_eq_getElem _ _ hia, List.getElem?_map,
    List.getElem?_eq_getElem hia]
  rfl

theorem Negative_eq (a : List FLOAT) : Negative a = some (a.map (fun x => -x)) :=
  map_loop a (fun x => -x) (Negative.body a) (fun i s x hx hs => by
    simp only [Negative.body, index_natCast, hx, Option.bind_eq_bind, Option.some_bind]
    exact assign_natCast s i _ hs)

theorem AddOffset_eq (a : List FLOAT) (offset : FLOAT) :
    AddOffset a offset = some (a.map (fun x => x + offset)) :=
  map_loop a (fun x => x + offset) (AddOffset.body a offset) (fun i s x hx hs => by
    simp only [AddOffset.body, index_natCast, hx, Option.bind_eq_bind, Option.some_bind]
    exact assign_natCast s i _ hs)

theorem Scale_eq (a : List FLOAT) (factor : FLOAT) :
    Scale a factor = some (a.map (fun x => x * factor)) :=
  map_loop a (fun x => x * factor) (Scale.body a factor) (fun i s x hx hs => by
    simp only [Scale.body, index_natCast, hx, Option.bind_eq_bind, Option.some_bind]
    exact assign_natCast s i _ hs)

theorem Abs_eq (x : List FLOAT) : Abs x = some (x.map AbsValue) :=
  map_loop x AbsValue (Abs.body x) (fun i s v hv hs => by
    simp only [Abs.body, index_natCast, hv, Option.bind_eq_bind, Option.some_bind]
    exact assign_natCast s i _ hs)

theorem AbsValue_nonneg (x : FLOAT) : 0 ≤ AbsValue x := by
  unfold AbsValue
  split_ifs with h
  · exact h
  · linarith [not_le.mp h]

/-! ## Reverse -/

theorem Reverse_eq (x : List FLOAT) : Reverse x = some x.reverse := by
  obtain ⟨r, hr, hrlen, hall⟩ := fill_loop x.length (Reverse.body x)
    (List.replicate x.length 0) (by simp) (fun i => x.getD (x.length - 1 - i) 0)
    (fun i s hi hs _ => by
      have e : len x - 1 - (i : Int) = ((x.length - 1 - i : Nat) : Int) := by
        unfold len; omega
      have hj : x.length - 1 - i < x.length := by omega
      unfold Reverse.body
      rw [e, index_natCast, List.getElem?_eq_getElem hj]
      simp only [Option.bind_eq_bind, Option.some_bind]
      rw [assign_natCast s i _ (by omega), List.getD_eq_getElem _ _ hj])
  have hl : len (List.replicate x.length (0 : FLOAT)) = (x.length : Int) := by simp [len]
  unfold Reverse
  rw [show len x = (x.length : Int) from rfl, make_natCast]
  simp only [Option.bind_eq_bind, Option.some_bind]
  rw [hl, hr]
  congr 1
  refine eq_of_getElem?_eq_on r x.reverse (by simp [hrlen]) (fun i hi => ?_)
  have hix : i < x.length := by simpa using hi
  rw [hall i hix, List.getD_eq_getElem _ _ (by omega), List.getElem?_reverse hix,
    List.getElem?_eq_getElem (by omega)]

/-! ## Range -/

theorem Range_up (a b : Int) (hab : a ≤ b) (ha : -(2 ^ 63) ≤ a) (hb : b < 2 ^ 63)
    (hfit : b - a + 1 < 2 ^ 63) :
    ∃ r, Range a b = some r ∧ len r = b - a + 1 ∧
      ∀ i : Nat, (i : Int) < b - a + 1 → r[i]? = some (((a + (i : Int) : Int)) : FLOAT) := by
  obtain ⟨n, hn⟩ := Int.eq_ofNat_of_zero_le (show 0 ≤ b - a + 1 by omega)
  have hsize : wrap64 (wrap64 (b - a) + 1) = (n : Int) := by
    rw [wrap64_of_inRange (b - a) (by omega) (by omega),
      wrap64_of_inRange (b - a + 1) (by omega) hfit, hn]
  obtain ⟨r, hr, hrlen, hall⟩ := fill_loop n
    (fun i r => assign r i ((wrap64 (a + i) : Int) : FLOAT)) (List.replicate n 0) (by simp)
    (fun i => ((a + (i : Int) : Int) : FLOAT))
    (fun i s hi hs _ => by
      simp only
      rw [wrap64_of_inRange (a + (i : Int)) (by omega) (by omega)]
      exact assign_natCast s i _ (by omega))
  have hl : len (List.replicate n (0 : FLOAT)) = (n : Int) := by simp [len]
  refine ⟨r, ?_, by unfold len; omega, fun i hi => hall i (by omega)⟩
  unfold Range
  rw [if_pos hab, hsize, make_natCast]
  simp only [Option.bind_eq_bind, Option.some_bind]
  rw [hl]; exact hr

theorem Range_down (a b : Int) (hab : b < a) (ha : a < 2 ^ 63) (hb : -(2 ^ 63) ≤ b)
    (hfit : a - b + 1 < 2 ^ 63) :
    ∃ r, Range a b = some r ∧ len r = a - b + 1 ∧
      ∀ i : Nat, (i : Int) < a - b + 1 → r[i]? = some (((a - (i : Int) : Int)) : FLOAT) := by
  obtain ⟨n, hn⟩ := Int.eq_ofNat_of_zero_le (show 0 ≤ a - b + 1 by omega)
  have hsize : wrap64 (wrap64 (a - b) + 1) = (n : Int) := by
    rw [wrap64_of_inRange (a - b) (by omega) (by omega),
      wrap64_of_inRange (a - b + 1) (by omega) hfit, hn]
  obtain ⟨r, hr, hrlen, hall⟩ := fill_loop n
    (fun i r => assign r i ((wrap64 (a - i) : Int) : FLOAT)) (List.replicate n 0) (by simp)
    (fun i => ((a - (i : Int) : Int) : FLOAT))
    (fun i s hi hs _ => by
      simp only
      rw [wrap64_of_inRange (a - (i : Int)) (by omega) (by omega)]
      exact assign_natCast s i _ (by omega))
  have hl : len (List.replicate n (0 : FLOAT)) = (n : Int) := by simp [len]
  refine ⟨r, ?_, by unfold len; omega, fun i hi => hall i (by omega)⟩
  unfold Range
  rw [if_neg (by omega), hsize, make_natCast]
  simp only [Option.bind_eq_bind, Option.some_bind]
  rw [hl]; exact hr

/-! ## Operations on the empty sequence -/

theorem tdiv_eq_zero_of_abs_lt (x n : Int) (h1 : -n < x) (h2 : x < n) : Int.tdiv x n = 0 := by
  by_cases h0 : 0 ≤ x
  · exact Int.tdiv_eq_zero_of_lt h0 h2
  · have e : x = -(-x) := by ring
    rw [e, Int.neg_tdiv, Int.tdiv_eq_zero_of_lt (by omega) (by omega)]
    rfl

theorem EveryNth_nil (n : Int) : EveryNth [] n = some [] := by
  by_cases hn : n ≤ 0
  · exact EveryNth_nonpos [] n hn
  · have hlen : len ([] : List FLOAT) = 0 := rfl
    have hx : Int.tdiv (wrap64 (wrap64 (len ([] : List FLOAT) + n) - 1)) n = 0 := by
      apply tdiv_eq_zero_of_abs_lt
      · rw [hlen]; unfold wrap64; omega
      · rw [hlen]; unfold wrap64; omega
    unfold EveryNth
    rw [if_neg hn, hx]
    rfl

theorem Add_nil_mem (a : List (List FLOAT)) (h : [] ∈ a) : Add a = some [] := by
  obtain ⟨b, n, hb, hlen, hle, _⟩ := Add_spec a (List.ne_nil_of_mem h)
  have := hle [] h
  have hb0 : b = [] := List.length_eq_zero.mp (by simp at this; omega)
  rw [hb, hb0]

theorem Sub_nil_mem (a : List (List FLOAT)) (h : [] ∈ a) : Sub a = some [] := by
  obtain ⟨b, n, hb, hlen, hle, _⟩ := Sub_spec a (List.ne_nil_of_mem h)
  have := hle [] h
  have hb0 : b = [] := List.length_eq_zero.mp (by simp at this; omega)
  rw [hb, hb0]

theorem Mul_nil_mem (a : List (List FLOAT)) (h : [] ∈ a) : Mul a = some [] := by
  obtain ⟨b, n, hb, hlen, hle, _⟩ := Mul_spec a (List.ne_nil_of_mem h)
  have := hle [] h
  have hb0 : b = [] := List.length_eq_zero.mp (by simp at this; omega)
  rw [hb, hb0]

theorem Div_nil (a b : List FLOAT) (h : a = [] ∨ b = []) : Div a b = some [] := by
  obtain ⟨d, hd, hlen, _⟩ := Div_spec a b
  have h0 : min a.length b.length = 0 := by
    rcases h with h | h <;> subst h <;> simp
  have hd0 : d = [] := List.length_eq_zero.mp (by omega)
  rw [hd, hd0]

theorem SafeDiv_nil (a b : List FLOAT) (r : FLOAT) (h : a = [] ∨ b = []) :
    SafeDiv a b r = some [] := by
  obtain ⟨d, hd, hlen, _⟩ := SafeDiv_spec a b r
  have h0 : min a.length b.length = 0 := by
    rcases h with h | h <;> subst h <;> simp
  have hd0 : d = [] := List.length_eq_zero.mp (by omega)
  rw [hd, hd0]

/-! ## Output lengths as functions of the input length -/

theorem AverageFilter_length (a : List FLOAT) (w : Int) :
    ∃ b, AverageFilter a w = some b ∧
      len b = if min w (len a) ≤ 1 then len a else len a - min w (len a) + 1 := by
  by_cases h : min w (len a) ≤ 1
  · exact ⟨a, AverageFilter_copy a w h, by rw [if_pos h]⟩
  · obtain ⟨e, hee⟩ := Int.eq_ofNat_of_zero_le (show 0 ≤ min w (len a) by omega)
    obtain ⟨b, hb, hl, _⟩ := AverageFilter_spec a w e hee.symm (by omega)
    refine ⟨b, hb, ?_⟩
    rw [if_neg h, hee]; unfold len; omega

theorem MedianFilter_length (a : List FLOAT) (w : Int) :
    ∃ b, MedianFilter a w = some b ∧
      len b = if min w (len a) ≤ 1 then len a else len a - min w (len a) + 1 := by
  by_cases h : min w (len a) ≤ 1
  · exact ⟨a, MedianFilter_copy a w h, by rw [if_pos h]⟩
  · obtain ⟨e, hee⟩ := Int.eq_ofNat_of_zero_le (show 0 ≤ min w (len a) by omega)
    obtain ⟨b, hb, hl, _⟩ := MedianFilter_spec a w e hee.symm (by omega)
    refine ⟨b, hb, ?_⟩
    rw [if_neg h, hee]; unfold len; omega

theorem len_congr {α : Type} (a b : List α) (h : a.length = b.length) : len a = len b := by
  unfold len; rw [h]

theorem length_of_len_eq {α : Type} (a b : List α) (h : len a = len b) :
    a.length = b.length := by
  unfold len at h; omega

theorem index_isSome_congr {α : Type} (a b : List α) (i : Int) (h : a.length = b.length) :
    (index a i).isSome = (index b i).isSome := by
  unfold index
  split_ifs with h0
  · by_cases hi : i.toNat < a.length
    · rw [List.getElem?_eq_getElem hi, List.getElem?_eq_getElem (by omega)]; rfl
    · rw [List.getElem?_eq_none (by omega), List.getElem?_eq_none (by omega)]
  · rfl

theorem assign_length {α : Type} (s : List α) (i : Int) (v : α) :
    (assign s i v).map List.length = if 0 ≤ i ∧ i < len s then some s.length else none := by
  unfold assign
  split_ifs <;> simp

theorem forLoop_length_congr (f g : Int → List FLOAT → Option (List FLOAT))
    (hfg : ∀ (i : Int) (s t : List FLOAT), s.length = t.length →
      (f i s).map List.length = (g i t).map List.length) :
    ∀ (k : Nat) (i : Int) (s t : List FLOAT), s.length = t.length →
      (forLoop f k i s).map List.length = (forLoop g k i t).map List.length := by
  intro k
  induction k with
  | zero => intro i s t h; simp [forLoop, h]
  | succ k ih =>
    intro i s t h
    have hstep := hfg i s t h
    simp only [forLoop]
    cases hf : f i s with
    | none =>
      cases hg : g i t with
      | none => rfl
      | some t1 => rw [hf, hg] at hstep; exact Option.noConfusion hstep
    | some s1 =>
      cases hg : g i t with
      | none => rw [hf, hg] at hstep; exact Option.noConfusion hstep
      | some t1 =>
        rw [hf, hg] at hstep
        simp only [Option.map_some'] at hstep
        simp only [Option.some_bind]
        exact ih (i + 1) s1 t1 (Option.some.inj hstep)

theorem EveryNth_body_length_congr (a b : List FLOAT) (n : Int) (h : a.length = b.length)
    (i : Int) (s t : List FLOAT) (hst : s.length = t.length) :
    (EveryNth.body a n i s).map List.length = (EveryNth.body b n i t).map List.length := by
  have hsome := index_isSome_congr a b (wrap64 (i * n)) h
  unfold EveryNth.body
  cases ha : index a (wrap64 (i * n)) with
  | none =>
    cases hb : index b (wrap64 (i * n)) with
    | none => rfl
    | some y => rw [ha, hb] at hsome; exact Bool.noConfusion hsome
  | some x =>
    cases hb : index b (wrap64 (i * n)) with
    | none => rw [ha, hb] at hsome; exact Bool.noConfusion hsome
    | some y =>
      simp only [Option.bind_eq_bind, Option.some_bind]
      rw [assign_length, assign_length, len_congr s t hst, hst]

theorem EveryNth_length_congr (a b : List FLOAT) (n : Int) (h : a.length = b.length) :
    (EveryNth a n).map List.length = (EveryNth b n).map List.length := by
  unfold EveryNth
  split_ifs with hn
  · rfl
  · rw [len_congr a b h]
    cases make (Int.tdiv (wrap64 (wrap64 (len b + n) - 1)) n) with
    | none => rfl
    | some r =>
      simp only [Option.bind_eq_bind, Option.some_bind]
      exact forLoop_length_congr _ _ (EveryNth_body_length_congr a b n h) _ _ r r rfl

theorem EveryNth_returns_congr (a b : List FLOAT) (p : Int) (h : a.length = b.length)
    (hp : p ≤ 0 ∨ len a + p - 1 < 2 ^ 63) :
    ∃ r s, EveryNth a p = some r ∧ EveryNth b p = some s ∧ r.length = s.length := by
  by_cases h0 : p ≤ 0
  · exact ⟨[], [], EveryNth_nonpos a p h0, EveryNth_nonpos b p h0, rfl⟩
  · have hfit : len a + p - 1 < 2 ^ 63 := by
      rcases hp with hp | hp
      · exact absurd hp h0
      · exact hp
    obtain ⟨k, rfl⟩ := Int.eq_ofNat_of_zero_le (show 0 ≤ p by omega)
    have hka : a.length + k - 1 < 2 ^ 63 := by
      have : ((a.length + k - 1 : Nat) : Int) < 2 ^ 63 := by unfold len at hfit; omega
      exact_mod_cast this
    obtain ⟨r, hr, hrl, _⟩ := EveryNth_spec a k (by omega) hka
    obtain ⟨s, hs, hsl, _⟩ := EveryNth_spec b k (by omega) (by rw [← h]; exact hka)
    exact ⟨r, s, hr, hs, by rw [hrl, hsl, h]⟩

theorem Resample_length_congr (a b : List FLOAT) (n : Int) (h : a.length = b.length) :
    ∃ r s, Resample a n = some r ∧ Resample b n = some s ∧ r.length = s.length := by
  by_cases h0 : a = [] ∨ n ≤ 0
  · have h1 : b = [] ∨ n ≤ 0 := by
      rcases h0 with h0 | h0
      · left; subst h0; exact List.length_eq_zero.mp h.symm
      · right; exact h0
    exact ⟨[], [], Resample_empty a n h0, Resample_empty b n h1, rfl⟩
  · have ha : a ≠ [] := fun hc => h0 (Or.inl hc)
    have hb : b ≠ [] := by
      intro hc; subst hc
      exact ha (List.length_eq_zero.mp h)
    obtain ⟨k, rfl⟩ := Int.eq_ofNat_of_zero_le (show 0 ≤ n by omega)
    obtain ⟨r, hr, hrl⟩ := Resample_length a k ha (by omega)
    obtain ⟨s, hs, hsl⟩ := Resample_length b k hb (by omega)
    exact ⟨r, s, hr, hs, by omega⟩

theorem NthDerivative_length_congr (a b : List FLOAT) (n : Int) (h : a.length = b.length) :
    ∃ r s, NthDerivative a n = some r ∧ NthDerivative b n = some s ∧ r.length = s.length := by
  by_cases hn : n ≤ 0
  · exact ⟨a, b, NthDerivative_nonpos a n hn, NthDerivative_nonpos b n hn, h⟩
  · obtain ⟨k, rfl⟩ := Int.eq_ofNat_of_zero_le (show 0 ≤ n by omega)
    obtain ⟨r, hr, hrl⟩ := NthDerivative_length a k
    obtain ⟨s, hs, hsl⟩ := NthDerivative_length b k
    exact ⟨r, s, hr, hs, by rw [hrl, hsl, h]⟩

/-! ## Resample stays within the range of its input -/

theorem convex_bounds (lo hi al ah f : ℚ) (h0 : 0 ≤ f) (h1 : f ≤ 1) (hal : lo ≤ al ∧ al ≤ hi)
    (hah : lo ≤ ah ∧ ah ≤ hi) :
    lo ≤ f * al + (1 - f) * ah ∧ f * al + (1 - f) * ah ≤ hi := by
  have hf : 0 ≤ 1 - f := by linarith
  constructor
  · have e1 := mul_le_mul_of_nonneg_left hal.1 h0
    have e2 := mul_le_mul_of_nonneg_left hah.1 hf
    nlinarith
  · have e1 := mul_le_mul_of_nonneg_left hal.2 h0
    have e2 := mul_le_mul_of_nonneg_left hah.2 hf
    nlinarith

theorem mem_of_index {α : Type} (a : List α) (i : Int) (x : α) (h : index a i = some x) :
    x ∈ a := by
  unfold index at h
  split_ifs at h
  exact List.getElem?_mem h

theorem mem_of_getElem?_eq {α : Type} (a : List α) (i : Nat) (x : α) (h : a[i]? = some x) :
    x ∈ a :=
  List.getElem?_mem h

theorem Resample_mem_bounds (a : List FLOAT) (n : Nat) (ha : a ≠ []) (hn : 1 ≤ n)
    (lo hi : FLOAT) (hb : ∀ x ∈ a, lo ≤ x ∧ x ≤ hi) :
    ∃ b, Resample a (n : Int) = some b ∧ ∀ x ∈ b, lo ≤ x ∧ x ≤ hi := by
  have hpos : 0 < a.length := List.length_pos.mpr ha
  by_cases h1 : a.length = 1
  · obtain ⟨v, rfl⟩ := List.length_eq_one.mp h1
    refine ⟨List.replicate n v, by rw [Resample_single v n (by omega), Repeat_natCast], ?_⟩
    intro x hx
    rw [List.eq_of_mem_replicate hx]
    exact hb v (List.mem_singleton_self v)
  by_cases hn1 : n = 1
  · subst hn1
    obtain ⟨x, y, hx, hy, hr⟩ := Resample_one a (by omega)
    refine ⟨[(x + y) / 2], by simpa using hr, ?_⟩
    intro z hz
    rw [List.mem_singleton.mp hz]
    have bx := hb x (mem_of_getElem?_eq a 0 x hx)
    have by1 := hb y (mem_of_getElem?_eq a _ y hy)
    constructor <;> linarith [bx.1, bx.2, by1.1, by1.2]
  obtain ⟨b, hres, hlen, hb0, hbl, hall⟩ := Resample_general a n (by omega) (by omega)
  refine ⟨b, hres, ?_⟩
  intro x hx
  obtain ⟨t, ht, rfl⟩ := List.getElem_of_mem hx
  have hbt : b[t]? = some b[t] := List.getElem?_eq_getElem ht
  by_cases ht0 : t = 0
  · subst ht0
    rw [hb0] at hbt
    exact hb _ (mem_of_getElem?_eq a 0 _ hbt)
  by_cases htl : t = n - 1
  · subst htl
    rw [hbl] at hbt
    exact hb _ (mem_of_getElem?_eq a _ _ hbt)
  obtain ⟨al, ah, hal, hah, hv⟩ := interpolate_some a n t (by omega) (by omega)
  rw [hall t (by omega) (by omega), hv] at hbt
  rw [← Option.some.inj hbt]
  exact convex_bounds lo hi al ah _ (Int.fract_nonneg _) (Int.fract_lt_one _).le
    (hb al (mem_of_index a _ al hal)) (hb ah (mem_of_index a _ ah hah))

theorem MinValue_MaxValue_spec (a : List FLOAT) (ha : a ≠ []) :
    ∃ mv Mv : FLOAT, MinValue a = some (finite mv) ∧ MaxValue a = some (finite Mv) ∧
      ∀ x ∈ a, mv ≤ x ∧ x ≤ Mv := by
  obtain ⟨mi, Mi, mv, Mv, hres, _, _, hmin, _, hmax, _⟩ := MinMax_spec a ha
  refine ⟨mv, Mv, ?_, ?_, fun x hx => ⟨hmin x hx, hmax x hx⟩⟩
  · unfold MinValue; rw [hres]; rfl
  · unfold MaxValue; rw [hres]; rfl

/-! ## Resample to the same length -/

theorem sourcePos_same_length (L t : Nat) (hL : 2 ≤ L) :
    sourcePos (L : Int) (L : Int) (t : Int) = ((t : Int) : ℚ) := by
  have h : ((L : Int) : ℚ) - 1 ≠ 0 := by
    have : (2 : ℚ) ≤ (L : ℚ) := by exact_mod_cast hL
    push_cast; linarith
  unfold sourcePos
  rw [mul_div_assoc, div_self h, mul_one]

theorem Resample_same_length (a : List FLOAT) (hL : 3 ≤ a.length) :
    ∃ b, Resample a (a.length : Int) = some b ∧ b.length = a.length ∧
      ∀ t : Nat, 1 ≤ t → t + 2 ≤ a.length → b[t]? = a[t + 1]? := by
  obtain ⟨b, hb, hlen, _, _, hall⟩ := Resample_general a a.length (by omega) (by omega)
  refine ⟨b, hb, hlen, fun t h1 h2 => ?_⟩
  obtain ⟨al, ah, hal, hah, hv⟩ := interpolate_some a a.length t (by omega) h2
  have hsp : sourcePos (len a) (a.length : Int) (t : Int) = ((t : Int) : ℚ) :=
    sourcePos_same_length a.length t (by omega)
  rw [hsp, Int.floor_intCast] at hah
  rw [hsp, Int.fract_intCast] at hv
  have e : (t : Int) + 1 = ((t + 1 : Nat) : Int) := by push_cast; ring
  rw [e, index_natCast] at hah
  rw [hall t h1 h2, hv, hah]
  congr 1
  ring

/-! ## Rounding to a floating-point format -/

theorem roundHalfEven_intCast (m : Int) : roundHalfEven (m : ℚ) = m := by
  unfold roundHalfEven
  rw [Int.floor_intCast, sub_self, if_pos (by norm_num)]

theorem pow2_pos (e : Int) : 0 < pow2 e := by
  unfold pow2
  split <;> positivity

theorem ilog2_go_spec : ∀ (fuel n : Nat), n ≤ fuel → 1 ≤ n →
    2 ^ ilog2.go fuel n ≤ n ∧ n < 2 ^ (ilog2.go fuel n + 1)
  | 0, n, h, h1 => by omega
  | fuel + 1, n, h, h1 => by
    unfold ilog2.go
    split
    · obtain ⟨h2, h3⟩ := ilog2_go_spec fuel (n / 2) (by omega) (by omega)
      rw [pow_succ, pow_succ] at *
      omega
    · simp; omega

theorem ilog2_spec (n : Nat) (h : 1 ≤ n) : 2 ^ ilog2 n ≤ n ∧ n < 2 ^ (ilog2 n + 1) :=
  ilog2_go_spec n n le_rfl h

theorem exponent_natCast (n : Nat) (h : 1 ≤ n) : exponent (n : ℚ) = (ilog2 n : Int) := by
  have h1 : ilog2 1 = 0 := by decide
  have hp : pow2 ((ilog2 n : Int) - ((0 : Nat) : Int)) ≤ (n : ℚ) := by
    unfold pow2
    rw [if_pos (by omega)]
    have : ((ilog2 n : Int) - ((0 : Nat) : Int)).toNat = ilog2 n := by omega
    rw [this]
    exact_mod_cast (ilog2_spec n h).1
  unfold exponent
  simp only [Rat.num_natCast, Rat.den_natCast, Int.natAbs_ofNat, h1]
  rw [if_pos hp]
  simp

theorem roundTo_of_multiple (prec : Nat) (emin : Int) (x : ℚ) (m : Int)
    (hx : x = m * pow2 (max (exponent |x|) emin - ((prec : Int) - 1))) :
    roundTo prec emin x = x := by
  unfold roundTo
  by_cases h0 : x = 0
  · rw [if_pos h0, h0]
  · rw [if_neg h0]
    have hp := pow2_pos (max (exponent |x|) emin - ((prec : Int) - 1))
    have hq : x / pow2 (max (exponent |x|) emin - ((prec : Int) - 1)) = (m : ℚ) := by
      rw [div_eq_iff (ne_of_gt hp)]; exact hx
    rw [hq, roundHalfEven_intCast]
    exact hx.symm

/-- Integers of magnitude at most `2^prec` are values of the format: rounding
leaves them as they are. -/
theorem roundTo_intCast (prec : Nat) (emin : Int) (hprec : 1 ≤ prec) (hemin : emin ≤ 0)
    (k : Int) (hk : |k| ≤ 2 ^ prec) : roundTo prec emin (k : ℚ) = (k : ℚ) := by
  by_cases h0 : k = 0
  · subst h0; simp [roundTo]
  have hn1 : 1 ≤ k.natAbs := by omega
  have habs : |(k : ℚ)| = ((k.natAbs : Nat) : ℚ) := by
    rw [Nat.cast_natAbs, Int.cast_abs]
  have hexp : exponent |(k : ℚ)| = (ilog2 k.natAbs : Int) := by
    rw [habs]; exact exponent_natCast _ hn1
  obtain ⟨hlo, hhi⟩ := ilog2_spec k.natAbs hn1
  have hkn : k.natAbs ≤ 2 ^ prec := by
    have : ((k.natAbs : Nat) : Int) ≤ 2 ^ prec := by rw [Int.natCast_natAbs]; exact hk
    exact_mod_cast this
  have hle : ilog2 k.natAbs ≤ prec := by
    by_contra hc
    have : 2 ^ (prec + 1) ≤ 2 ^ ilog2 k.natAbs := Nat.pow_le_pow_right (by norm_num) (by omega)
    rw [pow_succ] at this
    have : 0 < 2 ^ prec := by positivity
    omega
  by_cases ht : ilog2 k.natAbs = prec
  · -- the magnitude is `2^prec`: the spacing is 2
    have hkeq : k.natAbs = 2 ^ prec := by rw [ht] at hlo; omega
    obtain ⟨p, rfl⟩ : ∃ p, prec = p + 1 := ⟨prec - 1, by omega⟩
    have hT : max (exponent |(k : ℚ)|) emin - (((p + 1 : Nat) : Int) - 1) = 1 := by
      rw [hexp, ht]; push_cast; omega
    have hdvd : k = (k / 2) * 2 := by
      have : (2 : Int) ∣ k := by
        rw [← Int.natAbs_dvd_natAbs]
        rw [hkeq, pow_succ]
        exact Dvd.intro_left _ rfl
      omega
    apply roundTo_of_multiple _ _ _ (k / 2)
    rw [hT]
    have : pow2 1 = 2 := by decide!
    rw [this]
    exact_mod_cast hdvd
  · have hlt : ilog2 k.natAbs < prec := by omega
    obtain ⟨d, hd⟩ : ∃ d : Nat, max (exponent |(k : ℚ)|) emin - ((prec : Int) - 1) = -(d : Int) := by
      refine ⟨(((prec : Int) - 1) - max (exponent |(k : ℚ)|) emin).toNat, ?_⟩
      rw [hexp]; omega
    apply roundTo_of_multiple _ _ _ (k * 2 ^ d)
    rw [hd]
    unfold pow2
    by_cases hd0 : d = 0
    · subst hd0; simp
    · rw [if_neg (by omega)]
      have : (- -(d : Int)).toNat = d := by omega
      rw [this]
      push_cast
      field_simp

theorem binary64_intCast (k : Int) (hk : |k| ≤ 2 ^ 53) : binary64 (k : ℚ) = (k : ℚ) :=
  roundTo_intCast 53 (-1022) (by norm_num) (by norm_num) k hk

theorem binary32_intCast (k : Int) (hk : |k| ≤ 2 ^ 24) : binary32 (k : ℚ) = (k : ℚ) :=
  roundTo_intCast 24 (-126) (by norm_num) (by norm_num) k hk

theorem pow2_eq_zpow (e : Int) : pow2 e = (2 : ℚ) ^ e := by
  unfold pow2
  split
  · rename_i h
    obtain ⟨n, rfl⟩ := Int.eq_ofNat_of_zero_le h
    simp
  · rename_i h
    obtain ⟨n, hn⟩ : ∃ n : Nat, e = -(n : Int) := ⟨(-e).toNat, by omega⟩
    subst hn
    simp

/-- The exponent of a positive `x` is `floor(log2 x)`: `2^e ≤ x < 2^(e+1)`. -/
theorem exponent_spec (x : ℚ) (hx : 0 < x) :
    pow2 (exponent x) ≤ x ∧ x < pow2 (exponent x + 1) := by
  have hnum : 0 < x.num := Rat.num_pos.mpr hx
  obtain ⟨N, hN⟩ := Int.eq_ofNat_of_zero_le hnum.le
  have hN1 : 1 ≤ N := by omega
  have hD1 : 1 ≤ x.den := x.den_pos
  obtain ⟨ha1, ha2⟩ := ilog2_spec N hN1
  obtain ⟨hb1, hb2⟩ := ilog2_spec x.den hD1
  have hx_eq : x = (N : ℚ) / (x.den : ℚ) := by
    conv_lhs => rw [← Rat.num_div_den x]
    rw [hN]; simp
  have hnat : x.num.natAbs = N := by omega
  have hDpos : (0 : ℚ) < (x.den : ℚ) := by exact_mod_cast hD1
  have h2b : (0 : ℚ) < (2 : ℚ) ^ ilog2 x.den := by positivity
  have h2b1 : (0 : ℚ) < (2 : ℚ) ^ (ilog2 x.den + 1) := by positivity
  have hup : x < pow2 ((ilog2 N : Int) - (ilog2 x.den : Int) + 1) := by
    have e1 : (2 : ℚ) ^ ((ilog2 N : Int) - (ilog2 x.den : Int) + 1) =
        (2 : ℚ) ^ (ilog2 N + 1) / (2 : ℚ) ^ ilog2 x.den := by
      rw [show (ilog2 N : Int) - (ilog2 x.den : Int) + 1 =
        ((ilog2 N + 1 : Nat) : Int) - ((ilog2 x.den : Nat) : Int) by push_cast; ring,
        zpow_sub₀ two_ne_zero, zpow_natCast, zpow_natCast]
    rw [pow2_eq_zpow, e1]
    refine lt_of_eq_of_lt hx_eq ?_
    rw [div_lt_div_iff₀ hDpos h2b]
    have : N * 2 ^ ilog2 x.den < 2 ^ (ilog2 N + 1) * x.den :=
      calc N * 2 ^ ilog2 x.den < 2 ^ (ilog2 N + 1) * 2 ^ ilog2 x.den :=
            Nat.mul_lt_mul_of_pos_right ha2 (by positivity)
        _ ≤ 2 ^ (ilog2 N + 1) * x.den := Nat.mul_le_mul_left _ hb1
    exact_mod_cast this
  have hlow : pow2 ((ilog2 N : Int) - (ilog2 x.den : Int) - 1) ≤ x := by
    have e1 : (2 : ℚ) ^ ((ilog2 N : Int) - (ilog2 x.den : Int) - 1) =
        (2 : ℚ) ^ ilog2 N / (2 : ℚ) ^ (ilog2 x.den + 1) := by
      rw [show (ilog2 N : Int) - (ilog2 x.den : Int) - 1 =
        ((ilog2 N : Nat) : Int) - ((ilog2 x.den + 1 : Nat) : Int) by push_cast; ring,
        zpow_sub₀ two_ne_zero, zpow_natCast, zpow_natCast]
    rw [pow2_eq_zpow, e1]
    refine le_trans ?_ (le_of_eq hx_eq.symm)
    rw [div_le_div_iff₀ h2b1 hDpos]
    have : 2 ^ ilog2 N * x.den ≤ N * 2 ^ (ilog2 x.den + 1) :=
      calc 2 ^ ilog2 N * x.den ≤ N * x.den := Nat.mul_le_mul_right _ ha1
        _ ≤ N * 2 ^ (ilog2 x.den + 1) := Nat.mul_le_mul_left _ hb2.le
    exact_mod_cast this
  unfold exponent
  rw [hnat]
  by_cases h : pow2 ((ilog2 N : Int) - (ilog2 x.den : Int)) ≤ x
  · rw [if_pos h]; exact ⟨h, hup⟩
  · rw [if_neg h]
    refine ⟨hlow, ?_⟩
    rw [show (ilog2 N : Int) - (ilog2 x.den : Int) - 1 + 1 =
      (ilog2 N : Int) - (ilog2 x.den : Int) by ring]
    exact lt_of_not_le h

theorem roundHalfEven_near (x : ℚ) : |((roundHalfEven x : Int) : ℚ) - x| ≤ 1 / 2 := by
  have h1 := Int.floor_le x
  have h2 := Int.lt_floor_add_one x
  unfold roundHalfEven
  rw [abs_le]
  split_ifs with h3 h4 h5
  · constructor <;> linarith
  · push_cast; constructor <;> linarith
  · have : x - (⌊x⌋ : ℚ) = 1 / 2 := le_antisymm (not_lt.mp h4) (not_lt.mp h3)
    constructor <;> linarith
  · have : x - (⌊x⌋ : ℚ) = 1 / 2 := le_antisymm (not_lt.mp h4) (not_lt.mp h3)
    push_cast; constructor <;> linarith

/-- The rounded value is a multiple `m * 2^t` of the spacing `2^t` of the
format at `x`, `t = max(floor(log2 |x|), emin) - (prec - 1)`, and lies within
half that spacing of `x`. -/
theorem roundTo_near (prec : Nat) (emin : Int) (x : ℚ) :
    ∃ m : Int, roundTo prec emin x =
        (m : ℚ) * pow2 (max (exponent |x|) emin - ((prec : Int) - 1)) ∧
      |roundTo prec emin x - x| ≤ pow2 (max (exponent |x|) emin - ((prec : Int) - 1)) / 2 := by
  by_cases h0 : x = 0
  · refine ⟨0, by simp [roundTo, h0], ?_⟩
    have : roundTo prec emin x = 0 := by simp [roundTo, h0]
    rw [this, h0, sub_self, abs_zero]
    exact (div_pos (pow2_pos _) two_pos).le
  · have hp := pow2_pos (max (exponent |x|) emin - ((prec : Int) - 1))
    refine ⟨roundHalfEven (x / pow2 (max (exponent |x|) emin - ((prec : Int) - 1))), ?_, ?_⟩
    · unfold roundTo; rw [if_neg h0]
    · have hn := roundHalfEven_near (x / pow2 (max (exponent |x|) emin - ((prec : Int) - 1)))
      unfold roundTo
      rw [if_neg h0]
      have e : ((roundHalfEven (x / pow2 (max (exponent |x|) emin - ((prec : Int) - 1))) : Int)
            : ℚ) * pow2 (max (exponent |x|) emin - ((prec : Int) - 1)) - x =
          (((roundHalfEven (x / pow2 (max (exponent |x|) emin - ((prec : Int) - 1))) : Int) : ℚ)
            - x / pow2 (max (exponent |x|) emin - ((prec : Int) - 1))) *
            pow2 (max (exponent |x|) emin - ((prec : Int) - 1)) := by
        field_simp
      rw [e, abs_mul, abs_of_pos hp]
      calc _ ≤ 1 / 2 * pow2 (max (exponent |x|) emin - ((prec : Int) - 1)) :=
            mul_le_mul_of_nonneg_right hn hp.le
        _ = _ := by ring

/-! ## Sub, AverageFilter and Range with rounded arithmetic -/

theorem rounded_Sub_inner_eq (rnd : ℚ → ℚ) (a : List (List FLOAT)) (i j : Nat)
    (s v : List FLOAT) (x y : FLOAT)
    (hv : a[j]? = some v) (hx : v[i]? = some x) (hy : s[i]? = some y) :
    rounded.Sub.inner rnd a (i : Int) (j : Int) s = some (s.set i (rnd (y - x))) := by
  simp only [rounded.Sub.inner, index_natCast, hv, hx, hy, Option.bind_eq_bind,
    Option.some_bind]
  exact assign_natCast s i _ (getElem?_lt_length s i y hy)

theorem rounded_Sub_spec (rnd : ℚ → ℚ) (a : List (List FLOAT)) (h : a ≠ []) :
    ∃ (b : List FLOAT) (n : Nat), rounded.Sub rnd a = some b ∧ b.length = n ∧
      (∀ v ∈ a, n ≤ v.length) ∧ (∃ v ∈ a, n = v.length) ∧
      ∀ i : Nat, i < n →
        b[i]? = some ((column a.tail i).foldl (fun y x => rnd (y - x)) (a.head!.getD i 0)) := by
  obtain ⟨a0, ha0, hmem, hidx, hlen0⟩ := head_facts a h
  obtain ⟨n, hn, hle, hex⟩ := shortest_head a a0 hmem
  have hhead : a.head! = a0 := by
    cases a with
    | nil => exact absurd rfl h
    | cons x rest => simp at ha0; simp [ha0]
  have hcopy : copy (List.replicate n (0 : FLOAT)) a0 = a0.take n := by
    have hn0 := hle a0 hmem
    have h1 : min (List.replicate n (0 : FLOAT)).length a0.length = n := by
      rw [List.length_replicate]; omega
    have h2 : (List.replicate n (0 : FLOAT)).drop n = [] :=
      List.drop_of_length_le (by simp)
    unfold copy
    rw [h1, h2, List.append_nil]
  obtain ⟨r, hr, hrlen, hall⟩ := fill_loop n
    (fun i diff => forRange 1 (len a) (rounded.Sub.inner rnd a i) diff) (a0.take n)
    (by rw [List.length_take]; exact min_eq_left (hle a0 hmem))
    (fun i => (column a.tail i).foldl (fun y x => rnd (y - x)) (a0.getD i 0))
    (by
      intro i s hi hs hsi
      have hia0 : i < a0.length := lt_of_lt_of_le hi (hle a0 hmem)
      have hy : s[i]? = some (a0.getD i 0) := by
        rw [hsi, List.getElem?_take_of_lt hi, List.getD_eq_getElem _ _ hia0,
          List.getElem?_eq_getElem hia0]
      have hpos : 1 ≤ a.length := List.length_pos.mpr h
      have := accumulate_range (fun y x => rnd (y - x)) (rounded.Sub.inner rnd a (i : Int)) a i
        (fun j s v x y hv hx hy => rounded_Sub_inner_eq rnd a i j s v x y hv hx hy)
        (fun v hv => lt_of_lt_of_le hi (hle v hv)) 1 hpos s _ hy
      simpa using this)
  refine ⟨r, n, ?_, hrlen, hle, hex, by rw [hhead]; exact hall⟩
  unfold rounded.Sub
  rw [if_neg hlen0, hidx]
  simp only [Option.bind_eq_bind, Option.some_bind, hn, make_natCast, hcopy]
  have hl : len (a0.take n) = (n : Int) := by
    simp [len]; exact hle a0 hmem
  rw [hl]; exact hr

theorem rounded_Sub_single (rnd : ℚ → ℚ) (s : List FLOAT) : rounded.Sub rnd [s] = some s := by
  obtain ⟨b, n, hb, hlen, hle, ⟨v, hv, hn⟩, hall⟩ := rounded_Sub_spec rnd [s] (by simp)
  have hvs : v = s := by simpa using hv
  subst hvs
  rw [hb]
  congr 1
  refine eq_of_getElem?_eq_on b v (by omega) (fun i hi => ?_)
  rw [hall i (by omega), List.getElem?_eq_getElem hi]
  simp [column, List.getElem?_eq_getElem hi]

theorem rounded_seed_loop (rnd : ℚ → ℚ) (a : List FLOAT) (e : Nat) (h : e ≤ a.length) :
    forRange 0 (e : Int) (rounded.AverageFilter.seed rnd a) 0 =
      some ((a.take e).foldl (fun s v => rnd (s + v)) 0) := by
  obtain ⟨t, ht, _, hinv⟩ := forRange_inv 0 (e : Int) (rounded.AverageFilter.seed rnd a)
    (fun i s => 0 ≤ i ∧ s = (a.take i.toNat).foldl (fun s v => rnd (s + v)) 0) 0 (by omega)
    (by simp) (by
      intro j t hj0 hje ⟨_, hjt⟩
      obtain ⟨n, rfl⟩ := Int.eq_ofNat_of_zero_le hj0
      have hn : n < a.length := by omega
      refine ⟨rnd (t + a[n]), ?_, by omega, ?_⟩
      · simp [rounded.AverageFilter.seed, index_natCast, List.getElem?_eq_getElem hn]
      · have h1 : ((n : Int) + 1).toNat = n + 1 := by omega
        have h2 : (n : Int).toNat = n := by omega
        rw [h2] at hjt
        rw [h1, List.take_succ, List.foldl_append, ← hjt, List.getElem?_eq_getElem hn]
        simp)
  rw [ht, hinv]; simp

/-- With a width of at least the length `L ≥ 2`, the rounded `AverageFilter`
returns one element: the running sum of `a`, multiplied by the computed `1/L`. -/
theorem rounded_AverageFilter_full (rnd : ℚ → ℚ) (a : List FLOAT) (w : Int)
    (ha : 2 ≤ len a) (hw : len a ≤ w) :
    rounded.AverageFilter rnd a w =
      some [rnd (a.foldl (fun s v => rnd (s + v)) 0 * rnd (1 / rnd ((len a : Int) : FLOAT)))] := by
  have hlen : len a = (a.length : Int) := rfl
  have hseed := rounded_seed_loop rnd a a.length le_rfl
  rw [List.take_length] at hseed
  unfold rounded.AverageFilter
  simp only [ge_iff_le, if_pos hw]
  rw [if_neg (by omega)]
  have hmk : make (len a - (len a - 1)) = some [0] := by
    have : len a - (len a - 1) = ((1 : Nat) : Int) := by push_cast; ring
    rw [this, make_natCast]; rfl
  rw [hmk, hlen, hseed]
  simp [assign, forRange, forLoop, len]

theorem rounded_Range_up (rnd : ℚ → ℚ) (a b : Int) (hab : a ≤ b) (ha : -(2 ^ 63) ≤ a)
    (hb : b < 2 ^ 63) (hfit : b - a + 1 < 2 ^ 63) :
    ∃ r, rounded.Range rnd a b = some r ∧ len r = b - a + 1 ∧
      ∀ i : Nat, (i : Int) < b - a + 1 →
        r[i]? = some (rnd (((a + (i : Int) : Int)) : FLOAT)) := by
  obtain ⟨n, hn⟩ := Int.eq_ofNat_of_zero_le (show 0 ≤ b - a + 1 by omega)
  have hsize : wrap64 (wrap64 (b - a) + 1) = (n : Int) := by
    rw [wrap64_of_inRange (b - a) (by omega) (by omega),
      wrap64_of_inRange (b - a + 1) (by omega) hfit, hn]
  obtain ⟨r, hr, hrlen, hall⟩ := fill_loop n
    (fun i r => assign r i (rnd ((wrap64 (a + i) : Int) : FLOAT))) (List.replicate n 0)
    (by simp) (fun i => rnd (((a + (i : Int) : Int)) : FLOAT))
    (fun i s hi hs _ => by
      simp only
      rw [wrap64_of_inRange (a + (i : Int)) (by omega) (by omega)]
      exact assign_natCast s i _ (by omega))
  have hl : len (List.replicate n (0 : FLOAT)) = (n : Int) := by simp [len]
  refine ⟨r, ?_, by unfold len; omega, fun i hi => hall i (by omega)⟩
  unfold rounded.Range
  rw [if_pos hab, hsize, make_natCast]
  simp only [Option.bind_eq_bind, Option.some_bind]
  rw [hl]; exact hr

theorem rounded_Range_down (rnd : ℚ → ℚ) (a b : Int) (hab : b < a) (ha : a < 2 ^ 63)
    (hb : -(2 ^ 63) ≤ b) (hfit : a - b + 1 < 2 ^ 63) :
    ∃ r, rounded.Range rnd a b = some r ∧ len r = a - b + 1 ∧
      ∀ i : Nat, (i : Int) < a - b + 1 →
        r[i]? = some (rnd (((a - (i : Int) : Int)) : FLOAT)) := by
  obtain ⟨n, hn⟩ := Int.eq_ofNat_of_zero_le (show 0 ≤ a - b + 1 by omega)
  have hsize : wrap64 (wrap64 (a - b) + 1) = (n : Int) := by
    rw [wrap64_of_inRange (a - b) (by omega) (by omega),
      wrap64_of_inRange (a - b + 1) (by omega) hfit, hn]
  obtain ⟨r, hr, hrlen, hall⟩ := fill_loop n
    (fun i r => assign r i (rnd ((wrap64 (a - i) : Int) : FLOAT))) (List.replicate n 0)
    (by simp) (fun i => rnd (((a - (i : Int) : Int)) : FLOAT))
    (fun i s hi hs _ => by
      simp only
      rw [wrap64_of_inRange (a - (i : Int)) (by omega) (by omega)]
      exact assign_natCast s i _ (by omega))
  have hl : len (List.replicate n (0 : FLOAT)) = (n : Int) := by simp [len]
  refine ⟨r, ?_, by unfold len; omega, fun i hi => hall i (by omega)⟩
  unfold rounded.Range
  rw [if_neg (by omega), hsize, make_natCast]
  simp only [Option.bind_eq_bind, Option.some_bind]
  rw [hl]; exact hr

/-! ## Resample in float64 arithmetic -/

theorem roundHalfEven_nonneg (x : ℚ) (h : 0 ≤ x) : 0 ≤ roundHalfEven x := by
  have hf : 0 ≤ ⌊x⌋ := Int.floor_nonneg.mpr h
  unfold roundHalfEven
  split_ifs <;> omega

theorem roundTo_nonneg (prec : Nat) (emin : Int) (x : ℚ) (h : 0 ≤ x) :
    0 ≤ roundTo prec emin x := by
  unfold roundTo
  split_ifs with h0
  · exact le_rfl
  · have hp := pow2_pos (max (exponent |x|) emin - ((prec : Int) - 1))
    have := roundHalfEven_nonneg (x / pow2 (max (exponent |x|) emin - ((prec : Int) - 1)))
      (div_nonneg h hp.le)
    exact mul_nonneg (by exact_mod_cast this) hp.le

/-- The relative error of a rounding to float64 in the normal range is at most
`2^-53`. -/
theorem binary64_rel (x : ℚ) (hx : pow2 (-1022) ≤ x) :
    |binary64 x - x| ≤ x / 2 ^ 53 := by
  have hpos : 0 < x := lt_of_lt_of_le (pow2_pos _) hx
  obtain ⟨hlo, hhi⟩ := exponent_spec x hpos
  have habs : |x| = x := abs_of_pos hpos
  have he : -1022 ≤ exponent x := by
    by_contra hc
    have h1 : exponent x + 1 ≤ -1022 := by omega
    have h2 : pow2 (exponent x + 1) ≤ pow2 (-1022) := by
      rw [pow2_eq_zpow, pow2_eq_zpow]
      exact zpow_le_zpow_right₀ (by norm_num) h1
    linarith
  obtain ⟨m, _, hnear⟩ := roundTo_near 53 (-1022) x
  rw [habs, max_eq_left he] at hnear
  have hsp : pow2 (exponent x - (((53 : Nat) : Int) - 1)) / 2 = pow2 (exponent x) / 2 ^ 53 := by
    rw [pow2_eq_zpow, pow2_eq_zpow, zpow_sub₀ (two_ne_zero)]
    norm_num
    ring
  rw [hsp] at hnear
  unfold binary64
  calc _ ≤ pow2 (exponent x) / 2 ^ 53 := hnear
    _ ≤ x / 2 ^ 53 := by
      apply div_le_div_of_nonneg_right hlo
      positivity

theorem pow2_small : pow2 (-1022) ≤ 1 / 2 ^ 60 := by
  rw [pow2_eq_zpow]
  rw [show (1 : ℚ) / 2 ^ 60 = (2 : ℚ) ^ (-60 : Int) by
    rw [zpow_neg]; norm_num]
  exact zpow_le_zpow_right₀ (by norm_num) (by norm_num)

/-- The position that `Resample` computes in float64 arithmetic lies in
`[0, L-1)` at every interior index, for every length up to `2^53` and every new
length up to `2^50`. -/
theorem rounded_position_bounds (L n k : Nat) (hL : 2 ≤ L) (hL53 : L ≤ 2 ^ 53)
    (hk1 : 1 ≤ k) (hk : k + 2 ≤ n) (hn : n ≤ 2 ^ 50) :
    0 ≤ rounded.Resample.position binary64 (L : Int) (n : Int) (k : Int) ∧
      rounded.Resample.position binary64 (L : Int) (n : Int) (k : Int) < ((L : Int) : ℚ) - 1 := by
  have hLi : binary64 ((((L : Int) - 1 : Int)) : ℚ) = ((((L : Int) - 1 : Int)) : ℚ) :=
    binary64_intCast _ (abs_le.mpr ⟨by omega, by
      have : ((L : Int)) ≤ 2 ^ 53 := by exact_mod_cast hL53
      omega⟩)
  have hni : binary64 ((((n : Int) - 1 : Int)) : ℚ) = ((((n : Int) - 1 : Int)) : ℚ) :=
    binary64_intCast _ (abs_le.mpr ⟨by omega, by
      have : ((n : Int)) ≤ 2 ^ 50 := by exact_mod_cast hn
      omega⟩)
  have hki : binary64 (((k : Int)) : ℚ) = (((k : Int)) : ℚ) :=
    binary64_intCast _ (abs_le.mpr ⟨by omega, by
      have : ((n : Int)) ≤ 2 ^ 50 := by exact_mod_cast hn
      omega⟩)
  unfold rounded.Resample.position rounded.Resample.indexScale
  rw [hLi, hni, hki]
  -- the quantities as rationals
  have hLq : (1 : ℚ) ≤ ((((L : Int) - 1 : Int)) : ℚ) := by
    have : (1 : Int) ≤ (L : Int) - 1 := by omega
    exact_mod_cast this
  have hNq : (2 : ℚ) ≤ ((((n : Int) - 1 : Int)) : ℚ) := by
    have : (2 : Int) ≤ (n : Int) - 1 := by omega
    exact_mod_cast this
  have hN50 : ((((n : Int) - 1 : Int)) : ℚ) ≤ 2 ^ 50 := by
    have : (n : Int) - 1 ≤ 2 ^ 50 := by
      have : ((n : Int)) ≤ 2 ^ 50 := by exact_mod_cast hn
      omega
    exact_mod_cast this
  have hk0 : (1 : ℚ) ≤ (((k : Int)) : ℚ) := by
    have : (1 : Int) ≤ (k : Int) := by omega
    exact_mod_cast this
  have hkN : (((k : Int)) : ℚ) + 1 ≤ ((((n : Int) - 1 : Int)) : ℚ) := by
    have : (k : Int) + 1 ≤ (n : Int) - 1 := by omega
    exact_mod_cast this
  have hLcast : ((((L : Int) - 1 : Int)) : ℚ) = ((L : Int) : ℚ) - 1 := by push_cast; ring
  rw [← hLcast]
  generalize ((((L : Int) - 1 : Int)) : ℚ) = l at *
  generalize ((((n : Int) - 1 : Int)) : ℚ) = N at *
  generalize (((k : Int)) : ℚ) = κ at *
  have hNpos : 0 < N := by linarith
  have hq0 : 0 < l / N := div_pos (by linarith) hNpos
  have hqN : l / N * N = l := div_mul_cancel₀ l (ne_of_gt hNpos)
  have hqlow : 1 / 2 ^ 50 ≤ l / N := by
    rw [div_le_div_iff₀ (by positivity) hNpos]
    nlinarith
  have hqnorm : pow2 (-1022) ≤ l / N := le_trans pow2_small (le_trans (by norm_num) hqlow)
  have hrel1 := abs_le.mp (binary64_rel (l / N) hqnorm)
  have hs0 : 0 ≤ binary64 (l / N) := roundTo_nonneg _ _ _ hq0.le
  have hslow : 1 / 2 ^ 51 ≤ binary64 (l / N) := by
    have : l / N - l / N / 2 ^ 53 ≤ binary64 (l / N) := by linarith [hrel1.1]
    have h2 : l / N / 2 ^ 53 ≤ l / N / 2 := by
      apply div_le_div_of_nonneg_left hq0.le (by norm_num) (by norm_num)
    have h3 : (1 : ℚ) / 2 ^ 51 = 1 / 2 ^ 50 / 2 := by norm_num
    linarith
  have hp0 : 0 ≤ κ * binary64 (l / N) := mul_nonneg (by linarith) hs0
  have hplow : 1 / 2 ^ 51 ≤ κ * binary64 (l / N) := by nlinarith
  have hpnorm : pow2 (-1022) ≤ κ * binary64 (l / N) :=
    le_trans pow2_small (le_trans (by norm_num) hplow)
  have hrel2 := abs_le.mp (binary64_rel (κ * binary64 (l / N)) hpnorm)
  refine ⟨roundTo_nonneg _ _ _ hp0, ?_⟩
  have hκ50 : κ ≤ 2 ^ 50 := by linarith
  have hs_up : binary64 (l / N) ≤ l / N * (1 + 1 / 2 ^ 53) := by linarith [hrel1.2]
  have hj_up : binary64 (κ * binary64 (l / N)) ≤
      κ * binary64 (l / N) * (1 + 1 / 2 ^ 53) := by linarith [hrel2.2]
  have hj2 : binary64 (κ * binary64 (l / N)) ≤ l / N * (κ * (1 + 1 / 2 ^ 53) ^ 2) := by
    have : κ * binary64 (l / N) * (1 + 1 / 2 ^ 53) ≤
        κ * (l / N * (1 + 1 / 2 ^ 53)) * (1 + 1 / 2 ^ 53) := by
      apply mul_le_mul_of_nonneg_right _ (by norm_num)
      exact mul_le_mul_of_nonneg_left hs_up (by linarith)
    calc _ ≤ _ := hj_up
      _ ≤ _ := this
      _ = _ := by ring
  have hfac : κ * (1 + 1 / 2 ^ 53) ^ 2 < N := by
    norm_num
    linarith
  calc _ ≤ _ := hj2
    _ < l / N * N := mul_lt_mul_of_pos_left hfac hq0
    _ = l := hqN

theorem rounded_Resample_body_value (rnd rnd64 : ℚ → ℚ) (a : List FLOAT) (s : ℚ) (i : Int)
    (b : List FLOAT) :
    rounded.Resample.body rnd rnd64 a s i b =
      (rounded.Resample.value rnd rnd64 a s i).bind (assign b i) := by
  unfold rounded.Resample.body rounded.Resample.value
  simp only [Option.bind_eq_bind, Option.pure_def]
  cases index a (toInt (rnd64 (rnd64 (i : ℚ) * s))) with
  | none => rfl
  | some al =>
    cases index a (toInt (rnd64 (rnd64 (i : ℚ) * s)) + 1) with
    | none => rfl
    | some ah => rfl

theorem rounded_Resample_loop (rnd rnd64 : ℚ → ℚ) (a : List FLOAT) (n : Nat) (hn : 2 ≤ n)
    (s : ℚ) (hsafe : ∀ t : Nat, 1 ≤ t → t + 2 ≤ n →
      ∃ v, rounded.Resample.value rnd rnd64 a s (t : Int) = some v)
    (b : List FLOAT) (hb : b.length = n) :
    ∃ r, forRange 1 ((n : Int) - 1) (rounded.Resample.body rnd rnd64 a s) b = some r ∧
      r.length = n ∧ r[0]? = b[0]? ∧ r[n - 1]? = b[n - 1]? ∧
      ∀ t : Nat, 1 ≤ t → t + 2 ≤ n → r[t]? = rounded.Resample.value rnd rnd64 a s (t : Int) := by
  obtain ⟨r, hr, k, hk, hlen, hr0, hrl, hall⟩ := forRange_inv 1 ((n : Int) - 1)
    (rounded.Resample.body rnd rnd64 a s)
    (fun i r => ∃ k : Nat, i = (k : Int) ∧ r.length = n ∧ r[0]? = b[0]? ∧
      r[n - 1]? = b[n - 1]? ∧
      ∀ t : Nat, 1 ≤ t → t < k → r[t]? = rounded.Resample.value rnd rnd64 a s (t : Int))
    b (by omega) ⟨1, rfl, hb, rfl, rfl, fun t h1 h2 => by omega⟩
    (by
      rintro j r hj1 hjn ⟨k, hk, hlen, hr0, hrl, hall⟩
      subst hk
      obtain ⟨v, hv⟩ := hsafe k (by omega) (by omega)
      have hbody : rounded.Resample.body rnd rnd64 a s (k : Int) r = some (r.set k v) := by
        rw [rounded_Resample_body_value, hv]
        exact assign_natCast r k v (by omega)
      refine ⟨r.set k v, hbody, k + 1, by push_cast; ring, by simpa using hlen, ?_, ?_, ?_⟩
      · rw [List.getElem?_set_ne (by omega)]; exact hr0
      · rw [List.getElem?_set_ne (by omega)]; exact hrl
      · intro t ht1 htk
        by_cases h : t = k
        · subst h; rw [List.getElem?_set_self (by omega), hv]
        · rw [List.getElem?_set_ne (fun h2 => h h2.symm)]
          exact hall t ht1 (by omega))
  exact ⟨r, hr, hlen, hr0, hrl, fun t h1 h2 => hall t h1 (by omega)⟩

theorem rounded_Resample_general (rnd rnd64 : ℚ → ℚ) (a : List FLOAT) (n : Nat)
    (hL : 2 ≤ a.length) (hn : 2 ≤ n)
    (hsafe : ∀ t : Nat, 1 ≤ t → t + 2 ≤ n →
      ∃ v, rounded.Resample.value rnd rnd64 a
        (rounded.Resample.indexScale rnd64 (len a) (n : Int)) (t : Int) = some v) :
    ∃ b, rounded.Resample rnd rnd64 a (n : Int) = some b ∧ b.length = n ∧ b[0]? = a[0]? ∧
      b[n - 1]? = a[a.length - 1]? ∧
      ∀ t : Nat, 1 ≤ t → t + 2 ≤ n →
        b[t]? = rounded.Resample.value rnd rnd64 a
          (rounded.Resample.indexScale rnd64 (len a) (n : Int)) (t : Int) := by
  have hlen : len a = (a.length : Int) := rfl
  obtain ⟨x0, hx0⟩ : ∃ x, a[0]? = some x := ⟨a[0], List.getElem?_eq_getElem (by omega)⟩
  obtain ⟨xL, hxL⟩ : ∃ x, a[a.length - 1]? = some x :=
    ⟨a[a.length - 1], List.getElem?_eq_getElem (by omega)⟩
  have hi0 : index a 0 = some x0 := by
    rw [show (0 : Int) = ((0 : Nat) : Int) from rfl, index_natCast, hx0]
  have hiL : index a ((a.length : Int) - 1) = some xL := by
    rw [show (a.length : Int) - 1 = ((a.length - 1 : Nat) : Int) by omega, index_natCast, hxL]
  have ha0 : assign (List.replicate n (0 : FLOAT)) 0 x0 =
      some ((List.replicate n (0 : FLOAT)).set 0 x0) := by
    simpa using assign_natCast (List.replicate n (0 : FLOAT)) 0 x0 (by simp; omega)
  have haL : assign ((List.replicate n (0 : FLOAT)).set 0 x0)
      (len ((List.replicate n (0 : FLOAT)).set 0 x0) - 1) xL =
      some (((List.replicate n (0 : FLOAT)).set 0 x0).set (n - 1) xL) := by
    have : len ((List.replicate n (0 : FLOAT)).set 0 x0) - 1 = ((n - 1 : Nat) : Int) := by
      simp [len]; omega
    rw [this]; exact assign_natCast _ _ _ (by simp; omega)
  have hl2 : len (((List.replicate n (0 : FLOAT)).set 0 x0).set (n - 1) xL) - 1
      = (n : Int) - 1 := by
    simp [len]
  obtain ⟨r, hr, hrlen, hr0, hrl, hall⟩ := rounded_Resample_loop rnd rnd64 a n hn
    (rounded.Resample.indexScale rnd64 (len a) (n : Int)) hsafe
    (((List.replicate n (0 : FLOAT)).set 0 x0).set (n - 1) xL) (by simp)
  refine ⟨r, ?_, hrlen, ?_, ?_, hall⟩
  · unfold rounded.Resample
    rw [if_neg (by rw [hlen]; omega), if_neg (by rw [hlen]; omega), if_neg (by omega)]
    simp only [make_natCast, hi0, Option.bind_eq_bind, Option.some_bind, ha0]
    rw [hlen] at hr ⊢
    simp only [hiL, haL, hl2, Option.some_bind]
    exact hr
  · rw [hr0, hx0, List.getElem?_set_ne (by omega), List.getElem?_set_self (by simp; omega)]
  · rw [hrl, hxL, List.getElem?_set_self (by simp; omega)]

/-- In float64 arithmetic both reads of the loop body of `Resample` are in range
at every interior index, and the body writes the weighted sum of the two
elements at the computed position. -/
theorem rounded_Resample_value_some (rnd : ℚ → ℚ) (a : List FLOAT) (n k : Nat)
    (hL : 2 ≤ a.length) (hL53 : a.length ≤ 2 ^ 53) (hk1 : 1 ≤ k) (hk : k + 2 ≤ n)
    (hn : n ≤ 2 ^ 50) :
    ∃ al ah : FLOAT,
      index a (toInt (rounded.Resample.position binary64 (len a) (n : Int) (k : Int))) = some al ∧
      index a (toInt (rounded.Resample.position binary64 (len a) (n : Int) (k : Int)) + 1)
        = some ah ∧
      rounded.Resample.value rnd binary64 a
          (rounded.Resample.indexScale binary64 (len a) (n : Int)) (k : Int) =
        some (rnd (binary64 (binary64 (binary64
            (rounded.Resample.position binary64 (len a) (n : Int) (k : Int) -
              binary64 ((toInt (rounded.Resample.position binary64 (len a) (n : Int) (k : Int))
                : Int) : ℚ)) * al) +
          binary64 (binary64 (1 - binary64
            (rounded.Resample.position binary64 (len a) (n : Int) (k : Int) -
              binary64 ((toInt (rounded.Resample.position binary64 (len a) (n : Int) (k : Int))
                : Int) : ℚ))) * ah)))) := by
  have hlen : len a = (a.length : Int) := rfl
  obtain ⟨h0, h1⟩ := rounded_position_bounds a.length n k hL hL53 hk1 hk hn
  rw [← hlen] at h0 h1
  have hfl : toInt (rounded.Resample.position binary64 (len a) (n : Int) (k : Int)) =
      ⌊rounded.Resample.position binary64 (len a) (n : Int) (k : Int)⌋ := toInt_eq_floor _ h0
  have hf0 : 0 ≤ ⌊rounded.Resample.position binary64 (len a) (n : Int) (k : Int)⌋ :=
    Int.floor_nonneg.mpr h0
  have hf1 : ⌊rounded.Resample.position binary64 (len a) (n : Int) (k : Int)⌋ < len a - 1 := by
    rw [Int.floor_lt]; push_cast; exact h1
  rw [hfl]
  obtain ⟨lo, hlo⟩ := Int.eq_ofNat_of_zero_le hf0
  have hlo1 : lo + 1 < a.length := by rw [hlo, hlen] at hf1; omega
  obtain ⟨al, hal⟩ : ∃ x, a[lo]? = some x := ⟨a[lo], List.getElem?_eq_getElem (by omega)⟩
  obtain ⟨ah, hah⟩ : ∃ x, a[lo + 1]? = some x := ⟨a[lo + 1], List.getElem?_eq_getElem hlo1⟩
  have e0 : index a ⌊rounded.Resample.position binary64 (len a) (n : Int) (k : Int)⌋ =
      some al := by
    rw [hlo, index_natCast]; exact hal
  have e1 : index a (⌊rounded.Resample.position binary64 (len a) (n : Int) (k : Int)⌋ + 1) =
      some ah := by
    have : ⌊rounded.Resample.position binary64 (len a) (n : Int) (k : Int)⌋ + 1 =
        ((lo + 1 : Nat) : Int) := by rw [hlo]; push_cast; ring
    rw [this, index_natCast]; exact hah
  refine ⟨al, ah, e0, e1, ?_⟩
  have hpos : binary64 (binary64 ((k : Int) : ℚ) *
      rounded.Resample.indexScale binary64 (len a) (n : Int)) =
      rounded.Resample.position binary64 (len a) (n : Int) (k : Int) := rfl
  unfold rounded.Resample.value
  simp only [hpos, hfl, e0, e1, Option.bind_eq_bind, Option.some_bind, Option.pure_def]

theorem roundHalfEven_le (x : ℚ) (M : Int) (h : x ≤ (M : ℚ)) : roundHalfEven x ≤ M := by
  have hf : ⌊x⌋ ≤ M := Int.floor_le_iff.mpr (by linarith)
  have hx := Int.floor_le x
  by_cases hM : ⌊x⌋ = M
  · have : x - (⌊x⌋ : ℚ) < 1 / 2 := by rw [hM]; linarith
    unfold roundHalfEven
    rw [if_pos this]; exact hf
  · have : ⌊x⌋ + 1 ≤ M := by omega
    unfold roundHalfEven
    split_ifs <;> omega

theorem binary64_le_one (x : ℚ) (h0 : 0 ≤ x) (h1 : x ≤ 1) : binary64 x ≤ 1 := by
  rcases eq_or_lt_of_le h0 with h | hpos
  · rw [← h]; simp [binary64, roundTo]
  rcases eq_or_lt_of_le h1 with h | hlt
  · rw [h]
    have := binary64_intCast 1 (by norm_num)
    simpa using this.le
  obtain ⟨hlo, _⟩ := exponent_spec x hpos
  have he : exponent x < 0 := by
    by_contra hc
    have h2 : pow2 0 ≤ pow2 (exponent x) := by
      rw [pow2_eq_zpow, pow2_eq_zpow]
      exact zpow_le_zpow_right₀ (by norm_num) (by omega)
    have h3 : pow2 0 = 1 := by decide!
    linarith
  obtain ⟨d, hd⟩ : ∃ d : Nat,
      max (exponent |x|) (-1022) - (((53 : Nat) : Int) - 1) = -((d + 1 : Nat) : Int) := by
    rw [abs_of_pos hpos]
    refine ⟨(51 - max (exponent x) (-1022)).toNat, ?_⟩
    push_cast
    omega
  have hp : pow2 (-((d + 1 : Nat) : Int)) = 1 / ((2 ^ (d + 1) : Nat) : ℚ) := by
    unfold pow2
    rw [if_neg (by omega)]
    have : (- -((d + 1 : Nat) : Int)).toNat = d + 1 := by omega
    rw [this]
  have hMpos : (0 : ℚ) < ((2 ^ (d + 1) : Nat) : ℚ) := by positivity
  unfold binary64 roundTo
  rw [if_neg (ne_of_gt hpos), hd, hp]
  have hle : roundHalfEven (x / (1 / ((2 ^ (d + 1) : Nat) : ℚ))) ≤ ((2 ^ (d + 1) : Nat) : Int) := by
    apply roundHalfEven_le
    rw [div_div_eq_mul_div, div_one]
    push_cast
    have : x * 2 ^ (d + 1) ≤ 1 * 2 ^ (d + 1) :=
      mul_le_mul_of_nonneg_right h1 (by positivity)
    linarith
  have hle2 : ((roundHalfEven (x / (1 / ((2 ^ (d + 1) : Nat) : ℚ))) : Int) : ℚ) ≤
      ((2 ^ (d + 1) : Nat) : ℚ) := by exact_mod_cast hle
  calc _ ≤ ((2 ^ (d + 1) : Nat) : ℚ) * (1 / ((2 ^ (d + 1) : Nat) : ℚ)) :=
        mul_le_mul_of_nonneg_right hle2 (by positivity)
    _ = 1 := by field_simp

/-- The weight `fraction = j - float64(int(j))` that `Resample` computes in
float64 arithmetic lies in `[0, 1]`. -/
theorem rounded_fraction_bounds (j : ℚ) (h0 : 0 ≤ j) (hj : j < 2 ^ 53) :
    0 ≤ binary64 (j - binary64 ((toInt j : Int) : ℚ)) ∧
      binary64 (j - binary64 ((toInt j : Int) : ℚ)) ≤ 1 := by
  have hfl : toInt j = ⌊j⌋ := toInt_eq_floor j h0
  have hf0 : 0 ≤ ⌊j⌋ := Int.floor_nonneg.mpr h0
  have hf1 : ⌊j⌋ < 2 ^ 53 := by
    rw [Int.floor_lt]; push_cast; exact hj
  rw [hfl, binary64_intCast ⌊j⌋ (abs_le.mpr ⟨by omega, by omega⟩)]
  have h1 : 0 ≤ j - (⌊j⌋ : ℚ) := by linarith [Int.floor_le j]
  have h2 : j - (⌊j⌋ : ℚ) ≤ 1 := by linarith [Int.lt_floor_add_one j]
  exact ⟨roundTo_nonneg _ _ _ h1, binary64_le_one _ h1 h2⟩

theorem rounded_Resample_single (rnd rnd64 : ℚ → ℚ) (x : FLOAT) (n : Int) (h : 1 ≤ n) :
    rounded.Resample rnd rnd64 [x] n = Repeat x n := by
  have hlen : len [x] = 1 := rfl
  unfold rounded.Resample
  rw [if_neg (by rw [hlen]; omega), if_pos hlen]
  simp [index]

theorem rounded_Resample_one (rnd rnd64 : ℚ → ℚ) (a : List FLOAT) (h : 2 ≤ a.length) :
    ∃ x y, index a 0 = some x ∧ index a (len a - 1) = some y ∧
      rounded.Resample rnd rnd64 a 1 = some [rnd (rnd (x + y) / 2)] := by
  have hlen : len a = (a.length : Int) := rfl
  obtain ⟨x0, hx0⟩ : ∃ x, a[0]? = some x := ⟨a[0], List.getElem?_eq_getElem (by omega)⟩
  obtain ⟨xL, hxL⟩ : ∃ x, a[a.length - 1]? = some x :=
    ⟨a[a.length - 1], List.getElem?_eq_getElem (by omega)⟩
  have hi0 : index a 0 = some x0 := by
    rw [show (0 : Int) = ((0 : Nat) : Int) from rfl, index_natCast, hx0]
  have hiL : index a (len a - 1) = some xL := by
    rw [hlen, show (a.length : Int) - 1 = ((a.length - 1 : Nat) : Int) by omega, index_natCast,
      hxL]
  refine ⟨x0, xL, hi0, hiL, ?_⟩
  unfold rounded.Resample
  rw [if_neg (by rw [hlen]; omega), if_neg (by rw [hlen]; omega), if_pos rfl]
  simp only [hi0, hiL, Option.bind_eq_bind, Option.some_bind, Option.pure_def]

/-- In float64 arithmetic every element that `Resample` returns is an element of
the input, the rounded midpoint of the first and the last element, or the
rounded weighted sum of two adjacent elements with a weight in `[0, 1]`. -/
theorem rounded_Resample_elements (rnd : ℚ → ℚ) (a : List FLOAT) (n : Nat) (ha : a ≠ [])
    (hn : 1 ≤ n) (hL53 : a.length ≤ 2 ^ 53) (hn50 : n ≤ 2 ^ 50) :
    ∃ b, rounded.Resample rnd binary64 a (n : Int) = some b ∧ ∀ x ∈ b,
      x ∈ a ∨
      (∃ a0 aL : FLOAT, index a 0 = some a0 ∧ index a (len a - 1) = some aL ∧
        x = rnd (rnd (a0 + aL) / 2)) ∨
      ∃ (low : Int) (f al ah : FLOAT), 0 ≤ f ∧ f ≤ 1 ∧
        index a low = some al ∧ index a (low + 1) = some ah ∧
        x = rnd (binary64 (binary64 (f * al) + binary64 (binary64 (1 - f) * ah))) := by
  have hpos : 0 < a.length := List.length_pos.mpr ha
  have hlen : len a = (a.length : Int) := rfl
  by_cases h1 : a.length = 1
  · obtain ⟨v, rfl⟩ := List.length_eq_one.mp h1
    refine ⟨List.replicate n v,
      by rw [rounded_Resample_single rnd binary64 v n (by omega), Repeat_natCast], ?_⟩
    intro x hx
    left
    rw [List.eq_of_mem_replicate hx]
    exact List.mem_singleton_self v
  by_cases hn1 : n = 1
  · subst hn1
    obtain ⟨x, y, hx, hy, hr⟩ := rounded_Resample_one rnd binary64 a (by omega)
    refine ⟨[rnd (rnd (x + y) / 2)], by simpa using hr, ?_⟩
    intro z hz
    right; left
    exact ⟨x, y, hx, hy, List.mem_singleton.mp hz⟩
  obtain ⟨b, hres, hblen, hb0, hbl, hall⟩ := rounded_Resample_general rnd binary64 a n
    (by omega) (by omega)
    (fun t ht1 ht2 => by
      obtain ⟨al, ah, _, _, hv⟩ :=
        rounded_Resample_value_some rnd a n t (by omega) hL53 ht1 ht2 hn50
      exact ⟨_, hv⟩)
  refine ⟨b, hres, ?_⟩
  intro x hx
  obtain ⟨t, ht, rfl⟩ := List.getElem_of_mem hx
  have hbt : b[t]? = some b[t] := List.getElem?_eq_getElem ht
  by_cases ht0 : t = 0
  · subst ht0
    rw [hb0] at hbt
    left; exact mem_of_getElem?_eq a 0 _ hbt
  by_cases htl : t = n - 1
  · subst htl
    rw [hbl] at hbt
    left; exact mem_of_getElem?_eq a _ _ hbt
  obtain ⟨al, ah, hal, hah, hv⟩ :=
    rounded_Resample_value_some rnd a n t (by omega) hL53 (by omega) (by omega) hn50
  obtain ⟨hj0, hj1⟩ := rounded_position_bounds a.length n t (by omega) hL53 (by omega)
    (by omega) hn50
  rw [← hlen] at hj0 hj1
  have hj53 : rounded.Resample.position binary64 (len a) (n : Int) (t : Int) < 2 ^ 53 := by
    have : ((len a : Int) : ℚ) ≤ 2 ^ 53 := by
      rw [hlen]; exact_mod_cast hL53
    linarith
  obtain ⟨hf0, hf1⟩ := rounded_fraction_bounds _ hj0 hj53
  rw [hall t (by omega) (by omega), hv] at hbt
  right; right
  exact ⟨_, _, al, ah, hf0, hf1, hal, hah, (Option.some.inj hbt).symm⟩

/-- Where the conversion `rnd` leaves the integers up to `2^24` as they are, the
rounded `Range` and the one over exact arithmetic return the same sequence, the
integers from `a` to `b`. -/
theorem rounded_Range_exact (rnd : ℚ → ℚ)
    (hrnd : ∀ k : Int, |k| ≤ 2 ^ 24 → rnd ((k : Int) : FLOAT) = ((k : Int) : FLOAT))
    (a b : Int) (ha : |a| ≤ 2 ^ 24) (hb : |b| ≤ 2 ^ 24) :
    ∃ r, rounded.Range rnd a b = some r ∧ Range a b = some r ∧ len r = |b - a| + 1 ∧
      index r 0 = some ((a : Int) : FLOAT) ∧ index r (len r - 1) = some ((b : Int) : FLOAT) ∧
      ∀ i : Int, 0 ≤ i → i < len r →
        index r i = some (((if a ≤ b then a + i else a - i : Int)) : FLOAT) := by
  have ha1 := abs_le.mp ha
  have hb1 := abs_le.mp hb
  by_cases hab : a ≤ b
  · have habs : |b - a| = b - a := abs_of_nonneg (by omega)
    rw [habs]
    obtain ⟨r, hr, hlen, hall⟩ := rounded_Range_up rnd a b hab (by omega) (by omega) (by omega)
    obtain ⟨r1, hr1, hlen1, hall1⟩ := Range_up a b hab (by omega) (by omega) (by omega)
    have hidx : ∀ i : Int, 0 ≤ i → i < len r → index r i = some (((a + i : Int)) : FLOAT) := by
      intro i h0 hi
      obtain ⟨k, rfl⟩ := Int.eq_ofNat_of_zero_le h0
      rw [index_natCast, hall k (by omega), hrnd (a + k) (abs_le.mpr ⟨by omega, by omega⟩)]
    have heq : r1 = r := by
      have hl : r1.length = r.length := by unfold len at hlen hlen1; omega
      refine eq_of_getElem?_eq_on r1 r hl (fun i hi => ?_)
      have hi1 : (i : Int) < b - a + 1 := by unfold len at hlen; omega
      have := hidx i (by omega) (by rw [hlen]; exact hi1)
      rw [index_natCast] at this
      rw [hall1 i hi1, this]
    rw [heq] at hr1
    refine ⟨r, hr, hr1, hlen, ?_, ?_, ?_⟩
    · have := hidx 0 le_rfl (by omega)
      simpa using this
    · have := hidx (len r - 1) (by omega) (by omega)
      rw [this, hlen]; congr 2; ring
    · intro i h0 hi
      rw [if_pos hab]; exact hidx i h0 hi
  · have habs : |b - a| = a - b := by
      rw [abs_of_neg (by omega)]; ring
    rw [habs]
    obtain ⟨r, hr, hlen, hall⟩ := rounded_Range_down rnd a b (by omega) (by omega) (by omega)
      (by omega)
    obtain ⟨r1, hr1, hlen1, hall1⟩ := Range_down a b (by omega) (by omega) (by omega) (by omega)
    have hidx : ∀ i : Int, 0 ≤ i → i < len r → index r i = some (((a - i : Int)) : FLOAT) := by
      intro i h0 hi
      obtain ⟨k, rfl⟩ := Int.eq_ofNat_of_zero_le h0
      rw [index_natCast, hall k (by omega), hrnd (a - k) (abs_le.mpr ⟨by omega, by omega⟩)]
    have heq : r1 = r := by
      have hl : r1.length = r.length := by unfold len at hlen hlen1; omega
      refine eq_of_getElem?_eq_on r1 r hl (fun i hi => ?_)
      have hi1 : (i : Int) < a - b + 1 := by unfold len at hlen; omega
      have := hidx i (by omega) (by rw [hlen]; exact hi1)
      rw [index_natCast] at this
      rw [hall1 i hi1, this]
    rw [heq] at hr1
    refine ⟨r, hr, hr1, hlen, ?_, ?_, ?_⟩
    · have := hidx 0 le_rfl (by omega)
      simpa using this
    · have := hidx (len r - 1) (by omega) (by omega)
      rw [this, hlen]; congr 2; ring
    · intro i h0 hi
      rw [if_neg hab]; exact hidx i h0 hi

/-! ## The rounding error of Resample -/

/-- The error of a rounding: at most the fraction `2^-prec` of the value, or
`2^(emin-prec)` in the subnormal range. -/
theorem roundTo_err (prec : Nat) (emin : Int) (x : ℚ) :
    |roundTo prec emin x - x| ≤ |x| / 2 ^ prec + pow2 (emin - (prec : Int)) := by
  have hη := pow2_pos (emin - (prec : Int))
  by_cases h0 : x = 0
  · have : roundTo prec emin x = 0 := by simp [roundTo, h0]
    rw [this, h0]
    simp only [sub_self, abs_zero, zero_div, zero_add]
    exact hη.le
  have hpos : 0 < |x| := abs_pos.mpr h0
  obtain ⟨hlo, _⟩ := exponent_spec |x| hpos
  obtain ⟨m, _, hnear⟩ := roundTo_near prec emin x
  have hhalf : ∀ k : Int, pow2 (k - ((prec : Int) - 1)) / 2 = pow2 (k - (prec : Int)) := by
    intro k
    rw [pow2_eq_zpow, pow2_eq_zpow, show k - ((prec : Int) - 1) = k - (prec : Int) + 1 by ring,
      zpow_add_one₀ two_ne_zero]
    ring
  rw [hhalf] at hnear
  have hdiv : ∀ k : Int, pow2 (k - (prec : Int)) = pow2 k / 2 ^ prec := by
    intro k
    rw [pow2_eq_zpow, pow2_eq_zpow, zpow_sub₀ two_ne_zero, zpow_natCast]
  by_cases he : emin ≤ exponent |x|
  · rw [max_eq_left he, hdiv] at hnear
    have : pow2 (exponent |x|) / 2 ^ prec ≤ |x| / 2 ^ prec :=
      div_le_div_of_nonneg_right hlo (by positivity)
    linarith
  · rw [max_eq_right (by omega)] at hnear
    have : 0 ≤ |x| / 2 ^ prec := by positivity
    linarith

theorem binary64_err (u η : ℚ) (hu : 1 / 2 ^ 53 ≤ u) (hη : pow2 (-1075) ≤ η) (x : ℚ) :
    |binary64 x - x| ≤ u * |x| + η := by
  have h := roundTo_err 53 (-1022) x
  have h1 : pow2 (-1022 - ((53 : Nat) : Int)) = pow2 (-1075) := by norm_num
  rw [h1] at h
  have h2 : |x| / 2 ^ 53 ≤ u * |x| := by
    rw [div_eq_mul_one_div, mul_comm]
    exact mul_le_mul_of_nonneg_right hu (abs_nonneg x)
  unfold binary64
  linarith

/-- The error of the weighted sum `f*al + (1-f)*ah` when the difference `1-f`,
the two products, the sum and the final conversion are rounded with a relative
error of at most `u ≤ 1/4` and an absolute error of at most `η` each. -/
theorem weighted_sum_err (u η M f g al ah t1 t2 S x : ℚ) (hu0 : 0 ≤ u) (hu : u ≤ 1 / 4)
    (hη : 0 ≤ η) (hal : |al| ≤ M) (hah : |ah| ≤ M) (hf0 : 0 ≤ f) (hf1 : f ≤ 1)
    (hg0 : 0 ≤ g) (hg1 : g ≤ 1)
    (hg : |g - (1 - f)| ≤ u * |1 - f| + η)
    (ht1 : |t1 - f * al| ≤ u * |f * al| + η)
    (ht2 : |t2 - g * ah| ≤ u * |g * ah| + η)
    (hS : |S - (t1 + t2)| ≤ u * |t1 + t2| + η)
    (hx : |x - S| ≤ u * |S| + η) :
    |x - (f * al + (1 - f) * ah)| ≤ 9 * M * u + (M + 6) * η := by
  have hM : 0 ≤ M := le_trans (abs_nonneg al) hal
  have hfa : |f * al| ≤ M := by
    rw [abs_mul, abs_of_nonneg hf0]
    calc f * |al| ≤ 1 * M := mul_le_mul hf1 hal (abs_nonneg al) (by norm_num)
      _ = M := one_mul M
  have hga : |g * ah| ≤ M := by
    rw [abs_mul, abs_of_nonneg hg0]
    calc g * |ah| ≤ 1 * M := mul_le_mul hg1 hah (abs_nonneg ah) (by norm_num)
      _ = M := one_mul M
  have h1f : |1 - f| ≤ 1 := by
    rw [abs_of_nonneg (by linarith)]; linarith
  have uM : 0 ≤ u * M := mul_nonneg hu0 hM
  have uη : 0 ≤ u * η := mul_nonneg hu0 hη
  have b1 : |t1 - f * al| ≤ u * M + η := by
    have := mul_le_mul_of_nonneg_left hfa hu0
    linarith
  have b2 : |t2 - g * ah| ≤ u * M + η := by
    have := mul_le_mul_of_nonneg_left hga hu0
    linarith
  have b3 : |g - (1 - f)| ≤ u + η := by
    have := mul_le_mul_of_nonneg_left h1f hu0
    linarith
  have b4 : |(g - (1 - f)) * ah| ≤ (u + η) * M := by
    rw [abs_mul]
    exact mul_le_mul b3 hah (abs_nonneg ah) (by linarith)
  have c1 : |t1| ≤ M + (u * M + η) := by
    have : |t1| ≤ |t1 - f * al| + |f * al| := by
      have := abs_add (t1 - f * al) (f * al)
      simpa using this
    linarith
  have c2 : |t2| ≤ M + (u * M + η) := by
    have : |t2| ≤ |t2 - g * ah| + |g * ah| := by
      have := abs_add (t2 - g * ah) (g * ah)
      simpa using this
    linarith
  have c3 : |t1 + t2| ≤ 2 * M + 2 * (u * M + η) := by
    have := abs_add t1 t2
    linarith
  have d1 : |S - (t1 + t2)| ≤ u * (2 * M + 2 * (u * M + η)) + η := by
    have := mul_le_mul_of_nonneg_left c3 hu0
    linarith
  have d2 : |S| ≤ (2 * M + 2 * (u * M + η)) + (u * (2 * M + 2 * (u * M + η)) + η) := by
    have : |S| ≤ |S - (t1 + t2)| + |t1 + t2| := by
      have := abs_add (S - (t1 + t2)) (t1 + t2)
      simpa using this
    linarith
  have e1 : |x - S| ≤
      u * ((2 * M + 2 * (u * M + η)) + (u * (2 * M + 2 * (u * M + η)) + η)) + η := by
    have := mul_le_mul_of_nonneg_left d2 hu0
    linarith
  have hsplit : x - (f * al + (1 - f) * ah) =
      (x - S) + (S - (t1 + t2)) + (t1 - f * al) + (t2 - g * ah) + (g - (1 - f)) * ah := by
    ring
  have htri : |x - (f * al + (1 - f) * ah)| ≤
      |x - S| + |S - (t1 + t2)| + |t1 - f * al| + |t2 - g * ah| + |(g - (1 - f)) * ah| := by
    rw [hsplit]
    have h1 := abs_add ((x - S) + (S - (t1 + t2)) + (t1 - f * al) + (t2 - g * ah))
      ((g - (1 - f)) * ah)
    have h2 := abs_add ((x - S) + (S - (t1 + t2)) + (t1 - f * al)) (t2 - g * ah)
    have h3 := abs_add ((x - S) + (S - (t1 + t2))) (t1 - f * al)
    have h4 := abs_add (x - S) (S - (t1 + t2))
    linarith
  -- the products of the small quantities
  have p1 : u * (u * M) ≤ 1 / 4 * (u * M) := mul_le_mul_of_nonneg_right hu uM
  have p2 : u * (u * (u * M)) ≤ 1 / 16 * (u * M) := by
    have := mul_le_mul_of_nonneg_left p1 hu0
    have h2 : u * (1 / 4 * (u * M)) = 1 / 4 * (u * (u * M)) := by ring
    linarith
  have p3 : u * (u * η) ≤ 1 / 4 * (u * η) := mul_le_mul_of_nonneg_right hu uη
  have p4 : u * η ≤ 1 / 4 * η := mul_le_mul_of_nonneg_right hu hη
  have expand1 : u * ((2 * M + 2 * (u * M + η)) + (u * (2 * M + 2 * (u * M + η)) + η)) =
      2 * (u * M) + 4 * (u * (u * M)) + 3 * (u * η) + 2 * (u * (u * (u * M))) +
        2 * (u * (u * η)) := by ring
  have expand2 : u * (2 * M + 2 * (u * M + η)) = 2 * (u * M) + 2 * (u * (u * M)) + 2 * (u * η) := by
    ring
  have expand3 : (u + η) * M = u * M + M * η := by ring
  rw [expand1] at e1
  rw [expand2] at d1
  rw [expand3] at b4
  have hgoal : 9 * M * u + (M + 6) * η = 9 * (u * M) + M * η + 6 * η := by ring
  rw [hgoal]
  linarith

/-- The error of the midpoint `(a0 + aL) / 2` when the sum and the quotient are
rounded with a relative error of at most `u ≤ 1/4` and an absolute error of at
most `η` each. -/
theorem midpoint_err (u η M a0 aL s m : ℚ) (hu0 : 0 ≤ u) (hu : u ≤ 1 / 4) (hη : 0 ≤ η)
    (h0 : |a0| ≤ M) (hL : |aL| ≤ M)
    (hs : |s - (a0 + aL)| ≤ u * |a0 + aL| + η)
    (hm : |m - s / 2| ≤ u * |s / 2| + η) :
    |m - (a0 + aL) / 2| ≤ 9 * M * u + (M + 6) * η := by
  have hM : 0 ≤ M := le_trans (abs_nonneg a0) h0
  have uM : 0 ≤ u * M := mul_nonneg hu0 hM
  have uη : 0 ≤ u * η := mul_nonneg hu0 hη
  have Mη : 0 ≤ M * η := mul_nonneg hM hη
  have a1 : |a0 + aL| ≤ 2 * M := by
    have := abs_add a0 aL
    linarith
  have b1 : |s - (a0 + aL)| ≤ 2 * (u * M) + η := by
    have := mul_le_mul_of_nonneg_left a1 hu0
    linarith
  have b2 : |s| ≤ 2 * M + (2 * (u * M) + η) := by
    have : |s| ≤ |s - (a0 + aL)| + |a0 + aL| := by
      have := abs_add (s - (a0 + aL)) (a0 + aL)
      simpa using this
    linarith
  have b3 : |s / 2| ≤ M + (u * M + η / 2) := by
    rw [abs_div, abs_of_pos (by norm_num : (0 : ℚ) < 2)]
    linarith
  have c1 : |m - s / 2| ≤ u * (M + (u * M + η / 2)) + η := by
    have := mul_le_mul_of_nonneg_left b3 hu0
    linarith
  have c2 : |(s - (a0 + aL)) / 2| ≤ u * M + η / 2 := by
    rw [abs_div, abs_of_pos (by norm_num : (0 : ℚ) < 2)]
    linarith
  have hsplit : m - (a0 + aL) / 2 = (m - s / 2) + (s - (a0 + aL)) / 2 := by ring
  have htri : |m - (a0 + aL) / 2| ≤ |m - s / 2| + |(s - (a0 + aL)) / 2| := by
    rw [hsplit]; exact abs_add _ _
  have p1 : u * (u * M) ≤ 1 / 4 * (u * M) := mul_le_mul_of_nonneg_right hu uM
  have p4 : u * η ≤ 1 / 4 * η := mul_le_mul_of_nonneg_right hu hη
  have expand1 : u * (M + (u * M + η / 2)) = u * M + u * (u * M) + (u * η) / 2 := by ring
  rw [expand1] at c1
  have hgoal : 9 * M * u + (M + 6) * η = 9 * (u * M) + M * η + 6 * η := by ring
  rw [hgoal]
  linarith

/-- In float64 arithmetic, with the conversion to `FLOAT` a rounding to `prec`
bits (`2 ≤ prec ≤ 53`, `emin ≥ -1022`), every element that `Resample` returns lies
within the rounding error `9*M*2^-prec + (M+6)*2^(emin-prec)` of the range
`[lo, hi]` of its input, `M` the greatest magnitude in that range. -/
theorem rounded_Resample_near_range (prec : Nat) (emin : Int) (hp2 : 2 ≤ prec)
    (hp53 : prec ≤ 53) (hemin : -1022 ≤ emin) (a : List FLOAT) (n : Nat) (ha : a ≠ [])
    (hn : 1 ≤ n) (hL53 : a.length ≤ 2 ^ 53) (hn50 : n ≤ 2 ^ 50) (lo hi : FLOAT)
    (hb : ∀ y ∈ a, lo ≤ y ∧ y ≤ hi) :
    ∃ b, rounded.Resample (roundTo prec emin) binary64 a (n : Int) = some b ∧ ∀ x ∈ b,
      lo - (9 * max |lo| |hi| * (1 / 2 ^ prec) +
          (max |lo| |hi| + 6) * pow2 (emin - (prec : Int))) ≤ x ∧
      x ≤ hi + (9 * max |lo| |hi| * (1 / 2 ^ prec) +
          (max |lo| |hi| + 6) * pow2 (emin - (prec : Int))) := by
  have hηpos := pow2_pos (emin - (prec : Int))
  have hu0 : (0 : ℚ) ≤ 1 / 2 ^ prec := by positivity
  have hu : (1 : ℚ) / 2 ^ prec ≤ 1 / 4 := by
    have h4 : (4 : ℚ) ≤ 2 ^ prec := by
      have : (2 : ℚ) ^ 2 ≤ 2 ^ prec := pow_le_pow_right₀ (by norm_num) hp2
      linarith
    exact one_div_le_one_div_of_le (by norm_num) h4
  have hu53 : (1 : ℚ) / 2 ^ 53 ≤ 1 / 2 ^ prec := by
    have : (2 : ℚ) ^ prec ≤ 2 ^ 53 := pow_le_pow_right₀ (by norm_num) hp53
    exact one_div_le_one_div_of_le (by positivity) this
  have hη64 : pow2 (-1075) ≤ pow2 (emin - (prec : Int)) := by
    rw [pow2_eq_zpow, pow2_eq_zpow]
    exact zpow_le_zpow_right₀ (by norm_num) (by omega)
  have hM0 : 0 ≤ max |lo| |hi| := le_max_of_le_left (abs_nonneg lo)
  have hE0 : 0 ≤ 9 * max |lo| |hi| * (1 / 2 ^ prec) +
      (max |lo| |hi| + 6) * pow2 (emin - (prec : Int)) := by positivity
  have habs : ∀ y, lo ≤ y ∧ y ≤ hi → |y| ≤ max |lo| |hi| := fun y hy =>
    abs_le_max_abs_abs hy.1 hy.2
  have hrnd : ∀ y : ℚ, |roundTo prec emin y - y| ≤
      1 / 2 ^ prec * |y| + pow2 (emin - (prec : Int)) := by
    intro y
    have := roundTo_err prec emin y
    rw [div_eq_mul_one_div, mul_comm] at this
    exact this
  have h64 : ∀ y : ℚ, |binary64 y - y| ≤ 1 / 2 ^ prec * |y| + pow2 (emin - (prec : Int)) :=
    binary64_err _ _ hu53 hη64
  obtain ⟨b, hres, hall⟩ := rounded_Resample_elements (roundTo prec emin) a n ha hn hL53 hn50
  refine ⟨b, hres, ?_⟩
  intro x hx
  rcases hall x hx with hmem | ⟨a0, aL, h0, hL, rfl⟩ | ⟨low, f, al, ah, hf0, hf1, hal, hah, rfl⟩
  · obtain ⟨h1, h2⟩ := hb x hmem
    constructor <;> linarith
  · have b0 := hb a0 (mem_of_index a _ a0 h0)
    have bL := hb aL (mem_of_index a _ aL hL)
    have herr := midpoint_err _ _ _ a0 aL (roundTo prec emin (a0 + aL))
      (roundTo prec emin (roundTo prec emin (a0 + aL) / 2)) hu0 hu hηpos.le
      (habs a0 b0) (habs aL bL) (hrnd _) (hrnd _)
    obtain ⟨e1, e2⟩ := abs_le.mp herr
    constructor <;> linarith [b0.1, b0.2, bL.1, bL.2]
  · have bl := hb al (mem_of_index a _ al hal)
    have bh := hb ah (mem_of_index a _ ah hah)
    have hg0 : 0 ≤ binary64 (1 - f) := roundTo_nonneg _ _ _ (by linarith)
    have hg1 : binary64 (1 - f) ≤ 1 := binary64_le_one _ (by linarith) (by linarith)
    have herr := weighted_sum_err _ _ _ f (binary64 (1 - f)) al ah (binary64 (f * al))
      (binary64 (binary64 (1 - f) * ah))
      (binary64 (binary64 (f * al) + binary64 (binary64 (1 - f) * ah)))
      (roundTo prec emin (binary64 (binary64 (f * al) + binary64 (binary64 (1 - f) * ah))))
      hu0 hu hηpos.le (habs al bl) (habs ah bh) hf0 hf1 hg0 hg1 (h64 _) (h64 _) (h64 _) (h64 _)
      (hrnd _)
    obtain ⟨e1, e2⟩ := abs_le.mp herr
    obtain ⟨c1, c2⟩ := convex_bounds lo hi al ah f hf0 hf1 bl bh
    constructor <;> linarith

/-! ## The test vectors of dsp_test.go, run on the embedding -/

theorem test_AverageFilter : AverageFilter [2, 4, 6, 8] 2 = some [3, 5, 7] ∧
    AverageFilter [0, 2, 4, 6, 8, 10] 4 = some [3, 5, 7] ∧
    AverageFilter [1, 2, 3] 999 = some [2] ∧ AverageFilter [1, 2, 3] (-2) = some [1, 2, 3] := by
  decide!

theorem test_MedianFilter : MedianFilter [2, 1, 30, 50, 44] 3 = some [2, 30, 44] ∧
    MedianFilter [1, 3, 2] 2 = some [3, 3] ∧ MedianFilter [1, 2, 3] 999 = some [2] := by
  decide!

theorem test_MinMax : MinMax [3, 2, 1, 3, 1, 4, 4] = some (2, finite 1, 5, finite 4) := by
  decide!

theorem test_Add_Sub_Mul : Add [[1, 2], [4, 7, 9]] = some [5, 9] ∧
    Sub [[9, 8, 3], [4, 7]] = some [5, 1] ∧ Sub [[5], [1], [2]] = some [2] ∧
    Mul [[2], [3], [4]] = some [24] ∧ Mul [[], [], [1, 2, 3]] = some [] := by
  decide!

theorem test_Resample : Resample [100, 200] 3 = some [100, 150, 200] ∧
    Resample [100, 120, 140, 160, 180, 200] 3 = some [100, 150, 200] ∧
    Resample [1, 2] 1 = some [3 / 2] ∧ Resample [1] 3 = some [1, 1, 1] ∧
    Resample [1] 0 = some [] := by
  decide!

theorem test_Average : Average [] = 0 ∧ Average [8] = 8 ∧ Average [1, 2] = 3 / 2 ∧
    Average [1, 2, 3] = 2 := by
  decide!

theorem test_Derivative : Derivative [] = some [] ∧ Derivative [1] = some [0] ∧
    Derivative [1, 3] = some [2] ∧ Derivative [1, 3, 4, 2] = some [2, 1, -2] := by
  decide!

theorem test_NthDerivative : NthDerivative [1, 3, 4, 2] (-1) = some [1, 3, 4, 2] ∧
    NthDerivative [1, 3, 4, 2] 0 = some [1, 3, 4, 2] ∧
    NthDerivative [1, 3, 4, 2] 1 = some [2, 1, -2] ∧
    NthDerivative [1, 3, 4, 2] 2 = some [-1, -3] ∧
    NthDerivative [1, 3, 4, 2] 3 = some [-2] ∧
    NthDerivative [1, 3, 4, 2] 4 = some [0] ∧ NthDerivative [1, 3, 4, 2] 5 = some [0] := by
  decide!

theorem test_EveryNth : EveryNth [] 3 = some [] ∧ EveryNth [1] 3 = some [1] ∧
    EveryNth [1, 2, 3] 3 = some [1] ∧ EveryNth [1, 2, 3, 4] 3 = some [1, 4] ∧
    EveryNth [1, 2, 3, 4, 5, 6] 3 = some [1, 4] ∧
    EveryNth [1, 2, 3, 4, 5, 6, 7] 3 = some [1, 4, 7] ∧
    EveryNth [1, 2, 3] 1 = some [1, 2, 3] ∧ EveryNth [1, 2, 3] 0 = some [] ∧
    EveryNth [1, 2, 3] (-1) = some [] := by
  decide!

theorem test_Reciprocal : Reciprocal [] = some [] ∧ Reciprocal [999] = some [1 / 999] ∧
    Reciprocal [1, 2, 3] = some [1, 1 / 2, 1 / 3] ∧
    SafeReciprocal [1, 2, 3] 0 = some [1, 1 / 2, 1 / 3] ∧
    SafeReciprocal [0] 123 = some [123] := by
  decide!

theorem test_Div : Div [] [] = some [] ∧ Div [1] [2] = some [1 / 2] ∧
    Div [1, 2, 3] [-3, -2, -1] = some [-1 / 3, -1, -3] ∧
    SafeDiv [1, 2, 3] [-3, -2, -1] 0 = some [-1 / 3, -1, -3] ∧
    SafeDiv [1] [0] 123 = some [123] := by
  decide!

theorem test_MinMax_projections : MinIndex [5, 0, 5, 9, 5] = some 1 ∧
    MinValue [5, 0, 5, 9, 5] = some (finite 0) ∧ MaxIndex [5, 0, 5, 9, 5] = some 3 ∧
    MaxValue [5, 0, 5, 9, 5] = some (finite 9) ∧
    MinMax [] = some (-1, posInf, -1, negInf) := by
  decide!

theorem test_elementwise : Negative [1, -2, 3] = some [-1, 2, -3] ∧
    AddOffset [2, 3, 4] (-1) = some [1, 2, 3] ∧ AddOffset [] 1 = some [] ∧
    Scale [1, 2, 3] 2 = some [2, 4, 6] ∧ Abs [1, -2, 3, -4] = some [1, 2, 3, 4] ∧
    AbsValue (-1) = 1 ∧ AbsValue 1 = 1 := by
  decide!

theorem test_Reverse : Reverse [] = some [] ∧ Reverse [1] = some [1] ∧
    Reverse [1, 2] = some [2, 1] ∧ Reverse [1, 2, 3] = some [3, 2, 1] := by
  decide!

theorem test_Range : Range 0 0 = some [0] ∧ Range 0 1 = some [0, 1] ∧
    Range 10 8 = some [10, 9, 8] ∧ Range (-2) 3 = some [-2, -1, 0, 1, 2, 3] ∧
    Range 3 (-2) = some [3, 2, 1, 0, -1, -2] := by
  decide!

theorem test_rounding : binary64 (1 / 10) = 3602879701896397 / 36028797018963968 ∧
    binary64 (1 / 3) = 6004799503160661 / 18014398509481984 ∧
    binary64 (-(1 / 10)) = -(3602879701896397 / 36028797018963968) ∧
    binary64 5 = 5 ∧ binary64 9007199254740993 = 9007199254740992 ∧
    binary64 9007199254740995 = 9007199254740996 ∧
    binary64 9999999999999999 = 10000000000000000 ∧
    binary32 (1 / 10) = 13421773 / 134217728 ∧ binary32 16777217 = 16777216 := by
  decide!

theorem test_rounded_Range :
    rounded.Range binary64 9007199254740993 9007199254740995 =
      some [9007199254740992, 9007199254740994, 9007199254740996] ∧
    rounded.Range binary32 16777217 16777219 = some [16777216, 16777218, 16777220] ∧
    rounded.Range binary32 5 8 = some [5, 6, 7, 8] ∧
    rounded.Range binary32 2 (-3) = some [2, 1, 0, -1, -2, -3] := by
  decide!

/-- With the identity for every rounding, the rounded operations are the
operations over exact arithmetic. -/
theorem rounded_exact : (∀ a, rounded.Sub id a = Sub a) ∧
    (∀ a, rounded.Average id a = Average a) ∧
    (∀ a w, rounded.AverageFilter id a w = AverageFilter a w) ∧
    (∀ a n, rounded.Resample id id a n = Resample a n) ∧
    (∀ a b, rounded.Range id a b = Range a b) :=
  ⟨fun _ => rfl, fun _ => rfl, fun _ _ => rfl, fun _ _ => rfl, fun _ _ => rfl⟩

/-- The test vectors of dsp_test.go for the five functions, run in float64
arithmetic. -/
theorem test_rounded_vectors :
    rounded.AverageFilter binary64 [2, 4, 6, 8] 2 = some [3, 5, 7] ∧
    rounded.AverageFilter binary64 [1, 2, 3, 4, 5] 3 = some [2, 3, 4] ∧
    rounded.AverageFilter binary64 [0, 2, 4, 6, 8, 10] 4 = some [3, 5, 7] ∧
    rounded.AverageFilter binary64 [1, 2, 3] 999 = some [2] ∧
    rounded.Average binary64 [1, 2] = 3 / 2 ∧ rounded.Average binary64 [1, 2, 3] = 2 ∧
    rounded.Sub binary64 [[9, 8, 3], [4, 7, 9]] = some [5, 1, -6] ∧
    rounded.Sub binary64 [[5], [1], [2]] = some [2] ∧
    rounded.Resample binary64 binary64 [1] 3 = some [1, 1, 1] ∧
    rounded.Resample binary64 binary64 [1, 2] 1 = some [3 / 2] ∧
    rounded.Resample binary64 binary64 [100, 200] 3 = some [100, 150, 200] ∧
    rounded.Resample binary64 binary64 [100, 120, 140, 160, 180, 200] 3 =
      some [100, 150, 200] ∧
    rounded.Range binary64 10 8 = some [10, 9, 8] ∧
    rounded.Range binary64 (-2) 3 = some [-2, -1, 0, 1, 2, 3] := by
  decide!

/-! ## Properties of the specification -/

/-- C1: for every sequence `a` of length `L` and width `w` with effective width
`e = min(w, L) ≥ 2`, and every `i` with `0 ≤ i ≤ L - e`, `AverageFilter(a, w)`
returns a sequence whose element `i` is `(a[i] + ... + a[i+e-1]) / e`: the
sliding-sum implementation agrees with the direct per-window mean. -/
theorem C1_AverageFilter_eq_windowMean (a : List FLOAT) (w i : Int)
    (he : 2 ≤ min w (len a)) (h0 : 0 ≤ i) (hi : i ≤ len a - min w (len a)) :
    ∃ b, AverageFilter a w = some b ∧
      index b i = some (windowMean a i (min w (len a))) := by
  have hlen : len a = (a.length : Int) := rfl
  obtain ⟨e, hee⟩ := Int.eq_ofNat_of_zero_le (show 0 ≤ min w (len a) by omega)
  obtain ⟨k, rfl⟩ := Int.eq_ofNat_of_zero_le h0
  obtain ⟨b, hb, _, hall⟩ := AverageFilter_spec a w e hee.symm (by omega)
  refine ⟨b, hb, ?_⟩
  rw [index_natCast, hee]
  exact hall k (by rw [hee, hlen] at hi; omega)

/-- C1 at `a = [2, 4, 6, 8]`, `w = 2`, `i = 1`. -/
theorem C1_witness : ∃ b, AverageFilter [2, 4, 6, 8] 2 = some b ∧
    index b 1 = some (windowMean [2, 4, 6, 8] 1 (min 2 (len [2, 4, 6, 8]))) :=
  C1_AverageFilter_eq_windowMean [2, 4, 6, 8] 2 1 (by decide) (by decide) (by decide)

/-- C2: for effective width `e = min(w, L) ≥ 2` and `0 ≤ i ≤ L - e`,
`MedianFilter(a, w)` returns a sequence whose element `i` is the value at index
`e/2` of the ascending-sorted rearrangement of the window `a[i .. i+e-1]`, and of
that window only. -/
theorem C2_MedianFilter_middle_of_sorted_window (a : List FLOAT) (w i : Int)
    (he : 2 ≤ min w (len a)) (h0 : 0 ≤ i) (hi : i ≤ len a - min w (len a)) :
    ∃ (b sorted : List FLOAT) (v : FLOAT), MedianFilter a w = some b ∧
      List.Sorted (fun x y => x ≤ y) sorted ∧
      List.Perm sorted (window a i (min w (len a))) ∧
      index sorted (min w (len a) / 2) = some v ∧ index b i = some v := by
  have hlen : len a = (a.length : Int) := rfl
  obtain ⟨e, hee⟩ := Int.eq_ofNat_of_zero_le (show 0 ≤ min w (len a) by omega)
  obtain ⟨k, rfl⟩ := Int.eq_ofNat_of_zero_le h0
  obtain ⟨b, hb, _, hall⟩ := MedianFilter_spec a w e hee.symm (by omega)
  have hke : k + e ≤ a.length := by rw [hee, hlen] at hi; omega
  have hwin : ((a.drop k).take e).length = e := by
    rw [List.length_take, List.length_drop]; omega
  have hlt : e / 2 < (sortFloats ((a.drop k).take e)).length := by
    rw [length_sortFloats, hwin]; omega
  refine ⟨b, sortFloats ((a.drop k).take e), (sortFloats ((a.drop k).take e))[e / 2], hb,
    List.sorted_insertionSort _ _, ?_, ?_, ?_⟩
  · rw [hee]
    simp only [window, Int.toNat_ofNat]
    exact List.perm_insertionSort _ _
  · rw [hee, show ((e : Int) / 2) = ((e / 2 : Nat) : Int) by omega, index_natCast]
    exact List.getElem?_eq_getElem hlt
  · rw [index_natCast, hall k hke]
    exact List.getElem?_eq_getElem hlt

/-- C2 at `a = [2, 1, 30, 50, 44]`, `w = 3`, `i = 1`. -/
theorem C2_witness : ∃ (b sorted : List FLOAT) (v : FLOAT),
    MedianFilter [2, 1, 30, 50, 44] 3 = some b ∧
      List.Sorted (fun x y => x ≤ y) sorted ∧
      List.Perm sorted (window [2, 1, 30, 50, 44] 1 (min 3 (len [2, 1, 30, 50, 44]))) ∧
      index sorted (min 3 (len [2, 1, 30, 50, 44]) / 2) = some v ∧ index b 1 = some v :=
  C2_MedianFilter_middle_of_sorted_window [2, 1, 30, 50, 44] 3 1 (by decide) (by decide)
    (by decide)

/-- C3: window clamping, for `AverageFilter` and `MedianFilter` alike, for every
sequence `a` of length `L` and every integer width `w`: with `e = min(w, L)`, if
`e ≤ 1` the result is `a` itself (so the empty input gives the empty output for
every `w`); otherwise the result has exactly `L - e + 1` elements, which is at
least 1. -/
theorem C3_window_clamping (a : List FLOAT) (w : Int) :
    (min w (len a) ≤ 1 → AverageFilter a w = some a ∧ MedianFilter a w = some a) ∧
    (1 < min w (len a) → ∃ b1 b2, AverageFilter a w = some b1 ∧ MedianFilter a w = some b2 ∧
      len b1 = len a - min w (len a) + 1 ∧ len b2 = len a - min w (len a) + 1 ∧
      1 ≤ len a - min w (len a) + 1) ∧
    (AverageFilter [] w = some [] ∧ MedianFilter [] w = some []) := by
  have hlen : ∀ v : List FLOAT, len v = (v.length : Int) := fun _ => rfl
  refine ⟨fun h => ⟨AverageFilter_copy a w h, MedianFilter_copy a w h⟩, ?_, ?_⟩
  · intro h
    obtain ⟨e, hee⟩ := Int.eq_ofNat_of_zero_le (show 0 ≤ min w (len a) by omega)
    obtain ⟨b1, hb1, hl1, _⟩ := AverageFilter_spec a w e hee.symm (by omega)
    obtain ⟨b2, hb2, hl2, _⟩ := MedianFilter_spec a w e hee.symm (by omega)
    have hle : min w (len a) ≤ len a := min_le_right _ _
    refine ⟨b1, b2, hb1, hb2, ?_, ?_, by omega⟩
    · rw [hee, hlen, hlen]; omega
    · rw [hee, hlen, hlen]; omega
  · have h0 : min w (len ([] : List FLOAT)) ≤ 1 := by
      have h1 : min w (len ([] : List FLOAT)) ≤ len ([] : List FLOAT) := min_le_right _ _
      have h2 : len ([] : List FLOAT) = 0 := rfl
      omega
    exact ⟨AverageFilter_copy [] w h0, MedianFilter_copy [] w h0⟩

/-- C3 at `a = [1, 2, 3]`: width 0 copies, width 2 leaves two elements. -/
theorem C3_witness :
    (AverageFilter [1, 2, 3] 0 = some [1, 2, 3] ∧ MedianFilter [1, 2, 3] 0 = some [1, 2, 3]) ∧
    (∃ b1 b2, AverageFilter [1, 2, 3] 2 = some b1 ∧ MedianFilter [1, 2, 3] 2 = some b2 ∧
      len b1 = len [1, 2, 3] - min 2 (len [1, 2, 3]) + 1 ∧
      len b2 = len [1, 2, 3] - min 2 (len [1, 2, 3]) + 1 ∧
      1 ≤ len [1, 2, 3] - min 2 (len [1, 2, 3]) + 1) :=
  ⟨(C3_window_clamping [1, 2, 3] 0).1 (by decide),
    (C3_window_clamping [1, 2, 3] 2).2.1 (by decide)⟩

/-- C4, on the code: the position of the claim, `j = i*(L-1)/(n-1)`, is not the
position that the code computes. In `float64` arithmetic `Resample([0, 10, 20], 99)`
takes `indexScale = 2/98` rounded, and at `i = 49` the product `49 * indexScale`
rounds to `1 - 2^-53`: `low` is 0 and element 49 is `10 * 2^-53`, about `1.1e-15`.
The claim has `j = 49*2/98 = 1`, `low = 1`, `fraction = 0` and the value
`a[2] = 20`. -/
theorem C4_Resample_rounded_position :
    binary64 (binary64 49 * binary64 (binary64 2 / binary64 98)) =
      9007199254740991 / 9007199254740992 ∧
    toInt (9007199254740991 / 9007199254740992) = 0 ∧
    (rounded.Resample binary64 binary64 [0, 10, 20] 99).bind (fun b => index b 49) =
      some (5 / 4503599627370496) ∧
    sourcePos (len ([0, 10, 20] : List FLOAT)) 99 49 = 1 ∧
    interpolate [0, 10, 20] 99 49 = some 20 ∧
    (rounded.Resample binary64 binary64 [0, 10, 20] 99).bind (fun b => index b 49) ≠
      interpolate [0, 10, 20] 99 49 := by
  decide!

/-- C4, amended: for every sequence `a` of length `L ≥ 2`, every `newLength = n ≥ 3`
and every interior index `1 ≤ i ≤ n-2`, `Resample(a, n)` returns a sequence whose
element `i` is `fraction*a[low] + (1-fraction)*a[low+1]`, both reads in range,

* over exact arithmetic with `j = i*(L-1)/(n-1)`, `low = floor(j)` and
  `fraction = j - low`;
* in the float64 arithmetic of the code, for `L ≤ 2^53` and `n ≤ 2^50`, with the
  computed position `j = float64(i) * (float64(L-1)/float64(n-1))`, `low = int(j)`
  and `fraction = j - float64(low)`, every operation rounded to float64 and the
  sum converted to `FLOAT` by `rnd`, whatever that conversion. -/
theorem C4_Resample_interior (rnd : ℚ → ℚ) (a : List FLOAT) (n i : Int) (hL : 2 ≤ len a)
    (hn : 3 ≤ n) (h1 : 1 ≤ i) (h2 : i ≤ n - 2) :
    (∃ (b : List FLOAT) (al ah : FLOAT), Resample a n = some b ∧
      index a ⌊sourcePos (len a) n i⌋ = some al ∧
      index a (⌊sourcePos (len a) n i⌋ + 1) = some ah ∧
      index b i = some (Int.fract (sourcePos (len a) n i) * al +
        (1 - Int.fract (sourcePos (len a) n i)) * ah)) ∧
    (len a ≤ 2 ^ 53 → n ≤ 2 ^ 50 →
      ∃ (b : List FLOAT) (al ah : FLOAT) (j fraction : ℚ),
        rounded.Resample rnd binary64 a n = some b ∧
        j = rounded.Resample.position binary64 (len a) n i ∧
        fraction = binary64 (j - binary64 ((toInt j : Int) : ℚ)) ∧
        index a (toInt j) = some al ∧ index a (toInt j + 1) = some ah ∧
        index b i = some (rnd (binary64 (binary64 (fraction * al) +
          binary64 (binary64 (1 - fraction) * ah))))) := by
  have hlen : len a = (a.length : Int) := rfl
  obtain ⟨m, rfl⟩ := Int.eq_ofNat_of_zero_le (show 0 ≤ n by omega)
  obtain ⟨k, rfl⟩ := Int.eq_ofNat_of_zero_le (show 0 ≤ i by omega)
  have hL2 : 2 ≤ a.length := by rw [hlen] at hL; omega
  have hk : k + 2 ≤ m := by omega
  constructor
  · obtain ⟨b, hb, _, _, _, hall⟩ := Resample_general a m hL2 (by omega)
    obtain ⟨al, ah, hal, hah, hv⟩ := interpolate_some a m k hL2 hk
    refine ⟨b, al, ah, hb, hal, hah, ?_⟩
    rw [index_natCast, hall k (by omega) hk, hv]
  · intro hL53 hm50
    have hL53n : a.length ≤ 2 ^ 53 := by rw [hlen] at hL53; exact_mod_cast hL53
    have hm50n : m ≤ 2 ^ 50 := by exact_mod_cast hm50
    obtain ⟨b, hb, _, _, _, hall⟩ := rounded_Resample_general rnd binary64 a m hL2 (by omega)
      (fun t ht1 ht2 => by
        obtain ⟨al, ah, _, _, hv⟩ := rounded_Resample_value_some rnd a m t hL2 hL53n ht1 ht2 hm50n
        exact ⟨_, hv⟩)
    obtain ⟨al, ah, hal, hah, hv⟩ :=
      rounded_Resample_value_some rnd a m k hL2 hL53n (by omega) hk hm50n
    refine ⟨b, al, ah, _, _, hb, rfl, rfl, hal, hah, ?_⟩
    rw [index_natCast, hall k (by omega) hk, hv]

/-- C4, amended, at `a = [0, 10, 20]`, `n = 4`, `i = 1`, the sum converted to
float32. -/
theorem C4_witness :
    (∃ (b : List FLOAT) (al ah : FLOAT), Resample [0, 10, 20] 4 = some b ∧
      index [0, 10, 20] ⌊sourcePos (len [0, 10, 20]) 4 1⌋ = some al ∧
      index [0, 10, 20] (⌊sourcePos (len [0, 10, 20]) 4 1⌋ + 1) = some ah ∧
      index b 1 = some (Int.fract (sourcePos (len [0, 10, 20]) 4 1) * al +
        (1 - Int.fract (sourcePos (len [0, 10, 20]) 4 1)) * ah)) ∧
    ∃ (b : List FLOAT) (al ah : FLOAT) (j fraction : ℚ),
      rounded.Resample binary32 binary64 [0, 10, 20] 4 = some b ∧
      j = rounded.Resample.position binary64 (len ([0, 10, 20] : List FLOAT)) 4 1 ∧
      fraction = binary64 (j - binary64 ((toInt j : Int) : ℚ)) ∧
      index [0, 10, 20] (toInt j) = some al ∧ index [0, 10, 20] (toInt j + 1) = some ah ∧
      index b 1 = some (binary32 (binary64 (binary64 (fraction * al) +
        binary64 (binary64 (1 - fraction) * ah)))) :=
  ⟨(C4_Resample_interior binary32 [0, 10, 20] 4 1 (by decide) (by decide) (by decide)
      (by decide)).1,
    (C4_Resample_interior binary32 [0, 10, 20] 4 1 (by decide) (by decide) (by decide)
      (by decide)).2 (by decide) (by decide)⟩

/-- C5: endpoint preservation. For every sequence `a` of length `L ≥ 2` and every
`newLength = n ≥ 2`, `Resample(a, n)` returns a sequence whose first element is
`a[0]` and whose last element (index `n-1`) is `a[L-1]`. -/
theorem C5_Resample_endpoints (a : List FLOAT) (n : Int) (hL : 2 ≤ len a) (hn : 2 ≤ n) :
    ∃ (b : List FLOAT) (first last : FLOAT), Resample a n = some b ∧
      index a 0 = some first ∧ index a (len a - 1) = some last ∧
      index b 0 = some first ∧ index b (n - 1) = some last := by
  have hlen : len a = (a.length : Int) := rfl
  obtain ⟨m, rfl⟩ := Int.eq_ofNat_of_zero_le (show 0 ≤ n by omega)
  have hL2 : 2 ≤ a.length := by rw [hlen] at hL; omega
  obtain ⟨b, hb, _, hb0, hbl, _⟩ := Resample_general a m hL2 (by omega)
  have e0 : (0 : Int) = ((0 : Nat) : Int) := rfl
  have eL : len a - 1 = ((a.length - 1 : Nat) : Int) := by rw [hlen]; omega
  have em : (m : Int) - 1 = ((m - 1 : Nat) : Int) := by omega
  obtain ⟨x0, hx0⟩ : ∃ x, a[0]? = some x := ⟨a[0], List.getElem?_eq_getElem (by omega)⟩
  obtain ⟨xL, hxL⟩ : ∃ x, a[a.length - 1]? = some x :=
    ⟨a[a.length - 1], List.getElem?_eq_getElem (by omega)⟩
  refine ⟨b, x0, xL, hb, ?_, ?_, ?_, ?_⟩
  · rw [e0, index_natCast, hx0]
  · rw [eL, index_natCast, hxL]
  · rw [e0, index_natCast, hb0, hx0]
  · rw [em, index_natCast, hbl, hxL]

/-- C5 at `a = [100, 120, 140, 160, 180, 200]`, `n = 3`. -/
theorem C5_witness : ∃ (b : List FLOAT) (first last : FLOAT),
    Resample [100, 120, 140, 160, 180, 200] 3 = some b ∧
      index [100, 120, 140, 160, 180, 200] 0 = some first ∧
      index [100, 120, 140, 160, 180, 200] (len [100, 120, 140, 160, 180, 200] - 1)
        = some last ∧
      index b 0 = some first ∧ index b (3 - 1) = some last :=
  C5_Resample_endpoints [100, 120, 140, 160, 180, 200] 3 (by decide) (by decide)

/-- C6: for every non-empty sequence `a` and every `newLength = n ≥ 1`,
`Resample(a, n)` returns a sequence of exactly `n` elements; for `a` empty or
`n ≤ 0` it returns the empty sequence. -/
theorem C6_Resample_length (a : List FLOAT) (n : Int) :
    (a ≠ [] → 1 ≤ n → ∃ b, Resample a n = some b ∧ len b = n) ∧
    (a = [] ∨ n ≤ 0 → Resample a n = some []) := by
  refine ⟨fun ha hn => ?_, Resample_empty a n⟩
  obtain ⟨m, rfl⟩ := Int.eq_ofNat_of_zero_le (show 0 ≤ n by omega)
  obtain ⟨b, hb, hlen⟩ := Resample_length a m ha (by omega)
  exact ⟨b, hb, by unfold len; rw [hlen]⟩

/-- C6 at `a = [1, 2, 3]`, `n = 5`, and at `a = [1, 2, 3]`, `n = -1`. -/
theorem C6_witness : (∃ b, Resample [1, 2, 3] 5 = some b ∧ len b = 5) ∧
    Resample [1, 2, 3] (-1) = some [] :=
  ⟨(C6_Resample_length [1, 2, 3] 5).1 (by decide) (by decide),
    (C6_Resample_length [1, 2, 3] (-1)).2 (Or.inr (by decide))⟩

/-- C7: for every value `x` and every `newLength = n ≥ 1`, `Resample([x], n)`
equals `Repeat(x, n)`, the sequence of `n` copies of `x`. -/
theorem C7_Resample_single (x : FLOAT) (n : Int) (hn : 1 ≤ n) :
    Resample [x] n = Repeat x n ∧ Resample [x] n = some (List.replicate n.toNat x) := by
  obtain ⟨m, rfl⟩ := Int.eq_ofNat_of_zero_le (show 0 ≤ n by omega)
  rw [Resample_single x m hn, Repeat_natCast]
  exact ⟨rfl, rfl⟩

/-- C7 at `x = 7`, `n = 3`. -/
theorem C7_witness : Resample [7] 3 = Repeat 7 3 ∧
    Resample [7] 3 = some (List.replicate (3 : Int).toNat 7) :=
  C7_Resample_single 7 3 (by decide)

/-- C8: for every sequence `a` of length `L ≥ 2`, `Resample(a, 1)` is the
one-element sequence `[(a[0] + a[L-1]) / 2]`. -/
theorem C8_Resample_to_one (a : List FLOAT) (hL : 2 ≤ len a) :
    ∃ first last : FLOAT, index a 0 = some first ∧ index a (len a - 1) = some last ∧
      Resample a 1 = some [(first + last) / 2] := by
  have hlen : len a = (a.length : Int) := rfl
  have hL2 : 2 ≤ a.length := by rw [hlen] at hL; omega
  obtain ⟨x, y, hx, hy, hr⟩ := Resample_one a hL2
  have e0 : (0 : Int) = ((0 : Nat) : Int) := rfl
  have eL : len a - 1 = ((a.length - 1 : Nat) : Int) := by rw [hlen]; omega
  exact ⟨x, y, by rw [e0, index_natCast, hx], by rw [eL, index_natCast, hy], hr⟩

/-- C8 at `a = [1, 5, 2]`. -/
theorem C8_witness : ∃ first last : FLOAT, index [1, 5, 2] 0 = some first ∧
    index [1, 5, 2] (len [1, 5, 2] - 1) = some last ∧
    Resample [1, 5, 2] 1 = some [(first + last) / 2] :=
  C8_Resample_to_one [1, 5, 2] (by decide)

/-- C9: for every non-empty sequence `a`, `MinMax(a)` returns
`(minIndex, minValue, maxIndex, maxValue)` where `minValue = a[minIndex]` is `≤`
every element of `a` and every element at an index below `minIndex` is strictly
greater than `minValue`, and `maxValue = a[maxIndex]` is `≥` every element of `a`
and every element at an index below `maxIndex` is strictly less than `maxValue`. -/
theorem C9_MinMax_first_extremes (a : List FLOAT) (h : a ≠ []) :
    ∃ (minIndex maxIndex : Int) (minValue maxValue : FLOAT),
      MinMax a = some (minIndex, finite minValue, maxIndex, finite maxValue) ∧
      index a minIndex = some minValue ∧
      (∀ x ∈ a, minValue ≤ x) ∧
      (∀ (t : Int) (x : FLOAT), t < minIndex → index a t = some x → minValue < x) ∧
      index a maxIndex = some maxValue ∧
      (∀ x ∈ a, x ≤ maxValue) ∧
      (∀ (t : Int) (x : FLOAT), t < maxIndex → index a t = some x → x < maxValue) := by
  obtain ⟨mi, Mi, mv, Mv, hres, hmv, hMv, h1, h2, h3, h4⟩ := MinMax_spec a h
  refine ⟨mi, Mi, mv, Mv, hres, by rw [index_natCast, hmv], h1, ?_,
    by rw [index_natCast, hMv], h3, ?_⟩
  · intro t x ht hx
    by_cases h0 : 0 ≤ t
    · obtain ⟨k, rfl⟩ := Int.eq_ofNat_of_zero_le h0
      rw [index_natCast] at hx
      exact h2 k x (by omega) hx
    · rw [index_neg a t (by omega)] at hx
      exact Option.noConfusion hx
  · intro t x ht hx
    by_cases h0 : 0 ≤ t
    · obtain ⟨k, rfl⟩ := Int.eq_ofNat_of_zero_le h0
      rw [index_natCast] at hx
      exact h4 k x (by omega) hx
    · rw [index_neg a t (by omega)] at hx
      exact Option.noConfusion hx

/-- C9 at `a = [3, 2, 1, 3, 1, 4, 4]`, the sequence of the repository's test. -/
theorem C9_witness : ∃ (minIndex maxIndex : Int) (minValue maxValue : FLOAT),
    MinMax [3, 2, 1, 3, 1, 4, 4] = some (minIndex, finite minValue, maxIndex, finite maxValue) ∧
      index [3, 2, 1, 3, 1, 4, 4] minIndex = some minValue ∧
      (∀ x ∈ [3, 2, 1, 3, 1, 4, 4], minValue ≤ x) ∧
      (∀ (t : Int) (x : FLOAT), t < minIndex → index [3, 2, 1, 3, 1, 4, 4] t = some x →
        minValue < x) ∧
      index [3, 2, 1, 3, 1, 4, 4] maxIndex = some maxValue ∧
      (∀ x ∈ [3, 2, 1, 3, 1, 4, 4], x ≤ maxValue) ∧
      (∀ (t : Int) (x : FLOAT), t < maxIndex → index [3, 2, 1, 3, 1, 4, 4] t = some x →
        x < maxValue) :=
  C9_MinMax_first_extremes [3, 2, 1, 3, 1, 4, 4] (by decide)

/-- C10: for each of `Add`, `Sub` and `Mul` and every non-empty list of input
sequences, the operation returns a sequence whose length is the minimum of the
input lengths (no input is shorter, and one input has exactly that length);
applied to zero sequences each returns the empty sequence. -/
theorem C10_combinators_length (a : List (List FLOAT)) :
    (a ≠ [] → ∃ (s d p : List FLOAT) (n : Nat), Add a = some s ∧ Sub a = some d ∧
      Mul a = some p ∧ s.length = n ∧ d.length = n ∧ p.length = n ∧
      (∀ v ∈ a, n ≤ v.length) ∧ ∃ v ∈ a, n = v.length) ∧
    (Add [] = some [] ∧ Sub [] = some [] ∧ Mul [] = some []) := by
  refine ⟨fun h => ?_, rfl, rfl, rfl⟩
  obtain ⟨s, n, hs, hsl, hle, hex, _⟩ := Add_spec a h
  obtain ⟨d, n2, hd, hdl, hle2, hex2, _⟩ := Sub_spec a h
  obtain ⟨p, n3, hp, hpl, hle3, hex3, _⟩ := Mul_spec a h
  have e2 : n2 = n := by
    obtain ⟨v, hv, hn⟩ := hex
    obtain ⟨v2, hv2, hn2⟩ := hex2
    have := hle v2 hv2
    have := hle2 v hv
    omega
  have e3 : n3 = n := by
    obtain ⟨v, hv, hn⟩ := hex
    obtain ⟨v3, hv3, hn3⟩ := hex3
    have := hle v3 hv3
    have := hle3 v hv
    omega
  exact ⟨s, d, p, n, hs, hd, hp, hsl, by rw [hdl, e2], by rw [hpl, e3], hle, hex⟩

/-- C10 at the three sequences `[1, 2, 3]`, `[4, 7]`, `[5, 6, 7, 8]`. -/
theorem C10_witness : ∃ (s d p : List FLOAT) (n : Nat),
    Add [[1, 2, 3], [4, 7], [5, 6, 7, 8]] = some s ∧
    Sub [[1, 2, 3], [4, 7], [5, 6, 7, 8]] = some d ∧
    Mul [[1, 2, 3], [4, 7], [5, 6, 7, 8]] = some p ∧ s.length = n ∧ d.length = n ∧
    p.length = n ∧ (∀ v ∈ ([[1, 2, 3], [4, 7], [5, 6, 7, 8]] : List (List FLOAT)), n ≤ v.length) ∧
    ∃ v ∈ ([[1, 2, 3], [4, 7], [5, 6, 7, 8]] : List (List FLOAT)), n = v.length :=
  (C10_combinators_length [[1, 2, 3], [4, 7], [5, 6, 7, 8]]).1 (by decide)

/-- C11: for every non-empty list of sequences `a = [s_0, ..., s_k]` and every
index `i` below all their lengths, `Add` returns a sequence whose element `i` is
the sum `s_0[i] + s_1[i] + ... + s_k[i]`; `Add` of a single sequence returns that
sequence. -/
theorem C11_Add_elementwise_sum (a : List (List FLOAT)) (h : a ≠ []) (i : Nat)
    (hi : ∀ v ∈ a, i < v.length) :
    (∃ b, Add a = some b ∧ index b (i : Int) = some (column a i).sum) ∧
    ∀ s : List FLOAT, Add [s] = some s := by
  obtain ⟨b, hb, hbi⟩ := Add_elem a h i hi
  exact ⟨⟨b, hb, by rw [index_natCast, hbi]⟩, Add_single⟩

/-- C11 at `[[1, 2, 3], [4, 7], [5, 6, 7, 8]]`, index 1. -/
theorem C11_witness :
    (∃ b, Add [[1, 2, 3], [4, 7], [5, 6, 7, 8]] = some b ∧
      index b ((1 : Nat) : Int) = some (column [[1, 2, 3], [4, 7], [5, 6, 7, 8]] 1).sum) ∧
    ∀ s : List FLOAT, Add [s] = some s :=
  C11_Add_elementwise_sum [[1, 2, 3], [4, 7], [5, 6, 7, 8]] (by decide) 1 (by decide)

/-- C12, on the code: `Sub` subtracts the later sequences from the base one
after the other, which in floating-point arithmetic is not the base minus their
sum. In `float64` arithmetic `Sub([1], [1e16], [-1e16])` is `[0]`, because
`1 - 1e16` rounds to `-1e16`; the claimed value `1 - (1e16 + (-1e16))` is 1,
rounded or not. -/
theorem C12_Sub_rounded_regrouping :
    rounded.Sub binary64 [[1], [10000000000000000], [-10000000000000000]] = some [0] ∧
    binary64 (1 - 10000000000000000) = -10000000000000000 ∧
    binary64 (1 - binary64 (10000000000000000 + -10000000000000000)) = 1 ∧
    (1 : FLOAT) - (column [[10000000000000000], [-10000000000000000]] 0).sum = 1 ∧
    (rounded.Sub binary64 [[1], [10000000000000000], [-10000000000000000]]).bind
      (fun b => index b 0) ≠
        some (1 - (column [[10000000000000000], [-10000000000000000]] 0).sum) := by
  decide!

/-- C12, amended: for every non-empty list of sequences `s_0 :: rest` and every
index `i` below all their lengths, `Sub` returns a sequence whose element `i` is
`((s_0[i] - s_1[i]) - s_2[i]) - ... - s_k[i]`: the later sequences are subtracted
from the base one after the other, each difference rounded to `FLOAT`, whatever
the rounding `rnd`. Over exact arithmetic that is `s_0[i] - (s_1[i] + ... + s_k[i])`.
`Sub` of a single sequence returns that sequence. -/
theorem C12_Sub_subtracts_in_turn (rnd : ℚ → ℚ) (s0 : List FLOAT) (rest : List (List FLOAT))
    (i : Nat) (hi : ∀ v ∈ s0 :: rest, i < v.length) :
    (∃ (b : List FLOAT) (x : FLOAT), rounded.Sub rnd (s0 :: rest) = some b ∧
      index s0 (i : Int) = some x ∧
      index b (i : Int) = some ((column rest i).foldl (fun y v => rnd (y - v)) x)) ∧
    (∃ (b : List FLOAT) (x : FLOAT), Sub (s0 :: rest) = some b ∧ index s0 (i : Int) = some x ∧
      index b (i : Int) = some (x - (column rest i).sum)) ∧
    ∀ s : List FLOAT, rounded.Sub rnd [s] = some s := by
  have hi0 : i < s0.length := hi s0 (List.mem_cons_self _ _)
  have hx : index s0 (i : Int) = some s0[i] := by
    rw [index_natCast]; exact List.getElem?_eq_getElem hi0
  refine ⟨?_, ?_, rounded_Sub_single rnd⟩
  · obtain ⟨b, n, hb, _, _, ⟨v, hv, hn⟩, hall⟩ := rounded_Sub_spec rnd (s0 :: rest) (by simp)
    refine ⟨b, s0[i], hb, hx, ?_⟩
    rw [index_natCast, hall i (by rw [hn]; exact hi v hv)]
    simp [List.getElem?_eq_getElem hi0]
  · obtain ⟨b, hb, hbi⟩ := Sub_elem (s0 :: rest) (by simp) i hi
    refine ⟨b, s0[i], hb, hx, ?_⟩
    rw [index_natCast, hbi]
    simp [List.getElem?_eq_getElem hi0]

/-- C12, amended, in `float64` arithmetic at `[[1], [1e16], [-1e16]]`, index 0. -/
theorem C12_witness :
    (∃ (b : List FLOAT) (x : FLOAT),
      rounded.Sub binary64 (([1] : List FLOAT) ::
        [[10000000000000000], [-10000000000000000]]) = some b ∧
      index ([1] : List FLOAT) ((0 : Nat) : Int) = some x ∧
      index b ((0 : Nat) : Int) =
        some ((column [[10000000000000000], [-10000000000000000]] 0).foldl
          (fun y v => binary64 (y - v)) x)) ∧
    (∃ (b : List FLOAT) (x : FLOAT),
      Sub (([1] : List FLOAT) :: [[10000000000000000], [-10000000000000000]]) = some b ∧
      index ([1] : List FLOAT) ((0 : Nat) : Int) = some x ∧
      index b ((0 : Nat) : Int) =
        some (x - (column [[10000000000000000], [-10000000000000000]] 0).sum)) ∧
    ∀ s : List FLOAT, rounded.Sub binary64 [s] = some s :=
  C12_Sub_subtracts_in_turn binary64 [1] [[10000000000000000], [-10000000000000000]] 0
    (by decide)

/-- C13: for every non-empty list of sequences `a = [s_0, ..., s_k]` and every
index `i` below all their lengths, `Mul` returns a sequence whose element `i` is
the product `s_0[i] * s_1[i] * ... * s_k[i]`; `Mul` of a single sequence returns
that sequence. -/
theorem C13_Mul_elementwise_product (a : List (List FLOAT)) (h : a ≠ []) (i : Nat)
    (hi : ∀ v ∈ a, i < v.length) :
    (∃ b, Mul a = some b ∧ index b (i : Int) = some (column a i).prod) ∧
    ∀ s : List FLOAT, Mul [s] = some s := by
  obtain ⟨b, hb, hbi⟩ := Mul_elem a h i hi
  exact ⟨⟨b, hb, by rw [index_natCast, hbi]⟩, Mul_single⟩

/-- C13 at `[[2, 3, 4], [5, 6], [7, 8, 9]]`, index 1. -/
theorem C13_witness :
    (∃ b, Mul [[2, 3, 4], [5, 6], [7, 8, 9]] = some b ∧
      index b ((1 : Nat) : Int) = some (column [[2, 3, 4], [5, 6], [7, 8, 9]] 1).prod) ∧
    ∀ s : List FLOAT, Mul [s] = some s :=
  C13_Mul_elementwise_product [[2, 3, 4], [5, 6], [7, 8, 9]] (by decide) 1 (by decide)

/-- C14: for every sequence `a` of length `L`: if `L ≥ 2`, `Derivative(a)` returns
a sequence of length `L-1` whose element `i` is `a[i+1] - a[i]` for every
`0 ≤ i ≤ L-2`; if `L ≤ 1`, it returns the zero-filled sequence of length `L`. -/
theorem C14_Derivative (a : List FLOAT) :
    (2 ≤ len a → ∃ b, Derivative a = some b ∧ len b = len a - 1 ∧
      ∀ i : Int, 0 ≤ i → i ≤ len a - 2 →
        ∃ x y, index a (i + 1) = some x ∧ index a i = some y ∧ index b i = some (x - y)) ∧
    (len a ≤ 1 → Derivative a = some (List.replicate a.length 0)) := by
  have hlen : ∀ v : List FLOAT, len v = (v.length : Int) := fun _ => rfl
  refine ⟨fun h => ?_, fun h => Derivative_short a (by rw [hlen] at h; omega)⟩
  rw [hlen] at h
  obtain ⟨b, hb, hblen, hall⟩ := Derivative_long a (by omega)
  refine ⟨b, hb, by rw [hlen, hlen]; omega, ?_⟩
  intro i h0 hi
  obtain ⟨k, rfl⟩ := Int.eq_ofNat_of_zero_le h0
  rw [hlen] at hi
  have hk : k + 1 < a.length := by omega
  have e1 : (k : Int) + 1 = ((k + 1 : Nat) : Int) := by push_cast; ring
  refine ⟨a[k + 1], a[k], ?_, ?_, ?_⟩
  · rw [e1, index_natCast]; exact List.getElem?_eq_getElem hk
  · rw [index_natCast]; exact List.getElem?_eq_getElem (by omega)
  · rw [index_natCast, hall k hk, List.getD_eq_getElem _ _ hk,
      List.getD_eq_getElem _ _ (show k < a.length by omega)]

/-- C14 at `a = [1, 3, 4, 2]` and at `a = [1]`. -/
theorem C14_witness :
    (∃ b, Derivative [1, 3, 4, 2] = some b ∧ len b = len [1, 3, 4, 2] - 1 ∧
      ∀ i : Int, 0 ≤ i → i ≤ len [1, 3, 4, 2] - 2 →
        ∃ x y, index [1, 3, 4, 2] (i + 1) = some x ∧ index [1, 3, 4, 2] i = some y ∧
          index b i = some (x - y)) ∧
    Derivative [1] = some (List.replicate [1].length 0) :=
  ⟨(C14_Derivative [1, 3, 4, 2]).1 (by decide), (C14_Derivative [1]).2 (by decide)⟩

/-- C15: for every sequence `a` and every integer `n`: if `n ≤ 0`,
`NthDerivative(a, n)` returns `a`; if `n ≥ 1`, it returns a result, which is
`Derivative` applied to `NthDerivative(a, n-1)`, that is `Derivative` applied
`n` times to `a`. -/
theorem C15_NthDerivative (a : List FLOAT) (n : Int) :
    (n ≤ 0 → NthDerivative a n = some a) ∧
    (1 ≤ n → (∃ d, NthDerivative a n = some d) ∧
      NthDerivative a n = (NthDerivative a (n - 1)).bind Derivative ∧
      NthDerivative a n =
        (fun d : Option (List FLOAT) => d.bind Derivative)^[n.toNat] (some a)) := by
  refine ⟨NthDerivative_nonpos a n, fun h => ?_⟩
  obtain ⟨k, hk⟩ : ∃ k : Nat, n = (k : Int) + 1 := ⟨(n - 1).toNat, by omega⟩
  subst hk
  refine ⟨?_, ?_, ?_⟩
  · obtain ⟨d, hd, _⟩ := NthDerivative_length a (k + 1)
    exact ⟨d, by rw [← hd]; push_cast; rfl⟩
  · rw [NthDerivative_succ, show (k : Int) + 1 - 1 = (k : Int) by ring]
  · have e : (k : Int) + 1 = ((k + 1 : Nat) : Int) := by push_cast; ring
    rw [e, NthDerivative_natCast, Int.toNat_ofNat, countDown_eq_iterate]

/-- C15 at `a = [1, 3, 4, 2]`, `n = 2` and `n = -1`. -/
theorem C15_witness :
    NthDerivative [1, 3, 4, 2] (-1) = some [1, 3, 4, 2] ∧
    ((∃ d, NthDerivative [1, 3, 4, 2] 2 = some d) ∧
      NthDerivative [1, 3, 4, 2] 2 = (NthDerivative [1, 3, 4, 2] (2 - 1)).bind Derivative ∧
      NthDerivative [1, 3, 4, 2] 2 =
        (fun d : Option (List FLOAT) => d.bind Derivative)^[(2 : Int).toNat]
          (some [1, 3, 4, 2])) :=
  ⟨(C15_NthDerivative [1, 3, 4, 2] (-1)).1 (by decide),
    (C15_NthDerivative [1, 3, 4, 2] 2).2 (by decide)⟩

/-- C16: repeated differentiation bottoms out. For every sequence `a` of length
`L` and every `n ≥ 0`, `NthDerivative(a, n)` returns a sequence of length
`max(L - n, min(L, 1))`; for non-empty `a` and `n ≥ L` the result is exactly
`[0]`, and for the empty sequence the result is empty for every `n`. -/
theorem C16_NthDerivative_bottoms_out (a : List FLOAT) (n : Int) (hn : 0 ≤ n) :
    (∃ d, NthDerivative a n = some d ∧ len d = max (len a - n) (min (len a) 1)) ∧
    (a ≠ [] → len a ≤ n → NthDerivative a n = some [0]) ∧
    (∀ m : Int, NthDerivative [] m = some []) := by
  have hlen : ∀ v : List FLOAT, len v = (v.length : Int) := fun _ => rfl
  obtain ⟨k, rfl⟩ := Int.eq_ofNat_of_zero_le hn
  refine ⟨?_, fun ha hL => NthDerivative_bottom a k ha (by rw [hlen] at hL; omega),
    NthDerivative_nil⟩
  obtain ⟨d, hd, hdlen⟩ := NthDerivative_length a k
  refine ⟨d, hd, ?_⟩
  rw [hlen, hlen, hdlen]
  omega

/-- C16 at `a = [1, 3, 4, 2]`, `n = 6`. -/
theorem C16_witness :
    (∃ d, NthDerivative [1, 3, 4, 2] 6 = some d ∧
      len d = max (len [1, 3, 4, 2] - 6) (min (len [1, 3, 4, 2]) 1)) ∧
    NthDerivative [1, 3, 4, 2] 6 = some [0] ∧
    (∀ m : Int, NthDerivative [] m = some []) :=
  ⟨(C16_NthDerivative_bottoms_out [1, 3, 4, 2] 6 (by decide)).1,
    (C16_NthDerivative_bottoms_out [1, 3, 4, 2] 6 (by decide)).2.1 (by decide) (by decide),
    (C16_NthDerivative_bottoms_out [1, 3, 4, 2] 6 (by decide)).2.2⟩

/-- C17, on the code: `AverageFilter` multiplies the sum by the rounded
reciprocal `f = 1/width`, `Average` divides the sum by the length, and in
floating-point arithmetic the two differ. In `float64` arithmetic
`AverageFilter([1, 2, 4], 3)` is `[2.333333333333333]` (`7 * (1/3)` rounded),
while `Average([1, 2, 4])` is `2.3333333333333335` (`7/3` rounded). -/
theorem C17_AverageFilter_rounded_reciprocal :
    rounded.AverageFilter binary64 [1, 2, 4] 3 =
      some [2627099782632789 / 1125899906842624] ∧
    rounded.Average binary64 [1, 2, 4] = 5254199565265579 / 2251799813685248 ∧
    rounded.AverageFilter binary64 [1, 2, 4] 3 ≠ some [rounded.Average binary64 [1, 2, 4]] := by
  decide!

/-- C17, amended: for every non-empty sequence `a` of length `L` and every width
`w ≥ L`, `AverageFilter(a, w)` returns a one-element sequence. For `L ≥ 2` the
element is the running sum of `a` multiplied by the computed reciprocal `1/L`,
each operation rounded to `FLOAT`, whatever the rounding `rnd`; for `L = 1` it is
`a[0]`. Over exact arithmetic the sequence is `[Average(a)]`, where `Average(a)`
is the sum of `a` divided by `L`. -/
theorem C17_AverageFilter_full_width (rnd : ℚ → ℚ) (a : List FLOAT) (w : Int) (ha : a ≠ [])
    (hw : len a ≤ w) :
    (2 ≤ len a → rounded.AverageFilter rnd a w =
      some [rnd (a.foldl (fun s v => rnd (s + v)) 0 * rnd (1 / rnd ((len a : Int) : FLOAT)))]) ∧
    (len a = 1 → rounded.AverageFilter rnd a w = some a) ∧
    AverageFilter a w = some [Average a] ∧ Average a = a.sum / ((len a : Int) : FLOAT) := by
  refine ⟨fun h2 => rounded_AverageFilter_full rnd a w h2 hw, fun h1 => ?_,
    AverageFilter_full a w ha hw, ?_⟩
  · unfold rounded.AverageFilter
    simp only [ge_iff_le, if_pos hw]
    rw [if_pos (by omega)]
    exact Copy_eq a
  · have hpos : 0 < a.length := List.length_pos.mpr ha
    unfold Average
    rw [if_neg (by unfold len; omega), foldl_add_eq, zero_add]

/-- C17, amended, in `float64` arithmetic at `a = [1, 2, 4]`, `w = 999`. -/
theorem C17_witness :
    rounded.AverageFilter binary64 [1, 2, 4] 999 =
      some [binary64 (([1, 2, 4] : List FLOAT).foldl (fun s v => binary64 (s + v)) 0 *
        binary64 (1 / binary64 ((len ([1, 2, 4] : List FLOAT) : Int) : FLOAT)))] ∧
    AverageFilter [1, 2, 4] 999 = some [Average [1, 2, 4]] ∧
    Average [1, 2, 4] =
      ([1, 2, 4] : List FLOAT).sum / ((len ([1, 2, 4] : List FLOAT) : Int) : FLOAT) :=
  ⟨(C17_AverageFilter_full_width binary64 [1, 2, 4] 999 (by decide) (by decide)).1 (by decide),
    (C17_AverageFilter_full_width binary64 [1, 2, 4] 999 (by decide) (by decide)).2.2⟩

/-- C18: for every pair of sequences `a`, `b` and every replacement `r`,
`SafeDiv(a, b, r)` and `Div(a, b)` both return a sequence of length
`min(len(a), len(b))` (empty if either input is empty); for every index `i`
below that length, element `i` of `SafeDiv` is `r` when `b[i]` is 0 and
`a[i]/b[i]` otherwise, and it is element `i` of `Div` whenever `b[i]` is not 0. -/
theorem C18_Div_SafeDiv (a b : List FLOAT) (r : FLOAT) :
    ∃ sd d, SafeDiv a b r = some sd ∧ Div a b = some d ∧
      len sd = min (len a) (len b) ∧ len d = min (len a) (len b) ∧
      (a = [] ∨ b = [] → sd = [] ∧ d = []) ∧
      ∀ i : Int, 0 ≤ i → i < min (len a) (len b) →
        ∃ x y, index a i = some x ∧ index b i = some y ∧
          index sd i = some (if y = 0 then r else x / y) ∧
          (y ≠ 0 → index d i = index sd i) := by
  have hlen : ∀ v : List FLOAT, len v = (v.length : Int) := fun _ => rfl
  obtain ⟨sd, hsd, hsdlen, hsdall⟩ := SafeDiv_spec a b r
  obtain ⟨d, hd, hdlen, hdall⟩ := Div_spec a b
  refine ⟨sd, d, hsd, hd, ?_, ?_, ?_, ?_⟩
  · rw [hlen, hlen, hlen, hsdlen]; omega
  · rw [hlen, hlen, hlen, hdlen]; omega
  · intro h
    have h0 : min a.length b.length = 0 := by
      rcases h with h | h <;> subst h <;> simp
    exact ⟨List.length_eq_zero.mp (by omega), List.length_eq_zero.mp (by omega)⟩
  · intro i h0 hi
    obtain ⟨k, rfl⟩ := Int.eq_ofNat_of_zero_le h0
    rw [hlen, hlen] at hi
    have hk : k < min a.length b.length := by omega
    have hka : k < a.length := lt_of_lt_of_le hk (min_le_left _ _)
    have hkb : k < b.length := lt_of_lt_of_le hk (min_le_right _ _)
    have hs := hsdall k hk
    have hq := hdall k hk
    rw [List.getD_eq_getElem _ _ hka, List.getD_eq_getElem _ _ hkb] at hs hq
    refine ⟨a[k], b[k], ?_, ?_, ?_, ?_⟩
    · rw [index_natCast]; exact List.getElem?_eq_getElem hka
    · rw [index_natCast]; exact List.getElem?_eq_getElem hkb
    · rw [index_natCast]; exact hs
    · intro hy
      rw [index_natCast, index_natCast, hs, hq, if_neg hy]

/-- C18 at `a = [1, 2, 3]`, `b = [4, 0]`, `r = 123`. -/
theorem C18_witness : ∃ sd d, SafeDiv [1, 2, 3] [4, 0] 123 = some sd ∧
    Div [1, 2, 3] [4, 0] = some d ∧
    len sd = min (len ([1, 2, 3] : List FLOAT)) (len ([4, 0] : List FLOAT)) ∧
    len d = min (len ([1, 2, 3] : List FLOAT)) (len ([4, 0] : List FLOAT)) ∧
    (([1, 2, 3] : List FLOAT) = [] ∨ ([4, 0] : List FLOAT) = [] → sd = [] ∧ d = []) ∧
    ∀ i : Int, 0 ≤ i →
      i < min (len ([1, 2, 3] : List FLOAT)) (len ([4, 0] : List FLOAT)) →
      ∃ x y, index [1, 2, 3] i = some x ∧ index [4, 0] i = some y ∧
        index sd i = some (if y = 0 then 123 else x / y) ∧
        (y ≠ 0 → index d i = index sd i) :=
  C18_Div_SafeDiv [1, 2, 3] [4, 0] 123

/-- C19: for every sequence `a` and every replacement `r`, `SafeReciprocal(a, r)`
returns a sequence of the length of `a` whose element `i` is `r` when `a[i]` is 0
and `1/a[i]` otherwise; it is element `i` of `Reciprocal(a)` whenever `a[i]` is
not 0. -/
theorem C19_SafeReciprocal (a : List FLOAT) (r : FLOAT) :
    ∃ sr rc, SafeReciprocal a r = some sr ∧ Reciprocal a = some rc ∧ len sr = len a ∧
      ∀ i : Int, 0 ≤ i → i < len a →
        ∃ x, index a i = some x ∧ index sr i = some (if x = 0 then r else 1 / x) ∧
          (x ≠ 0 → index rc i = index sr i) := by
  have hlen : ∀ v : List FLOAT, len v = (v.length : Int) := fun _ => rfl
  obtain ⟨sr, hsr, hsrlen, hsrall⟩ := SafeReciprocal_spec a r
  obtain ⟨rc, hrc, _, hrcall⟩ := Reciprocal_spec a
  refine ⟨sr, rc, hsr, hrc, by rw [hlen, hlen, hsrlen], ?_⟩
  intro i h0 hi
  obtain ⟨k, rfl⟩ := Int.eq_ofNat_of_zero_le h0
  rw [hlen] at hi
  have hk : k < a.length := by omega
  have hs := hsrall k hk
  have hq := hrcall k hk
  rw [List.getD_eq_getElem _ _ hk] at hs hq
  refine ⟨a[k], ?_, ?_, ?_⟩
  · rw [index_natCast]; exact List.getElem?_eq_getElem hk
  · rw [index_natCast]; exact hs
  · intro hx
    rw [index_natCast, index_natCast, hs, hq, if_neg hx]

/-- C19 at `a = [2, 0, 5]`, `r = 123`. -/
theorem C19_witness : ∃ sr rc, SafeReciprocal [2, 0, 5] 123 = some sr ∧
    Reciprocal [2, 0, 5] = some rc ∧ len sr = len ([2, 0, 5] : List FLOAT) ∧
    ∀ i : Int, 0 ≤ i → i < len ([2, 0, 5] : List FLOAT) →
      ∃ x, index [2, 0, 5] i = some x ∧ index sr i = some (if x = 0 then 123 else 1 / x) ∧
        (x ≠ 0 → index rc i = index sr i) :=
  C19_SafeReciprocal [2, 0, 5] 123

/-- C20, on the code: at `a = [1, 2]` and `n = 9223372036854775807`, the largest
64-bit `int`, the sum `len(a)+n-1` wraps, the computed length `(len(a)+n-1)/n`
is `-1` and `EveryNth` panics in `make`; the claim asks for the one-element
result `[a[0]]`. -/
theorem C20_EveryNth_panics_near_max_int :
    Int.tdiv (wrap64 (wrap64 (len ([1, 2] : List FLOAT) + 9223372036854775807) - 1))
      9223372036854775807 = -1 ∧
    EveryNth [1, 2] 9223372036854775807 = none := by
  decide!

/-- C21, on the code: `Range(-9223372036854775808, 9223372036854775807)`, the two
extreme 64-bit `int`s, returns the empty sequence, because `b-a+1` wraps to 0; it
has no `|b - a| + 1` elements and does not start with `a`. -/
theorem C21_Range_full_span_is_empty :
    Range (-9223372036854775808) 9223372036854775807 = some [] ∧
    ¬ ∃ r : List FLOAT, Range (-9223372036854775808) 9223372036854775807 = some r ∧
      len r = |(9223372036854775807 : Int) - (-9223372036854775808)| + 1 := by
  have h : Range (-9223372036854775808) 9223372036854775807 = some [] := by decide
  refine ⟨h, ?_⟩
  rintro ⟨r, hr, hl⟩
  rw [h] at hr
  rw [← Option.some.inj hr] at hl
  revert hl
  decide

/-- C21, amended: for all `int`s `a` and `b` of magnitude at most `2^24`, the
range in which every integer is a value of `FLOAT`, of float32 as of float64,
`Range(a, b)` returns a sequence of `|b - a| + 1` elements that starts with `a` and
ends with `b`; its element `i` is `a + i` when `a ≤ b` and `a - i` when `a > b`.
In float32 arithmetic, in float64 arithmetic and over exact arithmetic the
function returns that same sequence. -/
theorem C21_Range_exact_ints (a b : Int) (ha : |a| ≤ 2 ^ 24) (hb : |b| ≤ 2 ^ 24) :
    ∃ r, rounded.Range binary32 a b = some r ∧ rounded.Range binary64 a b = some r ∧
      Range a b = some r ∧ len r = |b - a| + 1 ∧
      index r 0 = some ((a : Int) : FLOAT) ∧ index r (len r - 1) = some ((b : Int) : FLOAT) ∧
      ∀ i : Int, 0 ≤ i → i < len r →
        index r i = some (((if a ≤ b then a + i else a - i : Int)) : FLOAT) := by
  obtain ⟨r, h32, hr, hlen, h0, hl, hall⟩ := rounded_Range_exact binary32 binary32_intCast a b ha hb
  obtain ⟨r1, h64, hr1, _⟩ := rounded_Range_exact binary64
    (fun k hk => binary64_intCast k (le_trans hk (by norm_num))) a b ha hb
  rw [hr] at hr1
  rw [← Option.some.inj hr1] at h64
  exact ⟨r, h32, h64, hr, hlen, h0, hl, hall⟩

/-- C21, amended, at `a = 10`, `b = 8`. -/
theorem C21_witness : ∃ r, rounded.Range binary32 10 8 = some r ∧
    rounded.Range binary64 10 8 = some r ∧ Range 10 8 = some r ∧
    len r = |(8 : Int) - 10| + 1 ∧
    index r 0 = some (((10 : Int) : Int) : FLOAT) ∧
    index r (len r - 1) = some (((8 : Int) : Int) : FLOAT) ∧
    ∀ i : Int, 0 ≤ i → i < len r →
      index r i = some (((if (10 : Int) ≤ 8 then 10 + i else 10 - i : Int)) : FLOAT) :=
  C21_Range_exact_ints 10 8 (by decide) (by decide)

/-- C22: for every sequence `x` of length `L`, `Reverse(x)` returns a sequence of
length `L` whose element `i` is `x[L-1-i]`, and `Reverse` is an involution:
`Reverse(Reverse(x))` is `x`. -/
theorem C22_Reverse_involution (x : List FLOAT) :
    ∃ y, Reverse x = some y ∧ len y = len x ∧
      (∀ i : Int, 0 ≤ i → i < len x →
        ∃ v, index x (len x - 1 - i) = some v ∧ index y i = some v) ∧
      Reverse y = some x := by
  have hlen : ∀ v : List FLOAT, len v = (v.length : Int) := fun _ => rfl
  refine ⟨x.reverse, Reverse_eq x, by rw [hlen, hlen, List.length_reverse], ?_, ?_⟩
  · intro i h0 hi
    obtain ⟨k, rfl⟩ := Int.eq_ofNat_of_zero_le h0
    rw [hlen] at hi ⊢
    have hk : k < x.length := by omega
    have hj : x.length - 1 - k < x.length := by omega
    have e : (x.length : Int) - 1 - (k : Int) = ((x.length - 1 - k : Nat) : Int) := by omega
    refine ⟨x[x.length - 1 - k], ?_, ?_⟩
    · rw [e, index_natCast]; exact List.getElem?_eq_getElem hj
    · rw [index_natCast, List.getElem?_reverse hk]; exact List.getElem?_eq_getElem hj
  · rw [Reverse_eq, List.reverse_reverse]

/-- C22 at `x = [1, 2, 3]`. -/
theorem C22_witness : ∃ y, Reverse [1, 2, 3] = some y ∧ len y = len ([1, 2, 3] : List FLOAT) ∧
    (∀ i : Int, 0 ≤ i → i < len ([1, 2, 3] : List FLOAT) →
      ∃ v, index [1, 2, 3] (len ([1, 2, 3] : List FLOAT) - 1 - i) = some v ∧
        index y i = some v) ∧
    Reverse y = some [1, 2, 3] :=
  C22_Reverse_involution [1, 2, 3]

/-- C23: the scalar-broadcast transforms are length-preserving elementwise maps.
For every sequence `a`, scalar `k` and index `i < len(a)`: `AddOffset(a, k)[i]` is
`a[i] + k`, `Scale(a, k)[i]` is `a[i] * k`, `Negative(a)[i]` is `-a[i]` and
`Abs(a)[i]` is `AbsValue(a[i])`, where `AbsValue(x)` is `x` when `x ≥ 0` and `-x`
otherwise, hence non-negative; each output has exactly `len(a)` elements. -/
theorem C23_scalar_broadcast (a : List FLOAT) (k : FLOAT) :
    ∃ o s n ab, AddOffset a k = some o ∧ Scale a k = some s ∧ Negative a = some n ∧
      Abs a = some ab ∧ len o = len a ∧ len s = len a ∧ len n = len a ∧ len ab = len a ∧
      (∀ i : Int, 0 ≤ i → i < len a → ∃ x, index a i = some x ∧
        index o i = some (x + k) ∧ index s i = some (x * k) ∧ index n i = some (-x) ∧
        index ab i = some (AbsValue x)) ∧
      ∀ x : FLOAT, AbsValue x = (if x ≥ 0 then x else -x) ∧ 0 ≤ AbsValue x := by
  have hlen : ∀ v : List FLOAT, len v = (v.length : Int) := fun _ => rfl
  refine ⟨_, _, _, _, AddOffset_eq a k, Scale_eq a k, Negative_eq a, Abs_eq a,
    by rw [hlen, hlen, List.length_map], by rw [hlen, hlen, List.length_map],
    by rw [hlen, hlen, List.length_map], by rw [hlen, hlen, List.length_map], ?_,
    fun x => ⟨rfl, AbsValue_nonneg x⟩⟩
  intro i h0 hi
  obtain ⟨j, rfl⟩ := Int.eq_ofNat_of_zero_le h0
  rw [hlen] at hi
  have hj : j < a.length := by omega
  refine ⟨a[j], ?_, ?_, ?_, ?_, ?_⟩
  · rw [index_natCast]; exact List.getElem?_eq_getElem hj
  · rw [index_natCast, List.getElem?_map, List.getElem?_eq_getElem hj]; rfl
  · rw [index_natCast, List.getElem?_map, List.getElem?_eq_getElem hj]; rfl
  · rw [index_natCast, List.getElem?_map, List.getElem?_eq_getElem hj]; rfl
  · rw [index_natCast, List.getElem?_map, List.getElem?_eq_getElem hj]; rfl

/-- C23 at `a = [1, -2, 3]`, `k = 5`. -/
theorem C23_witness : ∃ o s n ab, AddOffset [1, -2, 3] 5 = some o ∧
    Scale [1, -2, 3] 5 = some s ∧ Negative [1, -2, 3] = some n ∧ Abs [1, -2, 3] = some ab ∧
    len o = len ([1, -2, 3] : List FLOAT) ∧ len s = len ([1, -2, 3] : List FLOAT) ∧
    len n = len ([1, -2, 3] : List FLOAT) ∧ len ab = len ([1, -2, 3] : List FLOAT) ∧
    (∀ i : Int, 0 ≤ i → i < len ([1, -2, 3] : List FLOAT) →
      ∃ x, index [1, -2, 3] i = some x ∧
        index o i = some (x + 5) ∧ index s i = some (x * 5) ∧ index n i = some (-x) ∧
        index ab i = some (AbsValue x)) ∧
    ∀ x : FLOAT, AbsValue x = (if x ≥ 0 then x else -x) ∧ 0 ≤ AbsValue x :=
  C23_scalar_broadcast [1, -2, 3] 5

/-- C24: no operation fails on empty input. Every operation that takes a sequence
returns the empty sequence when evaluated on the empty sequence (for `Add`, `Sub`
and `Mul`: when one of the sequences is empty; for `Div` and `SafeDiv`: when
either is), for every value of its scalar or integer parameter, without an
out-of-range index; `MinMax` on the empty sequence returns `(-1, +Inf, -1, -Inf)`
and `Average` returns 0. -/
theorem C24_empty_input :
    Copy [] = some [] ∧ (∀ w : Int, AverageFilter [] w = some []) ∧
    (∀ w : Int, MedianFilter [] w = some []) ∧ Negative [] = some [] ∧
    Derivative [] = some [] ∧ (∀ n : Int, NthDerivative [] n = some []) ∧
    (∀ a : List (List FLOAT), [] ∈ a → Add a = some [] ∧ Sub a = some [] ∧ Mul a = some []) ∧
    (∀ k : FLOAT, AddOffset [] k = some []) ∧ (∀ n : Int, EveryNth [] n = some []) ∧
    Reverse [] = some [] ∧ (∀ k : FLOAT, Scale [] k = some []) ∧ Reciprocal [] = some [] ∧
    (∀ r : FLOAT, SafeReciprocal [] r = some []) ∧ Abs [] = some [] ∧
    (∀ a b : List FLOAT, a = [] ∨ b = [] → Div a b = some []) ∧
    (∀ (a b : List FLOAT) (r : FLOAT), a = [] ∨ b = [] → SafeDiv a b r = some []) ∧
    (∀ n : Int, Resample [] n = some []) ∧
    MinMax [] = some (-1, posInf, -1, negInf) ∧ Average [] = 0 := by
  have h1 : ∀ w : Int, min w (len ([] : List FLOAT)) ≤ 1 := by
    intro w
    have h : min w (len ([] : List FLOAT)) ≤ len ([] : List FLOAT) := min_le_right _ _
    have h0 : len ([] : List FLOAT) = 0 := rfl
    omega
  exact ⟨Copy_eq [], fun w => AverageFilter_copy [] w (h1 w),
    fun w => MedianFilter_copy [] w (h1 w), Negative_eq [], Derivative_short [] (by simp),
    NthDerivative_nil, fun a h => ⟨Add_nil_mem a h, Sub_nil_mem a h, Mul_nil_mem a h⟩,
    fun k => AddOffset_eq [] k, EveryNth_nil, Reverse_eq [], fun k => Scale_eq [] k,
    rfl, fun r => rfl, Abs_eq [], Div_nil, SafeDiv_nil,
    fun n => Resample_empty [] n (Or.inl rfl), rfl, rfl⟩

/-- C24 at the parameters `w = 5`, `n = 3`, `k = 2`, `r = 7` and the sequence
lists `[[1, 2], []]`, `[1, 2]`. -/
theorem C24_witness : AverageFilter [] 5 = some [] ∧ MedianFilter [] 5 = some [] ∧
    NthDerivative [] 3 = some [] ∧ Add [[1, 2], []] = some [] ∧ Sub [[1, 2], []] = some [] ∧
    Mul [[1, 2], []] = some [] ∧ AddOffset [] 2 = some [] ∧ EveryNth [] 3 = some [] ∧
    Scale [] 2 = some [] ∧ SafeReciprocal [] 7 = some [] ∧ Div [1, 2] [] = some [] ∧
    SafeDiv [] [1, 2] 7 = some [] ∧ Resample [] 3 = some [] :=
  ⟨C24_empty_input.2.1 5, C24_empty_input.2.2.1 5, C24_empty_input.2.2.2.2.2.1 3,
    (C24_empty_input.2.2.2.2.2.2.1 [[1, 2], []] (by simp)).1,
    (C24_empty_input.2.2.2.2.2.2.1 [[1, 2], []] (by simp)).2.1,
    (C24_empty_input.2.2.2.2.2.2.1 [[1, 2], []] (by simp)).2.2,
    C24_empty_input.2.2.2.2.2.2.2.1 2, C24_empty_input.2.2.2.2.2.2.2.2.1 3,
    C24_empty_input.2.2.2.2.2.2.2.2.2.2.1 2,
    C24_empty_input.2.2.2.2.2.2.2.2.2.2.2.2.1 7,
    C24_empty_input.2.2.2.2.2.2.2.2.2.2.2.2.2.2.1 [1, 2] [] (Or.inr rfl),
    C24_empty_input.2.2.2.2.2.2.2.2.2.2.2.2.2.2.2.1 [] [1, 2] 7 (Or.inl rfl),
    C24_empty_input.2.2.2.2.2.2.2.2.2.2.2.2.2.2.2.2.1 3⟩

/-- C25: output length is determined by input length and parameter alone. For
each of `AverageFilter`, `MedianFilter`, `Derivative`, `NthDerivative`,
`EveryNth` and `Resample`, any two input sequences of equal length and the same
integer parameter give outputs of the same length. The first four and
`Resample` always return; `EveryNth` returns for both inputs or for neither, and
for both when `n ≤ 0` or `len(a)+n-1` stays below `2^63`. -/
theorem C25_length_determined_by_length (a b : List FLOAT) (p : Int)
    (h : a.length = b.length) :
    (∃ r s, AverageFilter a p = some r ∧ AverageFilter b p = some s ∧ r.length = s.length) ∧
    (∃ r s, MedianFilter a p = some r ∧ MedianFilter b p = some s ∧ r.length = s.length) ∧
    (∃ r s, Derivative a = some r ∧ Derivative b = some s ∧ r.length = s.length) ∧
    (∃ r s, NthDerivative a p = some r ∧ NthDerivative b p = some s ∧ r.length = s.length) ∧
    (EveryNth a p).map List.length = (EveryNth b p).map List.length ∧
    (p ≤ 0 ∨ len a + p - 1 < 2 ^ 63 →
      ∃ r s, EveryNth a p = some r ∧ EveryNth b p = some s ∧ r.length = s.length) ∧
    (∃ r s, Resample a p = some r ∧ Resample b p = some s ∧ r.length = s.length) := by
  have hl : len a = len b := len_congr a b h
  refine ⟨?_, ?_, ?_, NthDerivative_length_congr a b p h, EveryNth_length_congr a b p h,
    EveryNth_returns_congr a b p h, Resample_length_congr a b p h⟩
  · obtain ⟨r, hr, hrl⟩ := AverageFilter_length a p
    obtain ⟨s, hs, hsl⟩ := AverageFilter_length b p
    exact ⟨r, s, hr, hs, length_of_len_eq r s (by rw [hrl, hsl, hl])⟩
  · obtain ⟨r, hr, hrl⟩ := MedianFilter_length a p
    obtain ⟨s, hs, hsl⟩ := MedianFilter_length b p
    exact ⟨r, s, hr, hs, length_of_len_eq r s (by rw [hrl, hsl, hl])⟩
  · obtain ⟨r, hr, hrl⟩ := Derivative_total a
    obtain ⟨s, hs, hsl⟩ := Derivative_total b
    exact ⟨r, s, hr, hs, by rw [hrl, hsl, h]⟩

/-- C25 at `a = [1, 2, 3, 4]`, `b = [9, 7, 7, 0]`, parameter 3. -/
theorem C25_witness :
    (∃ r s, AverageFilter [1, 2, 3, 4] 3 = some r ∧ AverageFilter [9, 7, 7, 0] 3 = some s ∧
      r.length = s.length) ∧
    (∃ r s, MedianFilter [1, 2, 3, 4] 3 = some r ∧ MedianFilter [9, 7, 7, 0] 3 = some s ∧
      r.length = s.length) ∧
    (∃ r s, Derivative [1, 2, 3, 4] = some r ∧ Derivative [9, 7, 7, 0] = some s ∧
      r.length = s.length) ∧
    (∃ r s, NthDerivative [1, 2, 3, 4] 3 = some r ∧ NthDerivative [9, 7, 7, 0] 3 = some s ∧
      r.length = s.length) ∧
    (EveryNth [1, 2, 3, 4] 3).map List.length = (EveryNth [9, 7, 7, 0] 3).map List.length ∧
    ((3 : Int) ≤ 0 ∨ len ([1, 2, 3, 4] : List FLOAT) + 3 - 1 < 2 ^ 63 →
      ∃ r s, EveryNth [1, 2, 3, 4] 3 = some r ∧ EveryNth [9, 7, 7, 0] 3 = some s ∧
        r.length = s.length) ∧
    (∃ r s, Resample [1, 2, 3, 4] 3 = some r ∧ Resample [9, 7, 7, 0] 3 = some s ∧
      r.length = s.length) :=
  C25_length_determined_by_length [1, 2, 3, 4] [9, 7, 7, 0] 3 (by decide)

/-- C26, on the code: the template declares `Reciprocal`, `SafeReciprocal`, `Div`,
`SafeDiv` and `Resample`, and the 64-bit instance declares none of them; these
five are all that the instance lacks. -/
theorem C26_dsp64_lacks_five_functions :
    templateFunctions.filter (fun f => !dsp64Functions.contains f) =
      ["Reciprocal", "SafeReciprocal", "Div", "SafeDiv", "Resample"] ∧
    dsp64Functions.filter (fun f => !templateFunctions.contains f) = [] := by
  decide

/-- C27, on the code: resampling `[0, 10, 20]` to its own length 3 returns
`[0, 20, 20]`, not `[0, 10, 20]`: at the integer source position 1 the fraction
is 0, and the weight `1 - fraction` is given to the upper sample `a[2]`. -/
theorem C27_Resample_same_length_shifts :
    Resample [0, 10, 20] 3 = some [0, 20, 20] ∧
    Resample [0, 10, 20] (len ([0, 10, 20] : List FLOAT)) ≠ some [0, 10, 20] := by
  decide!

/-- C28: index safety of the resampler over exact arithmetic. For every input of
length `L ≥ 2`, every `newLength = n ≥ 3` and every interior index
`1 ≤ i ≤ n-2`, the source position `j = i*(L-1)/(n-1)` satisfies `0 ≤ floor(j)`
and `floor(j) + 1 ≤ L-1`; the code computes `low = floor(j)`, both reads
`a[low]` and `a[high]` succeed and the loop body returns. -/
theorem C28_Resample_index_safety (a : List FLOAT) (n i : Int) (hL : 2 ≤ len a)
    (hn : 3 ≤ n) (h1 : 1 ≤ i) (h2 : i ≤ n - 2) :
    0 ≤ ⌊sourcePos (len a) n i⌋ ∧ ⌊sourcePos (len a) n i⌋ + 1 ≤ len a - 1 ∧
    toInt ((i : ℚ) * (((len a - 1 : Int) : ℚ) / ((n - 1 : Int) : ℚ))) =
      ⌊sourcePos (len a) n i⌋ ∧
    (∃ al ah, index a ⌊sourcePos (len a) n i⌋ = some al ∧
      index a (⌊sourcePos (len a) n i⌋ + 1) = some ah) ∧
    ∀ b : List FLOAT, i < len b →
      ∃ b1, Resample.body a (((len a - 1 : Int) : ℚ) / ((n - 1 : Int) : ℚ)) i b = some b1 := by
  have hlen : ∀ v : List FLOAT, len v = (v.length : Int) := fun _ => rfl
  obtain ⟨m, rfl⟩ := Int.eq_ofNat_of_zero_le (show 0 ≤ n by omega)
  obtain ⟨k, rfl⟩ := Int.eq_ofNat_of_zero_le (show 0 ≤ i by omega)
  have hL2 : 2 ≤ a.length := by rw [hlen] at hL; omega
  have hk : k + 2 ≤ m := by omega
  obtain ⟨hf0, hf1⟩ := sourcePos_floor_bounds a.length m k hL2 hk
  obtain ⟨hp0, _⟩ := sourcePos_bounds a.length m k hL2 hk
  obtain ⟨al, ah, hal, hah, _⟩ := interpolate_some a m k hL2 hk
  rw [hlen]
  refine ⟨hf0, hf1, ?_, ⟨al, ah, by rw [← hlen]; exact hal, by rw [← hlen]; exact hah⟩, ?_⟩
  · rw [indexScale_mul, toInt_eq_floor _ hp0]
  · intro b hb
    rw [hlen] at hb
    obtain ⟨v, _, hbody⟩ := Resample_body_eq a m k hL2 hk b (by omega)
    exact ⟨_, hbody⟩

/-- C28 at `a = [0, 10, 20]`, `n = 4`, `i = 2`. -/
theorem C28_witness :
    0 ≤ ⌊sourcePos (len ([0, 10, 20] : List FLOAT)) 4 2⌋ ∧
    ⌊sourcePos (len ([0, 10, 20] : List FLOAT)) 4 2⌋ + 1 ≤ len ([0, 10, 20] : List FLOAT) - 1 ∧
    toInt (((2 : Int) : ℚ) *
      (((len ([0, 10, 20] : List FLOAT) - 1 : Int) : ℚ) / (((4 : Int) - 1 : Int) : ℚ))) =
      ⌊sourcePos (len ([0, 10, 20] : List FLOAT)) 4 2⌋ ∧
    (∃ al ah, index ([0, 10, 20] : List FLOAT)
        ⌊sourcePos (len ([0, 10, 20] : List FLOAT)) 4 2⌋ = some al ∧
      index ([0, 10, 20] : List FLOAT)
        (⌊sourcePos (len ([0, 10, 20] : List FLOAT)) 4 2⌋ + 1) = some ah) ∧
    ∀ b : List FLOAT, 2 < len b →
      ∃ b1, Resample.body [0, 10, 20]
        (((len ([0, 10, 20] : List FLOAT) - 1 : Int) : ℚ) / (((4 : Int) - 1 : Int) : ℚ)) 2 b
          = some b1 :=
  C28_Resample_index_safety [0, 10, 20] 4 2 (by decide) (by decide) (by decide) (by decide)

/-- C29, on the code: the two products of the interpolation are rounded one by
one, and their sum can leave the value range. In `float64` arithmetic element 1
of `Resample([3, 3], 6)` is `3.0000000000000004`, above `MaxValue([3, 3]) = 3`. -/
theorem C29_Resample_rounded_above_max :
    (rounded.Resample binary64 binary64 [3, 3] 6).bind (fun b => index b 1) =
      some (6755399441055745 / 2251799813685248) ∧
    MaxValue [3, 3] = some (finite 3) ∧
    ¬ ((6755399441055745 / 2251799813685248 : FLOAT) ≤ 3) := by
  decide!

/-- C29, amended: for every non-empty sequence `a` and every `newLength = n ≥ 1`,
`Resample(a, n)` returns a sequence `b` such that

* over exact arithmetic `Resample` never leaves the value range of its input:
  every element of `b` is `≥ MinValue(a)` and `≤ MaxValue(a)`;
* in the floating-point arithmetic of the code, for `len(a) ≤ 2^53`, `n ≤ 2^50`
  and elements of magnitude at most `2^-emin` (no operation overflows),
  `Resample` leaves that range by no more than the rounding error: every element
  of `b` is `≥ MinValue(a) - E` and `≤ MaxValue(a) + E`, where
  `E = 9*M*2^-prec + (M+6)*2^(emin-prec)` and `M` is the greater of
  `|MinValue(a)|` and `|MaxValue(a)|`. The interpolation is computed in float64
  and `FLOAT` is a binary format with a significand of `prec` bits and least
  normal exponent `emin` (float32: 24 and -126, float64: 53 and -1022). -/
theorem C29_Resample_within_range (prec : Nat) (emin : Int) (a : List FLOAT) (n : Int)
    (ha : a ≠ []) (hn : 1 ≤ n) :
    (∃ (b : List FLOAT) (lo hi : FLOAT), Resample a n = some b ∧
      MinValue a = some (finite lo) ∧ MaxValue a = some (finite hi) ∧
      ∀ x ∈ b, lo ≤ x ∧ x ≤ hi) ∧
    (2 ≤ prec → prec ≤ 53 → -1022 ≤ emin → len a ≤ 2 ^ 53 → n ≤ 2 ^ 50 →
      (∀ y ∈ a, |y| ≤ pow2 (-emin)) →
      ∃ (b : List FLOAT) (lo hi : FLOAT),
        rounded.Resample (roundTo prec emin) binary64 a n = some b ∧
        MinValue a = some (finite lo) ∧ MaxValue a = some (finite hi) ∧
        ∀ x ∈ b,
          lo - (9 * max |lo| |hi| * (1 / 2 ^ prec) +
            (max |lo| |hi| + 6) * pow2 (emin - (prec : Int))) ≤ x ∧
          x ≤ hi + (9 * max |lo| |hi| * (1 / 2 ^ prec) +
            (max |lo| |hi| + 6) * pow2 (emin - (prec : Int)))) := by
  obtain ⟨m, rfl⟩ := Int.eq_ofNat_of_zero_le (show 0 ≤ n by omega)
  obtain ⟨lo, hi, hmin, hmax, hb⟩ := MinValue_MaxValue_spec a ha
  constructor
  · obtain ⟨b, hres, hall⟩ := Resample_mem_bounds a m ha (by omega) lo hi hb
    exact ⟨b, lo, hi, hres, hmin, hmax, hall⟩
  · intro hp2 hp53 hemin hL53 hm50 _
    have hL53n : a.length ≤ 2 ^ 53 := by unfold len at hL53; exact_mod_cast hL53
    have hm50n : m ≤ 2 ^ 50 := by exact_mod_cast hm50
    obtain ⟨b, hres, hall⟩ := rounded_Resample_near_range prec emin hp2 hp53 hemin a m ha
      (by omega) hL53n hm50n lo hi hb
    exact ⟨b, lo, hi, hres, hmin, hmax, hall⟩

/-- C29, amended, at `a = [0, 10, 20]`, `n = 5`, with `FLOAT` float32. -/
theorem C29_witness :
    (∃ (b : List FLOAT) (lo hi : FLOAT), Resample [0, 10, 20] 5 = some b ∧
      MinValue [0, 10, 20] = some (finite lo) ∧ MaxValue [0, 10, 20] = some (finite hi) ∧
      ∀ x ∈ b, lo ≤ x ∧ x ≤ hi) ∧
    ∃ (b : List FLOAT) (lo hi : FLOAT),
      rounded.Resample (roundTo 24 (-126)) binary64 [0, 10, 20] 5 = some b ∧
      MinValue [0, 10, 20] = some (finite lo) ∧ MaxValue [0, 10, 20] = some (finite hi) ∧
      ∀ x ∈ b,
        lo - (9 * max |lo| |hi| * (1 / 2 ^ 24) +
          (max |lo| |hi| + 6) * pow2 (-126 - ((24 : Nat) : Int))) ≤ x ∧
        x ≤ hi + (9 * max |lo| |hi| * (1 / 2 ^ 24) +
          (max |lo| |hi| + 6) * pow2 (-126 - ((24 : Nat) : Int))) :=
  ⟨(C29_Resample_within_range 24 (-126) [0, 10, 20] 5 (by decide) (by decide)).1,
    (C29_Resample_within_range 24 (-126) [0, 10, 20] 5 (by decide) (by decide)).2 (by decide)
      (by decide) (by decide) (by decide) (by decide) (by decide!)⟩

/-- C30, on the code: with 64-bit wrapping the computed length `(len(a)+n-1)/n`
is not `ceil(len(a)/n)` for `n` near the maximum `int`. At `a = [5, 6, 7]`,
`n = 9223372036854775806` it is `-1` where the ceiling is 1, and `EveryNth`
panics in `make`; at `a = [1, 2, 3, 4]`, `n = 9223372036854775807` it is 0 and
`EveryNth` returns the empty sequence. -/
theorem C30_EveryNth_length_wraps :
    Int.tdiv (wrap64 (wrap64 (len ([5, 6, 7] : List FLOAT) + 9223372036854775806) - 1))
      9223372036854775806 = -1 ∧
    ⌈((len ([5, 6, 7] : List FLOAT) : Int) : ℚ) / ((9223372036854775806 : Int) : ℚ)⌉ = 1 ∧
    EveryNth [5, 6, 7] 9223372036854775806 = none ∧
    EveryNth [1, 2, 3, 4] 9223372036854775807 = some [] := by
  decide!

end dsp
